import Mathlib

/-!
# waLBerla: ParMetis-based dynamic load balancing (`DynamicParMetis.cpp`)

A shallow embedding of `src/blockforest/loadbalancing/DynamicParMetis.cpp`, followed by one of
`BoundaryHandling::refresh` (`src/boundary/BoundaryHandling.h`).

Conventions of the embedding.

* `uint_t`, `int64_t`, `int` and `size_t` values are block counts, container sizes,
  sequence ids, weights and process ranks.  They are modelled by `Nat` and `Int`; the
  conversions `uint_c` / `int64_c` are the inclusion of `Nat` in `Int`.
* `std::vector<T>` is `List T`, `push_back` appends at the end.
* `std::map<BlockID, V>` is the list of its entries in iteration (key) order; `find` looks
  a key up, `insert` keeps an entry whose key is already present.
* `std::set<uint_t>` is the list of its elements in iteration order.
* Every MPI call is local code on one rank plus a result delivered by the library.  The
  rank-local functions take that result as an argument; the collective itself is a
  function of the values contributed by all ranks (`MPI_Exscan`, `MPI_Alltoall`, ...).
* A failed assertion, an abort and an access outside a container are the result `none`.
-/

namespace walberla
namespace blockforest

/-! ## Data model -/

/-- Modelled from the spec: `BlockID` (declared outside `src/`), the stable block identifier;
only its order and equality are used. -/
abbrev BlockID := Nat

/-- Modelled from the spec: the three components of a `Vector3<double>` (declared outside
`src/`); `D` stands for `double`, whose values are only copied. -/
structure Vector3 (D : Type) where
  c0 : D
  c1 : D
  c2 : D
deriving DecidableEq, Repr

/-- Modelled from the spec: `DynamicParMetisBlockInfo` (declared outside `src/`), the per-block
attribute bundle: vertex weight, vertex size, coordinates and the edge-weight map
`std::map<BlockID, int64_t>` in key order. -/
structure DynamicParMetisBlockInfo (D : Type) where
  vertexWeight : Int
  vertexSize : Int
  vertexCoords : Vector3 D
  edgeWeights : List (BlockID × Int)
deriving DecidableEq, Repr

/-- Modelled from the spec: `PhantomBlock` (declared outside `src/`): its id, the ids of the
blocks of its neighbourhood (`getNeighborhood()[k].getId()`) and its block info
(`getData< DynamicParMetisBlockInfo >()`). -/
structure PhantomBlock (D : Type) where
  id : BlockID
  neighborhood : List BlockID
  data : DynamicParMetisBlockInfo D
deriving DecidableEq, Repr

/-- Modelled from the spec: `PhantomBlockForest` (declared outside `src/`), the process-local
phantom forest: the block map in key order and the list of neighbour processes. -/
structure PhantomBlockForest (D : Type) where
  blockMap : List (BlockID × PhantomBlock D)
  neighboringProcesses : List Nat
deriving DecidableEq, Repr

/-- Modelled from the spec: `PhantomBlockForest::getNumberOfBlocks` (declared outside `src/`),
the number of entries of the block map. -/
def PhantomBlockForest.getNumberOfBlocks {D : Type} (phantomForest : PhantomBlockForest D) : Nat :=
  phantomForest.blockMap.length

/-! ## Block sequence numbering -/

/-- The collective `MPI_Exscan` with `MPI_SUM`, one element per rank: rank `i > 0` receives the
sum of the values sent by ranks `0 .. i-1`.  On rank 0 the receive buffer is not significant;
`undef` is whatever it holds after the call. -/
def MPI_Exscan (undef : Nat) (sendbuf : List Nat) (rank : Nat) : Nat :=
  if rank = 0 then undef else (sendbuf.take rank).sum

/-- `getBlockSequenceRange` on one rank: `rank` is the rank in `comm`, `scan` the content of
`sequenceStartOnProcess` after `MPI_Exscan`. -/
def getBlockSequenceRange {D : Type} (phantomForest : PhantomBlockForest D) (rank : Nat)
    (scan : Nat) : Nat × Nat :=
  let numLocalBlocks := phantomForest.getNumberOfBlocks
  let sequenceStartOnProcess := if rank = 0 then 0 else scan
  (sequenceStartOnProcess, sequenceStartOnProcess + numLocalBlocks)

/-- All ranks of a communicator run `getBlockSequenceRange`: entry `i` is the range returned on
rank `i`, the scan being fed with every rank's local block count. -/
def blockSequenceRanges {D : Type} (undef : Nat) (forests : List (PhantomBlockForest D)) :
    List (Nat × Nat) :=
  (List.range forests.length).zipWith
    (fun rank phantomForest =>
      getBlockSequenceRange phantomForest rank
        (MPI_Exscan undef (forests.map PhantomBlockForest.getNumberOfBlocks) rank))
    forests

/-! ## Redistribution-set derivation (`operator()`, lines 222-244) -/

/-- `uint_c`: conversion to `uint_t`, applied to values that are not negative. -/
def uint_c (x : Int) : Nat := x.toNat

/-- `int64_c`: conversion of a size, rank or sequence id to `int64_t`. -/
def int64_c (x : Nat) : Int := x

/-- `std::set<uint_t>::insert`: an element already in the set is not inserted again. -/
def setInsert (s : List Nat) (x : Nat) : List Nat :=
  if x ∈ s then s else List.orderedInsert (· ≤ ·) x s

/-- Loop of lines 224-229: every value of `part` is checked against `[0, numProcesses)` and its
flag is set to 1.  A value outside the range fails the assertions (debug build) and indexes
outside the vector (release build). -/
def markTargets (numProcesses : Nat) (isSendingBlockToProcess : List Nat) :
    List Int → Option (List Nat)
  | [] => some isSendingBlockToProcess
  | p :: rest =>
    if 0 ≤ p ∧ p < (numProcesses : Int) ∧ uint_c p < isSendingBlockToProcess.length then
      markTargets numProcesses (isSendingBlockToProcess.set (uint_c p) 1) rest
    else none

/-- Lines 223-230: the send vector of rank `rank`, one flag per process; the own flag is
cleared after the loop. -/
def isSendingBlockToProcess (rank numProcesses : Nat) (part : List Int) : Option (List Nat) :=
  match markTargets numProcesses (List.replicate numProcesses 0) part with
  | none => none
  | some v => if rank < v.length then some (v.set rank 0) else none

/-- The collective `MPI_Alltoall` with one `uint8_t` per pair of ranks: `sendbufs` holds the
send vector of every rank, rank `rank` receives in entry `i` the entry `rank` of the send
vector of rank `i` (the transpose of the send matrix). -/
def MPI_Alltoall (sendbufs : List (List Nat)) (rank : Nat) : List Nat :=
  sendbufs.map (fun buf => buf.getD rank 0)

/-- Lines 234-236: every index whose received flag is 1 is inserted into the set passed in. -/
def insertReceivers (processesToRecvFrom : List Nat) (isReceivingBlockFromProcess : List Nat) :
    List Nat :=
  isReceivingBlockFromProcess.enum.foldl
    (fun s e => if e.2 = 1 then setInsert s e.1 else s) processesToRecvFrom

/-- Lines 240-244: entry number `i + k` of `targetProcess` gets `uint_c(part[i + k])`; `none`
when `part` has no such entry. -/
def assignTargetsFrom {B : Type} (part : List Int) : Nat → List (B × Nat) → Option (List (B × Nat))
  | _, [] => some []
  | i, (b, _) :: rest =>
    match part[i]? with
    | none => none
    | some p =>
      match assignTargetsFrom part (i + 1) rest with
      | none => none
      | some rest' => some ((b, uint_c p) :: rest')

/-- Lines 240-244 from `i = 0`. -/
def assignTargets {B : Type} (part : List Int) (targetProcess : List (B × Nat)) :
    Option (List (B × Nat)) :=
  assignTargetsFrom part 0 targetProcess

/-- Lines 222-244 on one rank: `part` is the partition vector after the partitioner phase,
`isReceivingBlockFromProcess` the vector delivered by `MPI_Alltoall`.  The result is the
updated `targetProcess` and `processesToRecvFrom`. -/
def deriveRedistribution {B : Type} (rank numProcesses : Nat) (part : List Int)
    (isReceivingBlockFromProcess : List Nat) (targetProcess : List (B × Nat))
    (processesToRecvFrom : List Nat) : Option (List (B × Nat) × List Nat) :=
  match isSendingBlockToProcess rank numProcesses part with
  | none => none
  | some _ =>
    match assignTargets part targetProcess with
    | none => none
    | some targetProcess' =>
      some (targetProcess', insertReceivers processesToRecvFrom isReceivingBlockFromProcess)

/-- All entries of a list of results, or `none` when one of them failed. -/
def allResults {α : Type} : List (Option α) → Option (List α)
  | [] => some []
  | none :: _ => none
  | some a :: rest =>
    match allResults rest with
    | none => none
    | some as => some (a :: as)

/-- The send vectors of all ranks: `parts` holds the partition vector of every rank of the
original communicator, rank `r` builds its send vector from entry `r`. -/
def sendMatrix (parts : List (List Int)) : Option (List (List Nat)) :=
  allResults (parts.enum.map (fun e => isSendingBlockToProcess e.1 parts.length e.2))

/-- The receive-sets of all ranks after the all-to-all: rank `r` inserts into the set it was
given, entry `r` of `initial`. -/
def receiveSets (initial : List (List Nat)) (matrix : List (List Nat)) : List (List Nat) :=
  initial.enum.map (fun e => insertReceivers e.2 (MPI_Alltoall matrix e.1))

/-! ## Configuration -/

/-- Modelled from the spec: the enumeration `DynamicParMetis::Algorithm` (declared in
`DynamicParMetis.h`, outside `src/`), with the enumerators the source file uses. -/
inductive Algorithm where
  | PARMETIS_PART_GEOM_KWAY
  | PARMETIS_PART_KWAY
  | PARMETIS_ADAPTIVE_REPART
  | PARMETIS_REFINE_KWAY
deriving DecidableEq, Repr

/-- Modelled from the spec: the enumeration `DynamicParMetis::WeightsToUse` (declared in
`DynamicParMetis.h`, outside `src/`), with the enumerators the source file uses. -/
inductive WeightsToUse where
  | PARMETIS_NO_WEIGHTS
  | PARMETIS_EDGE_WEIGHTS
  | PARMETIS_VERTEX_WEIGHTS
  | PARMETIS_BOTH_WEIGHTS
deriving DecidableEq, Repr

/-- Modelled from the spec: the enumeration `DynamicParMetis::EdgeSource` (declared in
`DynamicParMetis.h`, outside `src/`), with the enumerators the source file uses. -/
inductive EdgeSource where
  | PARMETIS_EDGES_FROM_FOREST
  | PARMETIS_EDGES_FROM_EDGE_WEIGHTS
deriving DecidableEq, Repr

/-- Modelled from the spec: the configuration members of a `DynamicParMetis` balancer (the
class is declared in `DynamicParMetis.h`, outside `src/`). -/
structure DynamicParMetis where
  algorithm_ : Algorithm
  weightsToUse_ : WeightsToUse
  edgeSource_ : EdgeSource
deriving DecidableEq, Repr

/-! ## Graph builder (`operator()`, lines 137-179) -/

/-- `std::map::find`: the value stored for `key`, `none` for the end iterator. -/
def mapFind {V : Type} (m : List (BlockID × V)) (key : BlockID) : Option V :=
  match m with
  | [] => none
  | (k, v) :: rest => if k = key then some v else mapFind rest key

/-- The arrays filled by the graph builder. -/
structure GraphArrays (D : Type) where
  adjncy : List Int
  xadj : List Int
  vsize : List Int
  vwgt : List Int
  adjwgt : List Int
  xyz : List D
deriving DecidableEq, Repr

/-- Lines 149-156, the loop over the neighbourhood of a block: each neighbour id is looked up in
the directory (a miss fails the assertion of line 152 and dereferences the end iterator), its
sequence id is appended to `adjncy` and its edge weight, 0 when the block's edge-weight map has
no entry for it, to `adjwgt`. -/
def forestEdges (mapping : List (BlockID × Nat)) (edgeWeights : List (BlockID × Int)) :
    List BlockID → List Int × List Int → Option (List Int × List Int)
  | [], arrays => some arrays
  | nid :: rest, (adjncy, adjwgt) =>
    match mapFind mapping nid with
    | none => none
    | some sequenceId =>
      forestEdges mapping edgeWeights rest
        (adjncy ++ [int64_c sequenceId],
          adjwgt ++ [match mapFind edgeWeights nid with
            | none => 0
            | some w => w])

/-- Lines 159-165, the loop over the entries of the edge-weight map of a block: the key is
looked up in the directory (a miss fails the assertion of line 162), its sequence id is
appended to `adjncy` and the stored weight to `adjwgt`. -/
def edgeWeightEdges (mapping : List (BlockID × Nat)) :
    List (BlockID × Int) → List Int × List Int → Option (List Int × List Int)
  | [], arrays => some arrays
  | (id, w) :: rest, (adjncy, adjwgt) =>
    match mapFind mapping id with
    | none => none
    | some sequenceId =>
      edgeWeightEdges mapping rest (adjncy ++ [int64_c sequenceId], adjwgt ++ [w])

/-- Lines 146-166: the `switch` on the edge source, run on the current `adjncy` and `adjwgt`. -/
def emitEdges {D : Type} (edgeSource_ : EdgeSource) (mapping : List (BlockID × Nat))
    (block : PhantomBlock D) (arrays : List Int × List Int) : Option (List Int × List Int) :=
  match edgeSource_ with
  | .PARMETIS_EDGES_FROM_FOREST =>
    forestEdges mapping block.data.edgeWeights block.neighborhood arrays
  | .PARMETIS_EDGES_FROM_EDGE_WEIGHTS =>
    edgeWeightEdges mapping block.data.edgeWeights arrays

/-- Lines 142-171, the body of the loop over `targetProcess` for one entry. -/
def addBlock {D : Type} (edgeSource_ : EdgeSource) (mapping : List (BlockID × Nat))
    (g : GraphArrays D) (it : PhantomBlock D × Nat) : Option (GraphArrays D) :=
  let xadj := g.xadj ++ [int64_c g.adjncy.length]
  let block := it.1
  let bi := block.data
  match emitEdges edgeSource_ mapping block (g.adjncy, g.adjwgt) with
  | none => none
  | some (adjncy, adjwgt) =>
    some
      { adjncy := adjncy
        xadj := xadj
        vsize := g.vsize ++ [bi.vertexSize]
        vwgt := g.vwgt ++ [bi.vertexWeight]
        adjwgt := adjwgt
        xyz := g.xyz ++ [bi.vertexCoords.c0] ++ [bi.vertexCoords.c1] ++ [bi.vertexCoords.c2] }

/-- Lines 140-172, the loop over `targetProcess`. -/
def graphLoop {D : Type} (edgeSource_ : EdgeSource) (mapping : List (BlockID × Nat)) :
    List (PhantomBlock D × Nat) → GraphArrays D → Option (GraphArrays D)
  | [], g => some g
  | it :: rest, g =>
    match addBlock edgeSource_ mapping g it with
    | none => none
    | some g' => graphLoop edgeSource_ mapping rest g'

/-- Lines 137-173: the arrays start empty, the loop runs, the final offset closes `xadj`. -/
def buildGraph {D : Type} (edgeSource_ : EdgeSource) (mapping : List (BlockID × Nat))
    (targetProcess : List (PhantomBlock D × Nat)) : Option (GraphArrays D) :=
  match graphLoop edgeSource_ mapping targetProcess
      { adjncy := [], xadj := [], vsize := [], vwgt := [], adjwgt := [], xyz := [] } with
  | none => none
  | some g => some { g with xadj := g.xadj ++ [int64_c g.adjncy.length] }

/-- Lines 176-179, the assertions on the lengths of the arrays. -/
def graphAssertions {D : Type} (phantomForest : PhantomBlockForest D) (g : GraphArrays D) :
    Bool :=
  decide (g.xadj.length = phantomForest.getNumberOfBlocks + 1) &&
  decide (g.vwgt.length = phantomForest.getNumberOfBlocks) &&
  decide (g.vsize.length = phantomForest.getNumberOfBlocks) &&
  decide (g.adjncy.length = g.adjwgt.length)

/-- The edges the edge loop emits for one block, from empty arrays. -/
def blockEdges {D : Type} (edgeSource_ : EdgeSource) (mapping : List (BlockID × Nat))
    (block : PhantomBlock D) : Option (List Int × List Int) :=
  emitEdges edgeSource_ mapping block ([], [])

/-- The block ids the edge loop looks up in the directory for one block. -/
def referencedIds {D : Type} (edgeSource_ : EdgeSource) (block : PhantomBlock D) :
    List BlockID :=
  match edgeSource_ with
  | .PARMETIS_EDGES_FROM_FOREST => block.neighborhood
  | .PARMETIS_EDGES_FROM_EDGE_WEIGHTS => block.data.edgeWeights.map Prod.fst

/-- A sample block for concrete evaluations: the block info holds weight 2, size 3, the
coordinates 10, 20, 30 and the given edge weights. -/
def sampleBlock (id : BlockID) (neighborhood : List BlockID) (edgeWeights : List (BlockID × Int)) :
    PhantomBlock Int :=
  { id := id
    neighborhood := neighborhood
    data :=
      { vertexWeight := 2
        vertexSize := 3
        vertexCoords := { c0 := 10, c1 := 20, c2 := 30 }
        edgeWeights := edgeWeights } }

/-- The edges of one block, empty when the edge loop fails. -/
def edgeRow {D : Type} (edgeSource_ : EdgeSource) (mapping : List (BlockID × Nat))
    (block : PhantomBlock D) : List Int × List Int :=
  (blockEdges edgeSource_ mapping block).getD ([], [])

/-- Number of edges of the first `i` entries of `targetProcess`. -/
def rowOffset {D : Type} (edgeSource_ : EdgeSource) (mapping : List (BlockID × Nat))
    (targetProcess : List (PhantomBlock D × Nat)) (i : Nat) : Nat :=
  ((targetProcess.take i).map (fun it => (edgeRow edgeSource_ mapping it.1).1.length)).sum

/-- Closed form of the arrays produced by `buildGraph` when every edge loop succeeds; it is the
subject of the lemma `buildGraph_eq_some_iff` and serves the proofs only. -/
def closedGraph {D : Type} (edgeSource_ : EdgeSource) (mapping : List (BlockID × Nat))
    (targetProcess : List (PhantomBlock D × Nat)) : GraphArrays D :=
  { adjncy := (targetProcess.map (fun it => (edgeRow edgeSource_ mapping it.1).1)).flatten
    xadj := (List.range (targetProcess.length + 1)).map (fun i =>
      int64_c (rowOffset edgeSource_ mapping targetProcess i))
    vsize := targetProcess.map (fun it => it.1.data.vertexSize)
    vwgt := targetProcess.map (fun it => it.1.data.vertexWeight)
    adjwgt := (targetProcess.map (fun it => (edgeRow edgeSource_ mapping it.1).2)).flatten
    xyz := (targetProcess.map (fun it =>
      [it.1.data.vertexCoords.c0, it.1.data.vertexCoords.c1, it.1.data.vertexCoords.c2])).flatten }

/-- Two entries of `targetProcess` that differ at most in the neighbourhood of the block. -/
def sameUpToNeighborhood {D : Type} (a b : PhantomBlock D × Nat) : Prop :=
  a.1.id = b.1.id ∧ a.1.data = b.1.data ∧ a.2 = b.2

/-- A sample directory for concrete evaluations. -/
def sampleMapping : List (BlockID × Nat) := [(1, 0), (2, 1), (7, 5)]

/-- Two sample entries of `targetProcess` for concrete evaluations. -/
def sampleTargets : List (PhantomBlock Int × Nat) :=
  [(sampleBlock 1 [2, 7] [(2, 4)], 0), (sampleBlock 2 [1] [(1, 9), (7, 3)], 0)]

/-- A sample forest for concrete evaluations: sample blocks with the given ids, without
neighbourhoods and edge weights. -/
def sampleForest (ids : List BlockID) (neighboringProcesses : List Nat) :
    PhantomBlockForest Int :=
  { blockMap := ids.map (fun id => (id, sampleBlock id [] []))
    neighboringProcesses := neighboringProcesses }

/-! ## Distributed block-id directory (`getBlockIdToSequenceMapping`, lines 56-91)

The flag `debug` tells whether `WALBERLA_ASSERT` is active (debug build) or compiled out. -/

/-- `std::map::insert`: the map after the call and whether the entry was inserted; an entry
whose key is present is not inserted and the stored value stays. -/
def mapInsert {V : Type} (m : List (BlockID × V)) (entry : BlockID × V) :
    List (BlockID × V) × Bool :=
  match mapFind m entry.1 with
  | some _ => (m, false)
  | none => (List.orderedInsert (fun a b => a.1 ≤ b.1) entry m, true)

/-- Lines 61-63: the loop over the block map, inserting `(id, sequenceId++)`. -/
def assignSequenceIds {B : Type} :
    List (BlockID × B) → List (BlockID × Nat) × Nat → List (BlockID × Nat) × Nat
  | [], state => state
  | (id, _) :: rest, (mapping, sequenceId) =>
    assignSequenceIds rest ((mapInsert mapping (id, sequenceId)).1, sequenceId + 1)

/-- Lines 58-64: the local part of the directory; in a debug build the assertion of line 64
compares the counter with the end of the range. -/
def localMapping {D : Type} (debug : Bool) (phantomForest : PhantomBlockForest D)
    (blockSequenceRange : Nat × Nat) : Option (List (BlockID × Nat)) :=
  let state := assignSequenceIds phantomForest.blockMap ([], blockSequenceRange.1)
  if debug && state.2 != blockSequenceRange.2 then none else some state.1

/-- Lines 82-87: the entries of one received map are inserted; in a debug build the assertion
of line 86 fails when an entry was not inserted. -/
def mergeRemote (debug : Bool) (mapping : List (BlockID × Nat)) :
    List (BlockID × Nat) → Option (List (BlockID × Nat))
  | [] => some mapping
  | remoteIt :: rest =>
    let result := mapInsert mapping remoteIt
    if debug && !result.2 then none else mergeRemote debug result.1 rest

/-- Lines 77-88: the loop over the received buffers, in the order of arrival. -/
def mergeBuffers (debug : Bool) (mapping : List (BlockID × Nat)) :
    List (List (BlockID × Nat)) → Option (List (BlockID × Nat))
  | [] => some mapping
  | remoteMapping :: rest =>
    match mergeRemote debug mapping remoteMapping with
    | none => none
    | some mapping' => mergeBuffers debug mapping' rest

/-- `getBlockIdToSequenceMapping` on one rank: `received` holds the maps read from the buffers
of the buffer system, in the order of arrival. -/
def getBlockIdToSequenceMapping {D : Type} (debug : Bool) (phantomForest : PhantomBlockForest D)
    (blockSequenceRange : Nat × Nat) (received : List (List (BlockID × Nat))) :
    Option (List (BlockID × Nat)) :=
  match localMapping debug phantomForest blockSequenceRange with
  | none => none
  | some mapping => mergeBuffers debug mapping received

/-- Modelled from the spec: the exchange through `mpi::BufferSystem` (declared outside `src/`),
lines 70-75 seen from the receiver: the map rank `sender` puts into its send buffer for rank
`rank`.  `procs` holds the forest and the sequence range of every rank of `comm`, the
neighbour lists naming ranks of `comm`.  A rank that does not list `rank` sends nothing, and a
rank that aborted sends nothing. -/
def sentMapping {D : Type} (debug : Bool) (procs : List (PhantomBlockForest D × (Nat × Nat)))
    (sender rank : Nat) : Option (List (BlockID × Nat)) :=
  match procs[sender]? with
  | none => none
  | some (phantomForest, blockSequenceRange) =>
    if rank ∈ phantomForest.neighboringProcesses then
      localMapping debug phantomForest blockSequenceRange
    else none

/-- The directory built on rank `rank` of `comm`.  Modelled from the spec: the receiver set of
the buffer system is the declared neighbour list; it expects one buffer from every rank of
`arrival`, the ranks of the own neighbour list in the order their buffers
arrive; the exchange does not complete when one of them sends nothing. -/
def directoryOnRank {D : Type} (debug : Bool)
    (procs : List (PhantomBlockForest D × (Nat × Nat))) (arrival : List Nat) (rank : Nat) :
    Option (List (BlockID × Nat)) :=
  match procs[rank]? with
  | none => none
  | some (phantomForest, blockSequenceRange) =>
    match allResults (arrival.map (fun sender => sentMapping debug procs sender rank)) with
    | none => none
    | some received =>
      getBlockIdToSequenceMapping debug phantomForest blockSequenceRange received

/-- The entries of `mapping` inserted one after the other, without assertion. -/
def insertAll (mapping : List (BlockID × Nat)) (entries : List (BlockID × Nat)) :
    List (BlockID × Nat) :=
  entries.foldl (fun m e => (mapInsert m e).1) mapping

/-- The pairs `(id, sequenceId)` the loop of lines 61-63 inserts, counting from `start`. -/
def localEntries {B : Type} (start : Nat) : List (BlockID × B) → List (BlockID × Nat)
  | [] => []
  | (id, _) :: rest => (id, start) :: localEntries (start + 1) rest

/-- Sample processes for concrete evaluations: three ranks with 2, 1 and 2 blocks; ranks 0 and
1 are neighbours, ranks 1 and 2 are neighbours. -/
def sampleProcs : List (PhantomBlockForest Int × (Nat × Nat)) :=
  [(sampleForest [10, 11] [1], (0, 2)), (sampleForest [20] [0, 2], (2, 3)),
    (sampleForest [30, 31] [1], (3, 5))]

/-- The neighbour list of rank `rank`, empty for a rank outside `procs`. -/
def neighborsOf {D : Type} (procs : List (PhantomBlockForest D × (Nat × Nat))) (rank : Nat) :
    List Nat :=
  match procs[rank]? with
  | none => []
  | some (phantomForest, _) => phantomForest.neighboringProcesses

/-- The ids of the blocks rank `rank` owns, empty for a rank outside `procs`. -/
def blockIdsOf {D : Type} (procs : List (PhantomBlockForest D × (Nat × Nat))) (rank : Nat) :
    List BlockID :=
  match procs[rank]? with
  | none => []
  | some (phantomForest, _) => phantomForest.blockMap.map Prod.fst

/-! ## The rebalancing pass (`DynamicParMetis::operator()`, lines 104-259) -/

/-- The arguments handed to the entry points of the external partitioner.  The record lists
the arguments of all four entry points; an entry point reads the fields of its own parameter
list.  `wgtflag` is the value of `weightsToUse_`; the communicator argument is the
sub-communicator. -/
structure ParMetisArgs (D : Type) where
  vtxdist : List Int
  xadj : List Int
  adjncy : List Int
  vwgt : List Int
  vsize : List Int
  adjwgt : List Int
  wgtflag : WeightsToUse
  numflag : Int
  ndims : Int
  xyz : List D
  ncon : Int
  nparts : Int
  tpwgts : List D
  ubvec : List D
  ipc2redist : D
  options : List Int
  part : List Int

/-- What an entry point of the external partitioner hands back: its status, the edge cut and
the content of the buffer `part` after the call, by index. -/
structure ParMetisResult where
  status : Int
  edgecut : Int
  part : Nat → Int

/-- Modelled from the spec: the wrapper `core::ParMETIS_V3_*` of the external partitioner
(declared outside `src/`):
the success status and the four collective entry points. -/
structure ParMetisWrapper (D : Type) where
  METIS_OK : Int
  ParMETIS_V3_PartGeomKway : ParMetisArgs D → ParMetisResult
  ParMETIS_V3_PartKway : ParMetisArgs D → ParMetisResult
  ParMETIS_V3_AdaptiveRepart : ParMetisArgs D → ParMetisResult
  ParMETIS_V3_RefineKway : ParMetisArgs D → ParMetisResult

/-- The values of type `double` computed at the call site (lines 185-189): `real_t(1.05)`,
`real_t(1000000.0)` and `1.0 / double_c(nparts)`. -/
structure DoubleValues (D : Type) where
  imbalanceTolerance : D
  ipc2redist : D
  weightFraction : Int → D

/-- What the MPI library delivers to one rank during one call of `operator()`. -/
structure Collectives where
  /-- The result of `mpi::allGatherv` (line 120): the ranks owning at least one block. -/
  ranks : List Nat
  /-- The rank in the sub-communicator (`translateRank`, line 44). -/
  subRank : Nat
  /-- The content of `sequenceStartOnProcess` after `MPI_Exscan` (line 49). -/
  scan : Nat
  /-- The maps read from the received buffers (lines 77-80), in the order of arrival. -/
  received : List (List (BlockID × Nat))
  /-- The result of `mpi::allGather` (line 134): the range ends of the sub-communicator. -/
  rangeEnds : List Int
  /-- The content of `isReceivingBlockFromProcess` after `MPI_Alltoall` (line 233). -/
  isReceivingBlockFromProcess : List Nat

/-- Lines 181-216: the arguments are assembled and the entry point of the configured algorithm
is called, once. -/
def callPartitioner {D : Type} (self : DynamicParMetis) (core : ParMetisWrapper D)
    (fp : DoubleValues D) (numProcesses : Nat) (vtxdist : List Int) (g : GraphArrays D)
    (part : List Int) : ParMetisResult :=
  let ncon : Int := 1
  let nparts : Int := int64_c numProcesses
  let args : ParMetisArgs D :=
    { vtxdist := vtxdist
      xadj := g.xadj
      adjncy := g.adjncy
      vwgt := g.vwgt
      vsize := g.vsize
      adjwgt := g.adjwgt
      wgtflag := self.weightsToUse_
      numflag := 0
      ndims := 3
      xyz := g.xyz
      ncon := ncon
      nparts := nparts
      tpwgts := List.replicate (uint_c (nparts * ncon)) (fp.weightFraction nparts)
      ubvec := [fp.imbalanceTolerance]
      ipc2redist := fp.ipc2redist
      options := [1, 0, 23, 1]
      part := part }
  match self.algorithm_ with
  | .PARMETIS_PART_GEOM_KWAY => core.ParMETIS_V3_PartGeomKway args
  | .PARMETIS_PART_KWAY => core.ParMETIS_V3_PartKway args
  | .PARMETIS_ADAPTIVE_REPART => core.ParMETIS_V3_AdaptiveRepart args
  | .PARMETIS_REFINE_KWAY => core.ParMETIS_V3_RefineKway args

/-- Lines 131-219, the branch of a rank inside the sub-communicator: sequence range,
directory, vertex distribution, graph, assertions, partitioner call, abort on a status other
than `METIS_OK`.  The result is the vector `part` after the call. -/
def partitionerPhase {D : Type} (self : DynamicParMetis) (debug : Bool)
    (core : ParMetisWrapper D) (fp : DoubleValues D) (numProcesses : Nat) (mpi : Collectives)
    (targetProcess : List (PhantomBlock D × Nat)) (phantomForest : PhantomBlockForest D)
    (part : List Int) : Option (List Int) :=
  let numSubProcesses := mpi.ranks.length
  let blockSequenceRange := getBlockSequenceRange phantomForest mpi.subRank mpi.scan
  match getBlockIdToSequenceMapping debug phantomForest blockSequenceRange mpi.received with
  | none => none
  | some mapping =>
    let vtxdist := 0 :: mpi.rangeEnds
    match buildGraph self.edgeSource_ mapping targetProcess with
    | none => none
    | some g =>
      if debug && !(decide (vtxdist.length = numSubProcesses + 1) &&
          graphAssertions phantomForest g) then none
      else
        let result := callPartitioner self core fp numProcesses vtxdist g part
        if result.status ≠ core.METIS_OK then none
        else some ((List.range part.length).map result.part)

/-- Lines 113-220: the vector `part` when line 222 is reached.  It starts as
`getNumberOfBlocks` copies of the own rank; a rank of the gathered list gets a non-null
sub-communicator and runs the partitioner phase. -/
def partitionResult {D : Type} (self : DynamicParMetis) (debug : Bool)
    (core : ParMetisWrapper D) (fp : DoubleValues D) (rank numProcesses : Nat)
    (mpi : Collectives) (targetProcess : List (PhantomBlock D × Nat))
    (phantomForest : PhantomBlockForest D) : Option (List Int) :=
  let part := List.replicate phantomForest.getNumberOfBlocks (int64_c rank)
  if rank ∈ mpi.ranks then
    partitionerPhase self debug core fp numProcesses mpi targetProcess phantomForest part
  else some part

/-- `DynamicParMetis::operator()` on one rank: the updated `targetProcess`, the updated
`processesToRecvFrom` and the returned flag; `none` when the pass aborts.  The iteration number
is not read. -/
def DynamicParMetis.call {D : Type} (self : DynamicParMetis) (debug : Bool)
    (core : ParMetisWrapper D) (fp : DoubleValues D) (rank numProcesses : Nat)
    (mpi : Collectives) (targetProcess : List (PhantomBlock D × Nat))
    (processesToRecvFrom : List Nat) (phantomForest : PhantomBlockForest D) (_iteration : Nat) :
    Option (List (PhantomBlock D × Nat) × List Nat × Bool) :=
  match partitionResult self debug core fp rank numProcesses mpi targetProcess phantomForest with
  | none => none
  | some part =>
    match deriveRedistribution rank numProcesses part mpi.isReceivingBlockFromProcess
        targetProcess processesToRecvFrom with
    | none => none
    | some (targetProcess', processesToRecvFrom') =>
      some (targetProcess', processesToRecvFrom', false)

/-- A sample partitioner for concrete evaluations: every entry point succeeds with status 1 and
assigns vertex `i` to part `i % 2`. -/
def sampleWrapper : ParMetisWrapper Int :=
  { METIS_OK := 1
    ParMETIS_V3_PartGeomKway := fun _ => { status := 1, edgecut := 0, part := fun i => i % 2 }
    ParMETIS_V3_PartKway := fun _ => { status := 1, edgecut := 0, part := fun i => i % 2 }
    ParMETIS_V3_AdaptiveRepart := fun _ => { status := 1, edgecut := 0, part := fun i => i % 2 }
    ParMETIS_V3_RefineKway := fun _ => { status := 1, edgecut := 0, part := fun i => i % 2 } }

/-- Sample values of type `double` for concrete evaluations. -/
def sampleDoubles : DoubleValues Int :=
  { imbalanceTolerance := 1, ipc2redist := 1000000, weightFraction := fun _ => 0 }

/-- A sample configuration for concrete evaluations. -/
def sampleConfig : DynamicParMetis :=
  { algorithm_ := .PARMETIS_PART_KWAY
    weightsToUse_ := .PARMETIS_BOTH_WEIGHTS
    edgeSource_ := .PARMETIS_EDGES_FROM_FOREST }

/-- What MPI delivers to rank 1 of 3 in the sample pass: ranks 1 and 2 own blocks, rank 1 is
rank 0 of the sub-communicator and receives the map of its neighbour. -/
def sampleCollectives : Collectives :=
  { ranks := [1, 2]
    subRank := 0
    scan := 17
    received := [[(7, 2)]]
    rangeEnds := [2, 3]
    isReceivingBlockFromProcess := [0, 0, 1] }

/-- The forest of rank 1 in the sample pass: the blocks 1 and 2. -/
def sampleRankForest : PhantomBlockForest Int :=
  { blockMap := sampleTargets.map (fun it => (it.1.id, it.1)), neighboringProcesses := [2] }

/-! ## Configuration strings (lines 261-355)

A `std::string` is the list of its characters. -/

/-- Modelled from the spec: `std::toupper` in the classic locale, the conversion applied to
every character by `boost::algorithm::to_upper`: the letters `a`-`z` become `A`-`Z`. -/
def toupper (ch : Char) : Char :=
  if 97 ≤ ch.toNat ∧ ch.toNat ≤ 122 then Char.ofNat (ch.toNat - 32) else ch

/-- Modelled from the spec: `boost::algorithm::to_upper`. -/
def to_upper (s : List Char) : List Char :=
  s.map toupper

/-- Modelled from the spec: `std::isspace` in the classic locale, the predicate of
`boost::algorithm::trim`: space, `\t`, `\n`, `\v`, `\f`, `\r`. -/
def isspace (ch : Char) : Bool :=
  ch.toNat = 32 || (9 ≤ ch.toNat && ch.toNat ≤ 13)

/-- Modelled from the spec: `boost::algorithm::trim`, which trims the right end and then the
left end. -/
def trim (s : List Char) : List Char :=
  (s.rdropWhile isspace).dropWhile isspace

/-- `DynamicParMetis::stringToAlgorithm`: the algorithm, or the message of `WALBERLA_ABORT`. -/
def stringToAlgorithm (s : List Char) : Except (List Char) Algorithm :=
  let s := trim (to_upper s)
  if s = "PART_GEOM_KWAY".toList then .ok .PARMETIS_PART_GEOM_KWAY
  else if s = "PART_KWAY".toList then .ok .PARMETIS_PART_KWAY
  else if s = "PART_ADAPTIVE_REPART".toList then .ok .PARMETIS_ADAPTIVE_REPART
  else if s = "REFINE_KWAY".toList then .ok .PARMETIS_REFINE_KWAY
  else
    .error ("Illegal ParMetis algorithm specified (".toList ++ s ++
      ")! Valid choices are: \"PART_GEOM_KWAY\", \"PART_KWAY\", \"PART_ADAPTIVE_REPART\", or \"REFINE_KWAY\".".toList)

/-- `DynamicParMetis::stringToWeightsToUse`: the weights usage, or the message of
`WALBERLA_ABORT`. -/
def stringToWeightsToUse (s : List Char) : Except (List Char) WeightsToUse :=
  let s := trim (to_upper s)
  if s = "NO_WEIGHTS".toList then .ok .PARMETIS_NO_WEIGHTS
  else if s = "EDGE_WEIGHTS".toList then .ok .PARMETIS_EDGE_WEIGHTS
  else if s = "VERTEX_WEIGHTS".toList then .ok .PARMETIS_VERTEX_WEIGHTS
  else if s = "BOTH_WEIGHTS".toList then .ok .PARMETIS_BOTH_WEIGHTS
  else
    .error ("Illegal ParMetis weights usage specified (".toList ++ s ++
      ")! Valid choices are: \"NO_WEIGHTS\", \"EDGE_WEIGHTS\", \"VERTEX_WEIGHTS\", or \"BOTH_WEIGHTS\".".toList)

/-- `DynamicParMetis::stringToEdgeSource`: the edge source, or the message of
`WALBERLA_ABORT`. -/
def stringToEdgeSource (s : List Char) : Except (List Char) EdgeSource :=
  let s := trim (to_upper s)
  if s = "EDGES_FROM_FOREST".toList then .ok .PARMETIS_EDGES_FROM_FOREST
  else if s = "EDGES_FROM_EDGE_WEIGHTS".toList then .ok .PARMETIS_EDGES_FROM_EDGE_WEIGHTS
  else
    .error ("Illegal ParMetis weights usage specified (".toList ++ s ++
      ")! Valid choices are: \"EDGES_FROM_FOREST\" or \"EDGES_FROM_EDGE_WEIGHTS\"".toList)

/-- `DynamicParMetis::algorithmToString`. -/
def DynamicParMetis.algorithmToString (self : DynamicParMetis) : List Char :=
  match self.algorithm_ with
  | .PARMETIS_PART_GEOM_KWAY => "PART_GEOM_KWAY".toList
  | .PARMETIS_PART_KWAY => "PART_KWAY".toList
  | .PARMETIS_ADAPTIVE_REPART => "PART_ADAPTIVE_REPART".toList
  | .PARMETIS_REFINE_KWAY => "PARMETIS_REFINE_KWAY".toList

/-- `DynamicParMetis::weightsToUseToString`. -/
def DynamicParMetis.weightsToUseToString (self : DynamicParMetis) : List Char :=
  match self.weightsToUse_ with
  | .PARMETIS_NO_WEIGHTS => "NO_WEIGHTS".toList
  | .PARMETIS_EDGE_WEIGHTS => "EDGE_WEIGHTS".toList
  | .PARMETIS_VERTEX_WEIGHTS => "VERTEX_WEIGHTS".toList
  | .PARMETIS_BOTH_WEIGHTS => "BOTH_WEIGHTS".toList

/-- `DynamicParMetis::edgeSourceToString`. -/
def DynamicParMetis.edgeSourceToString (self : DynamicParMetis) : List Char :=
  match self.edgeSource_ with
  | .PARMETIS_EDGES_FROM_FOREST => "EDGES_FROM_FOREST".toList
  | .PARMETIS_EDGES_FROM_EDGE_WEIGHTS => "EDGES_FROM_EDGE_WEIGHTS".toList

/-- The fixed text that ends the abort message of `stringToWeightsToUse`. -/
def weightsChoices : List Char :=
  ")! Valid choices are: \"NO_WEIGHTS\", \"EDGE_WEIGHTS\", \"VERTEX_WEIGHTS\", or \"BOTH_WEIGHTS\".".toList

/-- The fixed text that ends the abort message of `stringToEdgeSource`. -/
def edgeSourceChoices : List Char :=
  ")! Valid choices are: \"EDGES_FROM_FOREST\" or \"EDGES_FROM_EDGE_WEIGHTS\"".toList

/-- A name between double quotes, as the abort messages list the valid choices. -/
def quoted (name : List Char) : List Char :=
  '"' :: (name ++ ['"'])

/-! ## Collectives of the original communicator and of the sub-communicator -/

/-- Modelled from the spec: `mpi::allGatherv` (declared outside `src/`): every rank receives the
concatenation, in rank order, of the vectors contributed by all ranks. -/
def allGatherv {α : Type} (contributions : List (List α)) : List α :=
  contributions.flatten

/-- Modelled from the spec: `mpi::allGather` (declared outside `src/`): every rank receives the
values contributed by all ranks, in rank order. -/
def allGather {α : Type} (values : List α) : List α :=
  values

/-- Lines 117-119: the vector a rank contributes to the gathering of the block-owning ranks. -/
def ownRanks {D : Type} (rank : Nat) (phantomForest : PhantomBlockForest D) : List Nat :=
  if phantomForest.getNumberOfBlocks > 0 then [rank] else []

/-- Lines 117-120 on all ranks of the original communicator: the gathered rank list, `forests`
holding the forest of every rank. -/
def gatheredRanks {D : Type} (forests : List (PhantomBlockForest D)) : List Nat :=
  allGatherv (forests.enum.map (fun e => ownRanks e.1 e.2))

/-- Lines 131-135 on all ranks of the sub-communicator: the vertex distribution, `subForests`
holding the forests of the block-owning ranks in sub-communicator rank order. -/
def vtxdistOf {D : Type} (undef : Nat) (subForests : List (PhantomBlockForest D)) : List Int :=
  0 :: allGather ((blockSequenceRanges undef subForests).map (fun r => int64_c r.2))

/-! ## The operations a call issues -/

/-- The operations of `operator()` that involve other ranks or the external partitioner, with
what the rank hands to them. -/
inductive Event (D : Type) where
  /-- Line 120, `mpi::allGatherv` on the original communicator. -/
  | allGatherv (sendbuf : List Nat)
  /-- Lines 123-124, `MPI_Comm_create` on the original communicator. -/
  | commCreate (ranks : List Nat)
  /-- Line 49, `MPI_Exscan` on the sub-communicator. -/
  | exscan (sendbuf : Nat)
  /-- Lines 68-80, the exchange of the local map with the neighbour processes. -/
  | bufferExchange (targets : List Nat) (mapping : List (BlockID × Nat))
  /-- Line 134, `mpi::allGather` on the sub-communicator. -/
  | allGather (sendbuf : Int)
  /-- Lines 196-215, the call of an entry point of the partitioner. -/
  | partitioner (algorithm : Algorithm) (args : ParMetisArgs D)
  /-- Line 219, `WALBERLA_ABORT`. -/
  | abort (message : List Char)
  /-- Line 233, `MPI_Alltoall` on the original communicator. -/
  | alltoall (sendbuf : List Nat)

/-- Lines 181-190: the arguments assembled for the partitioner. -/
def partitionerArgs {D : Type} (self : DynamicParMetis) (fp : DoubleValues D)
    (numProcesses : Nat) (vtxdist : List Int) (g : GraphArrays D) (part : List Int) :
    ParMetisArgs D :=
  let ncon : Int := 1
  let nparts : Int := int64_c numProcesses
  { vtxdist := vtxdist
    xadj := g.xadj
    adjncy := g.adjncy
    vwgt := g.vwgt
    vsize := g.vsize
    adjwgt := g.adjwgt
    wgtflag := self.weightsToUse_
    numflag := 0
    ndims := 3
    xyz := g.xyz
    ncon := ncon
    nparts := nparts
    tpwgts := List.replicate (uint_c (nparts * ncon)) (fp.weightFraction nparts)
    ubvec := [fp.imbalanceTolerance]
    ipc2redist := fp.ipc2redist
    options := [1, 0, 23, 1]
    part := part }

/-- The entry point of the wrapper that belongs to an algorithm (the `switch` of line 194). -/
def entryPoint {D : Type} (core : ParMetisWrapper D) (algorithm : Algorithm) :
    ParMetisArgs D → ParMetisResult :=
  match algorithm with
  | .PARMETIS_PART_GEOM_KWAY => core.ParMETIS_V3_PartGeomKway
  | .PARMETIS_PART_KWAY => core.ParMETIS_V3_PartKway
  | .PARMETIS_ADAPTIVE_REPART => core.ParMETIS_V3_AdaptiveRepart
  | .PARMETIS_REFINE_KWAY => core.ParMETIS_V3_RefineKway

/-- Lines 131-219 with the operations issued: `partitionerPhase` together with the list of
events, in the order of the source. -/
def partitionerPhaseTraced {D : Type} (self : DynamicParMetis) (debug : Bool)
    (core : ParMetisWrapper D) (fp : DoubleValues D) (numProcesses : Nat) (mpi : Collectives)
    (targetProcess : List (PhantomBlock D × Nat)) (phantomForest : PhantomBlockForest D)
    (part : List Int) : List (Event D) × Option (List Int) :=
  let numSubProcesses := mpi.ranks.length
  let blockSequenceRange := getBlockSequenceRange phantomForest mpi.subRank mpi.scan
  let ev1 : List (Event D) := [Event.exscan phantomForest.getNumberOfBlocks]
  match localMapping debug phantomForest blockSequenceRange with
  | none => (ev1, none)
  | some localMap =>
    let ev2 := ev1 ++ [Event.bufferExchange phantomForest.neighboringProcesses localMap]
    match mergeBuffers debug localMap mpi.received with
    | none => (ev2, none)
    | some mapping =>
      let ev3 := ev2 ++ [Event.allGather (int64_c blockSequenceRange.2)]
      let vtxdist := 0 :: mpi.rangeEnds
      match buildGraph self.edgeSource_ mapping targetProcess with
      | none => (ev3, none)
      | some g =>
        if debug && !(decide (vtxdist.length = numSubProcesses + 1) &&
            graphAssertions phantomForest g) then (ev3, none)
        else
          let args := partitionerArgs self fp numProcesses vtxdist g part
          let result := entryPoint core self.algorithm_ args
          let ev4 := ev3 ++ [Event.partitioner self.algorithm_ args]
          if result.status ≠ core.METIS_OK then
            (ev4 ++ [Event.abort "ParMetis failed!".toList], none)
          else (ev4, some ((List.range part.length).map result.part))

/-- `operator()` with the operations issued: `DynamicParMetis.call` together with the list of
events, in the order of the source. -/
def DynamicParMetis.callTraced {D : Type} (self : DynamicParMetis) (debug : Bool)
    (core : ParMetisWrapper D) (fp : DoubleValues D) (rank numProcesses : Nat)
    (mpi : Collectives) (targetProcess : List (PhantomBlock D × Nat))
    (processesToRecvFrom : List Nat) (phantomForest : PhantomBlockForest D) (_iteration : Nat) :
    List (Event D) × Option (List (PhantomBlock D × Nat) × List Nat × Bool) :=
  let ev0 : List (Event D) :=
    [Event.allGatherv (ownRanks rank phantomForest), Event.commCreate mpi.ranks]
  let part := List.replicate phantomForest.getNumberOfBlocks (int64_c rank)
  let phase : List (Event D) × Option (List Int) :=
    if rank ∈ mpi.ranks then
      partitionerPhaseTraced self debug core fp numProcesses mpi targetProcess phantomForest part
    else ([], some part)
  match phase.2 with
  | none => (ev0 ++ phase.1, none)
  | some part' =>
    match isSendingBlockToProcess rank numProcesses part' with
    | none => (ev0 ++ phase.1, none)
    | some sendbuf =>
      let ev := ev0 ++ phase.1 ++ [Event.alltoall sendbuf]
      match assignTargets part' targetProcess with
      | none => (ev, none)
      | some targetProcess' =>
        (ev, some (targetProcess',
          insertReceivers processesToRecvFrom mpi.isReceivingBlockFromProcess, false))

/-- Whether an event is a call of an entry point of the partitioner. -/
def Event.isPartitioner {D : Type} : Event D → Bool
  | .partitioner _ _ => true
  | _ => false

/-- Whether an event is the abort of line 219. -/
def Event.isAbort {D : Type} : Event D → Bool
  | .abort _ => true
  | _ => false

/-- Whether an event is an operation on the sub-communicator (sequence numbering, directory
exchange, gathering of the range ends, partitioner call). -/
def Event.onSubCommunicator {D : Type} : Event D → Bool
  | .exscan _ => true
  | .bufferExchange _ _ => true
  | .allGather _ => true
  | .partitioner _ _ => true
  | _ => false

/-- The partitioner phase as `callTraced` runs it: a rank of the gathered list runs
`partitionerPhaseTraced`, another rank issues nothing and keeps the initial `part`. -/
def phaseOfCall {D : Type} (self : DynamicParMetis) (debug : Bool)
    (core : ParMetisWrapper D) (fp : DoubleValues D) (rank numProcesses : Nat)
    (mpi : Collectives) (targetProcess : List (PhantomBlock D × Nat))
    (phantomForest : PhantomBlockForest D) : List (Event D) × Option (List Int) :=
  if rank ∈ mpi.ranks then
    partitionerPhaseTraced self debug core fp numProcesses mpi targetProcess phantomForest
      (List.replicate phantomForest.getNumberOfBlocks (int64_c rank))
  else ([], some (List.replicate phantomForest.getNumberOfBlocks (int64_c rank)))

/-- A sample partitioner for concrete evaluations whose entry points all fail with status 0. -/
def failingWrapper : ParMetisWrapper Int :=
  { METIS_OK := 1
    ParMETIS_V3_PartGeomKway := fun _ => { status := 0, edgecut := 0, part := fun _ => 0 }
    ParMETIS_V3_PartKway := fun _ => { status := 0, edgecut := 0, part := fun _ => 0 }
    ParMETIS_V3_AdaptiveRepart := fun _ => { status := 0, edgecut := 0, part := fun _ => 0 }
    ParMETIS_V3_RefineKway := fun _ => { status := 0, edgecut := 0, part := fun _ => 0 } }

/-- What MPI delivers to rank 1 of 3, a rank without blocks, in a sample pass where ranks 0 and
2 own blocks and rank 0 sends a block to rank 1. -/
def blocklessCollectives : Collectives :=
  { ranks := [0, 2]
    subRank := 0
    scan := 0
    received := []
    rangeEnds := []
    isReceivingBlockFromProcess := [1, 0, 0] }

/-- What MPI delivers to rank 0 of 3 in a sample pass where only rank 0 owns a block and keeps
it. -/
def ownerCollectives : Collectives :=
  { ranks := [0]
    subRank := 0
    scan := 0
    received := []
    rangeEnds := [1]
    isReceivingBlockFromProcess := [0, 0, 0] }

/-- The kind of an operation of the trace, without what the rank hands to it. -/
inductive Operation where
  | allGatherv
  | commCreate
  | exscan
  | bufferExchange
  | allGather
  | partitioner
  | abort
  | alltoall
deriving DecidableEq, Repr

/-- The kind of an event. -/
def Event.operation {D : Type} : Event D → Operation
  | .allGatherv _ => .allGatherv
  | .commCreate _ => .commCreate
  | .exscan _ => .exscan
  | .bufferExchange _ _ => .bufferExchange
  | .allGather _ => .allGather
  | .partitioner _ _ => .partitioner
  | .abort _ => .abort
  | .alltoall _ => .alltoall

/-- Whether an operation is one of the sub-communicator. -/
def Operation.onSubCommunicator : Operation → Bool
  | .exscan => true
  | .bufferExchange => true
  | .allGather => true
  | .partitioner => true
  | _ => false

end blockforest

/-! ## Boundary handling (`boundary/BoundaryHandling.h`): `refresh`

A shallow embedding of `BoundaryHandling::refresh( const CellInterval & )` (lines 948-972).

* `flag_t` is an unsigned integer type of `w` bits; its values are modelled by `Nat`, the bit
  operations by the ones of `Nat`, the complement by `2 ^ w - 1 - flag`.
* The content of the flag field is a function from cells to flag values.  The cells the flag
  field has memory for are those of `outerBB_` (constructor, lines 667-669); reading or writing
  another cell is the result `none`.
* The template parameter `Stencil` is the list of its directions.
-/

namespace boundary

/-- Modelled from the spec: `Cell` (declared outside `src/`), the cell indices `x`, `y`, `z`. -/
structure Cell where
  x : Int
  y : Int
  z : Int
deriving DecidableEq, Repr

/-- Modelled from the spec: a `stencil::Direction` (declared outside `src/`), given by its
offsets `cx`, `cy`, `cz`. -/
structure Direction where
  cx : Int
  cy : Int
  cz : Int
deriving DecidableEq, Repr

/-- Modelled from the spec: the centre direction `stencil::C`, all offsets zero. -/
def Direction.C : Direction := { cx := 0, cy := 0, cz := 0 }

/-- Modelled from the spec: the directions from `Stencil::beginNoCenter()` to `Stencil::end()`,
the directions of the stencil without the centre. -/
def beginNoCenter (stencil : List Direction) : List Direction :=
  stencil.filter (fun d => decide (d ≠ Direction.C))

/-- Modelled from the spec: `cell.neighbor( d )`, the cell at the offsets of `d`. -/
def Cell.neighbor (cell : Cell) (d : Direction) : Cell :=
  { x := cell.x + d.cx, y := cell.y + d.cy, z := cell.z + d.cz }

/-- Modelled from the spec: `CellInterval` (declared outside `src/`), the cells between a
minimal and a maximal corner, both included. -/
structure CellInterval where
  xMin : Int
  yMin : Int
  zMin : Int
  xMax : Int
  yMax : Int
  zMax : Int
deriving DecidableEq, Repr

/-- Modelled from the spec: `CellInterval::contains`. -/
def CellInterval.contains (ci : CellInterval) (cell : Cell) : Bool :=
  decide (ci.xMin ≤ cell.x) && decide (cell.x ≤ ci.xMax) &&
  decide (ci.yMin ≤ cell.y) && decide (cell.y ≤ ci.yMax) &&
  decide (ci.zMin ≤ cell.z) && decide (cell.z ≤ ci.zMax)

/-- Modelled from the spec: `CellInterval::intersect`, the larger of the minima and the smaller
of the maxima. -/
def CellInterval.intersect (self other : CellInterval) : CellInterval :=
  { xMin := max self.xMin other.xMin
    yMin := max self.yMin other.yMin
    zMin := max self.zMin other.zMin
    xMax := min self.xMax other.xMax
    yMax := min self.yMax other.yMax
    zMax := min self.zMax other.zMax }

/-- The indices from `lo` to `hi`, both included, ascending. -/
def coordinates (lo hi : Int) : List Int :=
  (List.range (hi + 1 - lo).toNat).map (fun k : Nat => lo + (k : Int))

/-- Modelled from the spec: the cells visited from `beginSliceXYZ( ci )` to `end()`: all cells
of the interval, `x` running fastest, then `y`, then `z`. -/
def CellInterval.cells (ci : CellInterval) : List Cell :=
  (coordinates ci.zMin ci.zMax).flatMap (fun z =>
    (coordinates ci.yMin ci.yMax).flatMap (fun y =>
      (coordinates ci.xMin ci.xMax).map (fun x => { x := x, y := y, z := z })))

/-- Modelled from the spec: `field::isPartOfMaskSet`, `( value & mask ) > 0`. -/
def isPartOfMaskSet (value mask : Nat) : Bool :=
  decide (0 < value &&& mask)

/-- Modelled from the spec: `field::isFlagSet`, `( value & flag ) == flag`. -/
def isFlagSet (value flag : Nat) : Bool :=
  decide (value &&& flag = flag)

/-- Modelled from the spec: `field::addFlag`, `value |= flag`. -/
def addFlag (value flag : Nat) : Nat :=
  value ||| flag

/-- Modelled from the spec: `field::removeFlag`, `value &= ~flag` on `w` bits. -/
def removeFlag (w : Nat) (value flag : Nat) : Nat :=
  value &&& (2 ^ w - 1 - flag)

/-- The members of `BoundaryHandling` that `refresh` reads and writes: the content of
`*flagField_`, the two cell intervals, the three masks and the dirty marker. -/
structure BoundaryHandling where
  flagField_ : Cell → Nat
  innerBB_ : CellInterval
  outerBB_ : CellInterval
  nearBoundary_ : Nat
  boundary_ : Nat
  domain_ : Nat
  dirty_ : Bool

/-- The content of the flag field after writing `value` to `cell`. -/
def setCell (field : Cell → Nat) (cell : Cell) (value : Nat) : Cell → Nat :=
  fun c => if c = cell then value else field c

/-- Lines 960-967, the loop over the directions: the first neighbour carrying a bit of
`boundary_` sets the flag `nearBoundary_` of the cell and ends the loop. -/
def flagNearBoundary (bh : BoundaryHandling) (field : Cell → Nat) (cell : Cell) :
    List Direction → Option (Cell → Nat)
  | [] => some field
  | d :: rest =>
    if bh.outerBB_.contains (cell.neighbor d) then
      if isPartOfMaskSet (field (cell.neighbor d)) bh.boundary_ then
        some (setCell field cell (addFlag (field cell) bh.nearBoundary_))
      else flagNearBoundary bh field cell rest
    else none

/-- Lines 956-968, the body of the loop over the cells. -/
def refreshCell (w : Nat) (stencil : List Direction) (bh : BoundaryHandling)
    (field : Cell → Nat) (cell : Cell) : Option (Cell → Nat) :=
  if bh.outerBB_.contains cell then
    if isPartOfMaskSet (field cell) bh.domain_ then
      flagNearBoundary bh (setCell field cell (removeFlag w (field cell) bh.nearBoundary_)) cell
        (beginNoCenter stencil)
    else some field
  else none

/-- Lines 954-969, the loop over the cells of `localCells`. -/
def refreshCells (w : Nat) (stencil : List Direction) (bh : BoundaryHandling) :
    List Cell → (Cell → Nat) → Option (Cell → Nat)
  | [], field => some field
  | cell :: rest, field =>
    match refreshCell w stencil bh field cell with
    | none => none
    | some field' => refreshCells w stencil bh rest field'

/-- `BoundaryHandling::refresh( const CellInterval & cells )`, lines 948-972. -/
def BoundaryHandling.refresh (w : Nat) (stencil : List Direction) (bh : BoundaryHandling)
    (cells : CellInterval) : Option BoundaryHandling :=
  let localCells := bh.innerBB_.intersect cells
  match refreshCells w stencil bh localCells.cells bh.flagField_ with
  | none => none
  | some field => some { bh with flagField_ := field, dirty_ := true }

/-- Closed form of the value `refreshCell` leaves in a cell, from the content `field` of the
flag field before the call; it serves the proofs only. -/
def refreshedValue (w : Nat) (stencil : List Direction) (bh : BoundaryHandling)
    (field : Cell → Nat) (cell : Cell) : Nat :=
  if isPartOfMaskSet (field cell) bh.domain_ then
    (if (beginNoCenter stencil).any
        (fun d => isPartOfMaskSet (field (cell.neighbor d)) bh.boundary_) then
      addFlag (removeFlag w (field cell) bh.nearBoundary_) bh.nearBoundary_
    else removeFlag w (field cell) bh.nearBoundary_)
  else field cell

/-- The interval one cell smaller on every side; the constructor (lines 664-669) sets
`innerBB_` to this interval of `outerBB_`. -/
def CellInterval.shrunk (ci : CellInterval) : CellInterval :=
  { xMin := ci.xMin + 1
    yMin := ci.yMin + 1
    zMin := ci.zMin + 1
    xMax := ci.xMax - 1
    yMax := ci.yMax - 1
    zMax := ci.zMax - 1 }

/-- A sample state for concrete evaluations: a row of five cells `x = 0 .. 4` with one ghost
layer; the flags are 1 (near boundary), 2 (boundary) and 4 (domain); cell 0 is a boundary cell,
the cells 1 to 3 are domain cells, cell 3 carries a stale near-boundary flag. -/
def sampleHandling : BoundaryHandling :=
  { flagField_ := fun c =>
      if c = { x := 0, y := 0, z := 0 } then 2
      else if c = { x := 1, y := 0, z := 0 } then 4
      else if c = { x := 2, y := 0, z := 0 } then 4
      else if c = { x := 3, y := 0, z := 0 } then 5
      else 0
    innerBB_ := { xMin := 0, yMin := 0, zMin := 0, xMax := 4, yMax := 0, zMax := 0 }
    outerBB_ := { xMin := -1, yMin := -1, zMin := -1, xMax := 5, yMax := 1, zMax := 1 }
    nearBoundary_ := 1
    boundary_ := 2
    domain_ := 4
    dirty_ := false }

/-- A sample stencil for concrete evaluations: the centre and the two directions along `x`. -/
def sampleStencil : List Direction :=
  [Direction.C, { cx := -1, cy := 0, cz := 0 }, { cx := 1, cy := 0, cz := 0 }]

end boundary

namespace blockforest

/-! ## Theorems -/

/-- Entry `i` of the ranges computed on all ranks: start is the sum of the counts of the lower
ranks, end is start plus the own count. -/
theorem blockSequenceRanges_getElem? {D : Type} (undef : Nat)
    (forests : List (PhantomBlockForest D)) (i : Nat) (h : i < forests.length) :
    (blockSequenceRanges undef forests)[i]? =
      some (((forests.map PhantomBlockForest.getNumberOfBlocks).take i).sum,
        ((forests.map PhantomBlockForest.getNumberOfBlocks).take i).sum +
          (forests.map PhantomBlockForest.getNumberOfBlocks).getD i 0) := by
  unfold blockSequenceRanges
  rw [List.getElem?_zipWith, List.getElem?_range h, List.getElem?_eq_getElem h]
  simp only [getBlockSequenceRange, MPI_Exscan]
  by_cases hi : i = 0
  · subst hi; simp [List.getD, List.getElem?_eq_getElem h]
  · simp [hi, List.getD, List.getElem?_eq_getElem h]

theorem blockSequenceRanges_length {D : Type} (undef : Nat)
    (forests : List (PhantomBlockForest D)) :
    (blockSequenceRanges undef forests).length = forests.length := by
  simp [blockSequenceRanges]

/-- Prefix sums of a list of naturals reach every value below the total. -/
theorem exists_prefix_interval (c : List Nat) (x : Nat) (hx : x < c.sum) :
    ∃ i, i < c.length ∧ (c.take i).sum ≤ x ∧ x < (c.take i).sum + c.getD i 0 := by
  induction c generalizing x with
  | nil => simp at hx
  | cons a t ih =>
    by_cases hxa : x < a
    · exact ⟨0, by simp, by simp, by simpa using hxa⟩
    · have hx2 : x - a < t.sum := by simp at hx; omega
      obtain ⟨i, hi, h1, h2⟩ := ih (x - a) hx2
      refine ⟨i + 1, by simpa using hi, ?_, ?_⟩
      · simp only [List.take_succ_cons, List.sum_cons]; omega
      · simp only [List.take_succ_cons, List.sum_cons, List.getD_cons_succ]; omega

/-- The end of the interval of a lower rank is at most the start of a higher one. -/
theorem prefix_interval_le (cs : List Nat) (i j : Nat) (hij : i < j) (hi : i < cs.length) :
    (cs.take i).sum + cs.getD i 0 ≤ (cs.take j).sum := by
  have h1 : (cs.take (i + 1)).sum = (cs.take i).sum + cs[i] := List.sum_take_succ cs i hi
  have h2 : (cs.take (i + 1)).sum ≤ (cs.take j).sum := List.monotone_sum_take cs hij
  have h3 : cs.getD i 0 = cs[i] := by simp [List.getD, List.getElem?_eq_getElem hi]
  omega

/-- C1: on a communicator of `P >= 1` ranks with arbitrary local block counts, rank `i` gets the
half-open range `[s_i, s_i + c_i)` with `s_0 = 0` whatever the scan left on rank 0 and
`s_{i+1} = s_i + c_i`; the last range ends at the total, every range has length `c_i`, and every
`x` below the total lies in the range of exactly one rank (no gaps, no overlaps). -/
theorem getBlockSequenceRange_tiles {D : Type} (undef : Nat)
    (forests : List (PhantomBlockForest D)) (hP : 1 ≤ forests.length) :
    (blockSequenceRanges undef forests).length = forests.length ∧
    (∀ i, i < forests.length → ∃ s, (blockSequenceRanges undef forests)[i]? =
        some (s, s + (forests.map PhantomBlockForest.getNumberOfBlocks).getD i 0)) ∧
    ((blockSequenceRanges undef forests)[0]?.map Prod.fst = some 0) ∧
    (∀ i, i + 1 < forests.length →
      (blockSequenceRanges undef forests)[i + 1]?.map Prod.fst =
        (blockSequenceRanges undef forests)[i]?.map Prod.snd) ∧
    ((blockSequenceRanges undef forests)[forests.length - 1]?.map Prod.snd =
      some (forests.map PhantomBlockForest.getNumberOfBlocks).sum) ∧
    (∀ x, x < (forests.map PhantomBlockForest.getNumberOfBlocks).sum →
      ∃! i : Nat, ∃ s e, (blockSequenceRanges undef forests)[i]? = some (s, e) ∧ s ≤ x ∧ x < e) ∧
    (∀ (i s e x : Nat), (blockSequenceRanges undef forests)[i]? = some (s, e) → s ≤ x → x < e →
      x < (forests.map PhantomBlockForest.getNumberOfBlocks).sum) := by
  have hlen : (forests.map PhantomBlockForest.getNumberOfBlocks).length = forests.length := by
    simp
  refine ⟨blockSequenceRanges_length undef forests, ?_, ?_, ?_, ?_, ?_, ?_⟩
  · intro i hi
    exact ⟨_, blockSequenceRanges_getElem? undef forests i hi⟩
  · rw [blockSequenceRanges_getElem? undef forests 0 (by omega)]; simp
  · intro i hi
    rw [blockSequenceRanges_getElem? undef forests (i + 1) hi,
      blockSequenceRanges_getElem? undef forests i (by omega)]
    simp only [Option.map_some']
    rw [List.sum_take_succ _ i (by rw [hlen]; omega)]
    simp [List.getD, List.getElem?_eq_getElem (show i < forests.length by omega)]
  · rw [blockSequenceRanges_getElem? undef forests (forests.length - 1) (by omega)]
    simp only [Option.map_some']
    have h := List.sum_take_succ (forests.map PhantomBlockForest.getNumberOfBlocks)
      (forests.length - 1) (by rw [hlen]; omega)
    have h2 : forests.length - 1 + 1 = forests.length := by omega
    rw [h2] at h
    have h3 : List.take forests.length (forests.map PhantomBlockForest.getNumberOfBlocks) =
        forests.map PhantomBlockForest.getNumberOfBlocks := by
      apply List.take_of_length_le; rw [hlen]
    rw [h3] at h
    rw [h]
    simp [List.getD, List.getElem?_eq_getElem (show forests.length - 1 < forests.length by omega)]
  · intro x hx
    obtain ⟨i, hi, h1, h2⟩ := exists_prefix_interval _ x hx
    rw [hlen] at hi
    refine ⟨i, ⟨_, _, blockSequenceRanges_getElem? undef forests i hi, h1, h2⟩, ?_⟩
    rintro j ⟨s, e, hj, hs, he⟩
    have hjlt : j < forests.length := by
      by_contra hcon
      rw [List.getElem?_eq_none (by rw [blockSequenceRanges_length]; omega)] at hj
      exact Option.noConfusion hj
    rw [blockSequenceRanges_getElem? undef forests j hjlt] at hj
    simp only [Option.some.injEq, Prod.mk.injEq] at hj
    obtain ⟨rfl, rfl⟩ := hj
    rcases Nat.lt_trichotomy j i with hlt | heq | hgt
    · have := prefix_interval_le _ j i hlt (by rw [hlen]; exact hjlt)
      omega
    · exact heq
    · have := prefix_interval_le _ i j hgt (by rw [hlen]; exact hi)
      omega
  · intro i s e x hi hs he
    have hilt : i < forests.length := by
      by_contra hcon
      rw [List.getElem?_eq_none (by rw [blockSequenceRanges_length]; omega)] at hi
      exact Option.noConfusion hi
    rw [blockSequenceRanges_getElem? undef forests i hilt] at hi
    simp only [Option.some.injEq, Prod.mk.injEq] at hi
    obtain ⟨rfl, rfl⟩ := hi
    have h1 := List.sum_take_succ (forests.map PhantomBlockForest.getNumberOfBlocks) i
      (by rw [hlen]; exact hilt)
    have h2 : ((forests.map PhantomBlockForest.getNumberOfBlocks).take (i + 1)).sum ≤
        ((forests.map PhantomBlockForest.getNumberOfBlocks).take
          (forests.map PhantomBlockForest.getNumberOfBlocks).length).sum :=
      List.monotone_sum_take _ (by rw [hlen]; omega)
    rw [List.take_length] at h2
    have h3 : (forests.map PhantomBlockForest.getNumberOfBlocks).getD i 0 =
        (forests.map PhantomBlockForest.getNumberOfBlocks)[i] := by
      simp [List.getD, List.getElem?_eq_getElem hilt]
    omega

/-- Witness of C1: three ranks with 2, 0 and 3 blocks; the scan leaves 99 on rank 0. -/
theorem getBlockSequenceRange_tiles_witness :
    blockSequenceRanges 99
        [sampleForest [1, 2] [], sampleForest [] [], sampleForest [3, 4, 5] []] =
      [(0, 2), (2, 2), (2, 5)] ∧
    (blockSequenceRanges 99
        [sampleForest [1, 2] [], sampleForest [] [], sampleForest [3, 4, 5] []])[0]?.map
      Prod.fst = some 0 :=
  ⟨by decide,
    (getBlockSequenceRange_tiles 99
      [sampleForest [1, 2] [], sampleForest [] [], sampleForest [3, 4, 5] []]
      (by decide)).2.2.1⟩

/-! ### Send vector -/

/-- The marking loop succeeds on values in range and sets exactly the flags of the values. -/
theorem markTargets_spec (n : Nat) (part : List Int) :
    ∀ v : List Nat, v.length = n → (∀ p ∈ part, 0 ≤ p ∧ p < (n : Int)) →
      ∃ w, markTargets n v part = some w ∧ w.length = n ∧
        ∀ t : Nat, w[t]? = if t < n ∧ (t : Int) ∈ part then some 1 else v[t]? := by
  induction part with
  | nil =>
    intro v hv _
    exact ⟨v, rfl, hv, by simp⟩
  | cons p rest ih =>
    intro v hv hp
    have hp0 := hp p (List.mem_cons_self _ _)
    have hidx : uint_c p < v.length := by
      unfold uint_c; omega
    obtain ⟨w, hw, hwl, hwt⟩ := ih (v.set (uint_c p) 1) (by simp [hv])
      (fun q hq => hp q (List.mem_cons_of_mem _ hq))
    refine ⟨w, ?_, hwl, ?_⟩
    · simp only [markTargets]
      rw [if_pos ⟨hp0.1, hp0.2, hidx⟩]
      exact hw
    · intro t
      rw [hwt t, List.getElem?_set]
      have hcast : (t : Int) = p ↔ uint_c p = t := by
        unfold uint_c; omega
      by_cases htn : t < n
      · by_cases hmem : (t : Int) ∈ rest
        · simp [htn, hmem]
        · by_cases hpt : uint_c p = t
          · have : (t : Int) = p := hcast.2 hpt
            simp [htn, hmem, hpt, this, hv]
          · have : ¬ (t : Int) = p := fun h => hpt (hcast.1 h)
            simp [htn, hmem, hpt, this]
      · have hnone : v[t]? = none := List.getElem?_eq_none (by omega)
        by_cases hpt : uint_c p = t
        · omega
        · simp [htn, hpt]

/-- The send vector of a rank whose partition values are in range. -/
theorem isSendingBlockToProcess_spec (rank n : Nat) (part : List Int) (hr : rank < n)
    (hp : ∀ p ∈ part, 0 ≤ p ∧ p < (n : Int)) :
    ∃ v, isSendingBlockToProcess rank n part = some v ∧ v.length = n ∧
      ∀ t : Nat, v[t]? =
        if t < n then (if t ≠ rank ∧ (t : Int) ∈ part then some 1 else some 0) else none := by
  obtain ⟨w, hw, hwl, hwt⟩ := markTargets_spec n part (List.replicate n 0) (by simp) hp
  refine ⟨w.set rank 0, ?_, by simp [hwl], ?_⟩
  · simp only [isSendingBlockToProcess, hw]
    rw [if_pos (by omega)]
  · intro t
    rw [List.getElem?_set, hwt t, List.getElem?_replicate]
    by_cases htn : t < n
    · by_cases hrt : rank = t
      · subst hrt; simp [htn, hwl]
      · have : t ≠ rank := fun h => hrt h.symm
        by_cases hmem : (t : Int) ∈ part <;> simp [htn, hrt, this, hmem]
    · have : rank ≠ t := by omega
      simp [htn, this]

/-- C7: for a rank `r < numProcesses` and partition values in `[0, numProcesses)` the send
vector is built, has one flag per process, flag `t` is 1 exactly when `t` differs from `r` and
some local block has target `t`, every flag is 0 or 1, and the flag of the own rank is 0. -/
theorem isSendingBlockToProcess_flags (rank numProcesses : Nat) (part : List Int)
    (hr : rank < numProcesses) (hp : ∀ p ∈ part, 0 ≤ p ∧ p < (numProcesses : Int)) :
    ∃ v, isSendingBlockToProcess rank numProcesses part = some v ∧ v.length = numProcesses ∧
      (∀ t : Nat, t < numProcesses → (v[t]? = some 1 ↔ t ≠ rank ∧ (t : Int) ∈ part)) ∧
      (∀ t : Nat, t < numProcesses → v[t]? = some 0 ∨ v[t]? = some 1) ∧
      v[rank]? = some 0 := by
  obtain ⟨v, hv, hl, ht⟩ := isSendingBlockToProcess_spec rank numProcesses part hr hp
  refine ⟨v, hv, hl, ?_, ?_, ?_⟩
  · intro t htn
    rw [ht t, if_pos htn]
    by_cases hc : t ≠ rank ∧ (t : Int) ∈ part
    · simp [hc]
    · rw [if_neg hc]; simp [hc]
  · intro t htn
    rw [ht t, if_pos htn]
    by_cases hc : t ≠ rank ∧ (t : Int) ∈ part
    · right; rw [if_pos hc]
    · left; rw [if_neg hc]
  · rw [ht rank, if_pos hr]; simp

/-- Witness of C7: rank 1 of 3 processes keeps two blocks and sends one to rank 2. -/
theorem isSendingBlockToProcess_flags_witness :
    isSendingBlockToProcess 1 3 [1, 2, 1] = some [0, 0, 1] ∧
    ∃ v, isSendingBlockToProcess 1 3 [1, 2, 1] = some v ∧ v.length = 3 ∧
      (∀ t : Nat, t < 3 → (v[t]? = some 1 ↔ t ≠ 1 ∧ (t : Int) ∈ ([1, 2, 1] : List Int))) ∧
      (∀ t : Nat, t < 3 → v[t]? = some 0 ∨ v[t]? = some 1) ∧
      v[1]? = some 0 :=
  ⟨by decide, isSendingBlockToProcess_flags 1 3 [1, 2, 1] (by decide) (by decide)⟩

/-! ### Receive-set -/

theorem mem_setInsert (s : List Nat) (x a : Nat) : a ∈ setInsert s x ↔ a = x ∨ a ∈ s := by
  unfold setInsert
  by_cases h : x ∈ s
  · rw [if_pos h]
    constructor
    · exact fun ha => Or.inr ha
    · rintro (rfl | ha)
      · exact h
      · exact ha
  · rw [if_neg h, List.mem_orderedInsert]

/-- The insertion loop over the flags numbered from `k`. -/
theorem mem_foldl_enumFrom (flags : List Nat) :
    ∀ (k : Nat) (s : List Nat) (a : Nat),
      a ∈ (flags.enumFrom k).foldl (fun s e => if e.2 = 1 then setInsert s e.1 else s) s ↔
        a ∈ s ∨ (k ≤ a ∧ flags[a - k]? = some 1) := by
  induction flags with
  | nil => intro k s a; simp
  | cons f rest ih =>
    intro k s a
    rw [List.enumFrom_cons, List.foldl_cons, ih]
    by_cases hak : a = k
    · subst hak
      by_cases hf : f = 1
      · simp [hf, mem_setInsert]
      · simp [hf]
    · by_cases hlt : a < k
      · have h1 : ¬ k + 1 ≤ a := by omega
        have h2 : ¬ k ≤ a := by omega
        by_cases hf : f = 1
        · simp [hf, mem_setInsert, h1, h2, hak]
        · simp [hf, h1, h2]
      · have h1 : k + 1 ≤ a := by omega
        have h2 : k ≤ a := by omega
        have h3 : a - k = (a - (k + 1)) + 1 := by omega
        rw [h3, List.getElem?_cons_succ]
        by_cases hf : f = 1
        · simp [hf, mem_setInsert, h1, h2, hak]
        · simp [hf, h1, h2]

/-- Membership in the receive-set after the insertion loop. -/
theorem mem_insertReceivers (processesToRecvFrom flags : List Nat) (a : Nat) :
    a ∈ insertReceivers processesToRecvFrom flags ↔
      a ∈ processesToRecvFrom ∨ flags[a]? = some 1 := by
  unfold insertReceivers List.enum
  rw [mem_foldl_enumFrom]
  simp

/-- Counterexample to C8 as stated: rank 1 of 3 processes, without blocks, is handed the set
`{2}` and receives the flags `[1, 0, 0]`; after the call the set is `{0, 2}`, it still holds
rank 2 although the flag received from rank 2 is 0. -/
theorem processesToRecvFrom_not_rebuilt :
    deriveRedistribution 1 3 [] [1, 0, 0] ([] : List (Nat × Nat)) [2] = some ([], [0, 2]) ∧
    2 ∈ ([0, 2] : List Nat) ∧ ([1, 0, 0] : List Nat)[2]? = some 0 := by
  decide

/-- C8 (amended): the insertion loop only adds to the set passed in: afterwards a rank is in
`processesToRecvFrom` exactly when it was in the set before the call or its received flag is 1;
when the set is passed in empty it is exactly the set of ranks whose received flag is 1; and
the set returned by lines 222-244 is the one built by that loop. -/
theorem processesToRecvFrom_after_call (processesToRecvFrom flags : List Nat) :
    (∀ a : Nat, a ∈ insertReceivers processesToRecvFrom flags ↔
      a ∈ processesToRecvFrom ∨ flags[a]? = some 1) ∧
    (∀ a : Nat, a ∈ insertReceivers [] flags ↔ flags[a]? = some 1) ∧
    (∀ (B : Type) (rank numProcesses : Nat) (part : List Int) (targetProcess : List (B × Nat))
      (res : List (B × Nat) × List Nat),
      deriveRedistribution rank numProcesses part flags targetProcess processesToRecvFrom =
        some res → res.2 = insertReceivers processesToRecvFrom flags) := by
  refine ⟨mem_insertReceivers processesToRecvFrom flags, ?_, ?_⟩
  · intro a
    rw [mem_insertReceivers]
    simp
  · intro B rank numProcesses part targetProcess res h
    unfold deriveRedistribution at h
    cases hs : isSendingBlockToProcess rank numProcesses part with
    | none => rw [hs] at h; exact Option.noConfusion h
    | some v =>
      rw [hs] at h
      cases ha : assignTargets part targetProcess with
      | none => rw [ha] at h; exact Option.noConfusion h
      | some tp =>
        rw [ha] at h
        simp only [Option.some.injEq] at h
        rw [← h]

/-! ### Send/receive symmetry -/

theorem allResults_of_forall {α : Type} (l : List (Option α)) :
    (∀ o ∈ l, ∃ a, o = some a) →
      ∃ as, allResults l = some as ∧ as.length = l.length ∧
        ∀ i : Nat, l[i]? = (as[i]?).map some := by
  induction l with
  | nil => intro _; exact ⟨[], rfl, rfl, by simp⟩
  | cons o rest ih =>
    intro h
    obtain ⟨a, rfl⟩ := h o (List.mem_cons_self _ _)
    obtain ⟨as, has, hl, hi⟩ := ih (fun o ho => h o (List.mem_cons_of_mem _ ho))
    refine ⟨a :: as, by simp [allResults, has], by simp [hl], ?_⟩
    intro i
    cases i with
    | zero => simp
    | succ j => simpa using hi j

/-- The send matrix of a pass in which every partition value is a valid rank. -/
theorem sendMatrix_spec (parts : List (List Int))
    (h : ∀ part ∈ parts, ∀ p ∈ part, 0 ≤ p ∧ p < (parts.length : Int)) :
    ∃ M, sendMatrix parts = some M ∧ M.length = parts.length ∧
      ∀ A : Nat, A < parts.length → ∃ row part, M[A]? = some row ∧ parts[A]? = some part ∧
        isSendingBlockToProcess A parts.length part = some row := by
  have hall : ∀ o ∈ parts.enum.map (fun e => isSendingBlockToProcess e.1 parts.length e.2),
      ∃ a, o = some a := by
    intro o ho
    rw [List.mem_map] at ho
    obtain ⟨⟨r, part⟩, hmem, rfl⟩ := ho
    have hm := List.mem_enum hmem
    obtain ⟨v, hv, _⟩ := isSendingBlockToProcess_spec r parts.length part hm.1
      (h part (by rw [hm.2]; exact List.getElem_mem _))
    exact ⟨v, hv⟩
  obtain ⟨M, hM, hl, hi⟩ := allResults_of_forall _ hall
  refine ⟨M, hM, by simpa using hl, ?_⟩
  intro A hA
  have hA2 := hi A
  rw [List.getElem?_map, List.getElem?_enum, List.getElem?_eq_getElem hA] at hA2
  simp only [Option.map_some'] at hA2
  have hAM : A < M.length := by rw [hl]; simpa using hA
  rw [List.getElem?_eq_getElem hAM] at hA2
  simp only [Option.map_some', Option.some.injEq] at hA2
  exact ⟨M[A], parts[A], List.getElem?_eq_getElem hAM, List.getElem?_eq_getElem hA, hA2⟩

/-- C2: when every partition value of every rank is in `[0, P)` and every rank starts from an
empty receive-set, all send vectors are built and, for all ranks `A` and `B`, the flag
`isSendingBlockToProcess[B]` of `A` is 1 exactly when the receive-set of `B` contains `A` after
the all-to-all. -/
theorem send_receive_symmetry (parts : List (List Int))
    (h : ∀ part ∈ parts, ∀ p ∈ part, 0 ≤ p ∧ p < (parts.length : Int)) :
    ∃ M, sendMatrix parts = some M ∧
      ∀ A B : Nat, A < parts.length → B < parts.length →
        ∃ row recv, M[A]? = some row ∧
          (receiveSets (List.replicate parts.length []) M)[B]? = some recv ∧
          (row[B]? = some 1 ↔ A ∈ recv) := by
  obtain ⟨M, hM, hl, hrow⟩ := sendMatrix_spec parts h
  refine ⟨M, hM, ?_⟩
  intro A B hA hB
  obtain ⟨row, part, hMA, hpA, hsend⟩ := hrow A hA
  obtain ⟨v, hv, hvl, _⟩ := isSendingBlockToProcess_spec A parts.length part hA
    (h part (List.mem_iff_getElem?.2 ⟨A, hpA⟩))
  rw [hsend] at hv
  simp only [Option.some.injEq] at hv
  subst hv
  refine ⟨row, insertReceivers [] (MPI_Alltoall M B), hMA, ?_, ?_⟩
  · unfold receiveSets
    rw [List.getElem?_map, List.getElem?_enum, List.getElem?_replicate, if_pos hB]
    rfl
  · rw [mem_insertReceivers]
    unfold MPI_Alltoall
    rw [List.getElem?_map, hMA]
    simp only [Option.map_some', List.not_mem_nil, false_or, Option.some.injEq]
    rw [List.getD_eq_getElem?_getD, List.getElem?_eq_getElem (by omega : B < row.length)]
    simp

/-- Witness of C2: three ranks; rank 0 sends to ranks 1 and 2, rank 1 keeps its block, rank 2
sends to rank 0. -/
theorem send_receive_symmetry_witness :
    sendMatrix [[1, 2], [1], [0]] = some [[0, 1, 1], [0, 0, 0], [1, 0, 0]] ∧
    receiveSets (List.replicate 3 []) [[0, 1, 1], [0, 0, 0], [1, 0, 0]] = [[2], [0], [0]] ∧
    ∃ M, sendMatrix [[1, 2], [1], [0]] = some M ∧
      ∀ A B : Nat, A < ([[1, 2], [1], [0]] : List (List Int)).length →
        B < ([[1, 2], [1], [0]] : List (List Int)).length →
        ∃ row recv, M[A]? = some row ∧
          (receiveSets (List.replicate ([[1, 2], [1], [0]] : List (List Int)).length []) M)[B]? =
            some recv ∧
          (row[B]? = some 1 ↔ A ∈ recv) :=
  ⟨by decide, by decide, send_receive_symmetry [[1, 2], [1], [0]] (by decide)⟩

/-! ### Graph builder -/

theorem forestEdges_acc (mapping : List (BlockID × Nat)) (edgeWeights : List (BlockID × Int))
    (l : List BlockID) :
    ∀ a w : List Int, forestEdges mapping edgeWeights l (a, w) =
      (forestEdges mapping edgeWeights l ([], [])).map (fun r => (a ++ r.1, w ++ r.2)) := by
  induction l with
  | nil => intro a w; simp [forestEdges]
  | cons nid rest ih =>
    intro a w
    simp only [forestEdges]
    cases hm : mapFind mapping nid with
    | none => simp
    | some s =>
      simp only [List.nil_append]
      rw [ih (a ++ [int64_c s]), ih [int64_c s]]
      simp [Option.map_map, Function.comp_def]

theorem edgeWeightEdges_acc (mapping : List (BlockID × Nat)) (l : List (BlockID × Int)) :
    ∀ a w : List Int, edgeWeightEdges mapping l (a, w) =
      (edgeWeightEdges mapping l ([], [])).map (fun r => (a ++ r.1, w ++ r.2)) := by
  induction l with
  | nil => intro a w; simp [edgeWeightEdges]
  | cons e rest ih =>
    intro a w
    obtain ⟨id, x⟩ := e
    simp only [edgeWeightEdges]
    cases hm : mapFind mapping id with
    | none => simp
    | some s =>
      simp only [List.nil_append]
      rw [ih (a ++ [int64_c s]), ih [int64_c s]]
      simp [Option.map_map, Function.comp_def]

theorem emitEdges_acc {D : Type} (edgeSource_ : EdgeSource) (mapping : List (BlockID × Nat))
    (block : PhantomBlock D) (a w : List Int) :
    emitEdges edgeSource_ mapping block (a, w) =
      (blockEdges edgeSource_ mapping block).map (fun r => (a ++ r.1, w ++ r.2)) := by
  cases edgeSource_
  · exact forestEdges_acc _ _ _ a w
  · exact edgeWeightEdges_acc _ _ a w

/-- The neighbourhood loop from empty arrays: it succeeds exactly when every id resolves, and
then lists the sequence ids and the weights in neighbourhood order. -/
theorem forestEdges_nil (mapping : List (BlockID × Nat)) (edgeWeights : List (BlockID × Int))
    (l : List BlockID) :
    forestEdges mapping edgeWeights l ([], []) =
      if ∀ id ∈ l, (mapFind mapping id).isSome = true then
        some (l.map (fun id => int64_c ((mapFind mapping id).getD 0)),
          l.map (fun id => (mapFind edgeWeights id).getD 0))
      else none := by
  induction l with
  | nil => simp [forestEdges]
  | cons nid rest ih =>
    simp only [forestEdges]
    cases hm : mapFind mapping nid with
    | none => simp [hm]
    | some s =>
      simp only [List.nil_append]
      rw [forestEdges_acc, ih]
      by_cases hall : ∀ id ∈ rest, (mapFind mapping id).isSome = true
      · rw [if_pos hall, if_pos]
        · cases hw : mapFind edgeWeights nid <;> simp [hm, hw]
        · intro id hid
          rcases List.mem_cons.1 hid with rfl | h
          · simp [hm]
          · exact hall id h
      · rw [if_neg hall, if_neg]
        · rfl
        · intro hcon
          exact hall (fun id hid => hcon id (List.mem_cons_of_mem _ hid))

/-- The edge-weight-map loop from empty arrays: it succeeds exactly when every key resolves,
and then lists the sequence ids of the keys and the stored weights in map order. -/
theorem edgeWeightEdges_nil (mapping : List (BlockID × Nat)) (l : List (BlockID × Int)) :
    edgeWeightEdges mapping l ([], []) =
      if ∀ id ∈ l.map Prod.fst, (mapFind mapping id).isSome = true then
        some (l.map (fun e => int64_c ((mapFind mapping e.1).getD 0)), l.map Prod.snd)
      else none := by
  induction l with
  | nil => simp [edgeWeightEdges]
  | cons e rest ih =>
    obtain ⟨id, x⟩ := e
    simp only [edgeWeightEdges]
    cases hm : mapFind mapping id with
    | none => simp [hm]
    | some s =>
      simp only [List.nil_append]
      rw [edgeWeightEdges_acc, ih]
      by_cases hall : ∀ id ∈ rest.map Prod.fst, (mapFind mapping id).isSome = true
      · rw [if_pos hall, if_pos]
        · simp [hm]
        · intro k hk
          simp only [List.map_cons, List.mem_cons] at hk
          rcases hk with rfl | h
          · simp [hm]
          · exact hall k h
      · rw [if_neg hall, if_neg]
        · rfl
        · intro hcon
          apply hall
          intro k hk
          apply hcon
          simp only [List.map_cons, List.mem_cons]
          exact Or.inr hk

/-- The edge loop of one block succeeds exactly when every referenced id resolves. -/
theorem blockEdges_isSome_iff {D : Type} (edgeSource_ : EdgeSource)
    (mapping : List (BlockID × Nat)) (block : PhantomBlock D) :
    (blockEdges edgeSource_ mapping block).isSome = true ↔
      ∀ id ∈ referencedIds edgeSource_ block, (mapFind mapping id).isSome = true := by
  cases edgeSource_
  · simp only [blockEdges, emitEdges, referencedIds, forestEdges_nil]
    by_cases h : ∀ id ∈ block.neighborhood, (mapFind mapping id).isSome = true
    · simp [h]
    · simp [h]
  · simp only [blockEdges, emitEdges, referencedIds, edgeWeightEdges_nil]
    by_cases h : ∀ id ∈ block.data.edgeWeights.map Prod.fst, (mapFind mapping id).isSome = true
    · simp [h]
    · simp [h]

/-- One pass of the loop body on a block whose edge loop succeeds. -/
theorem addBlock_of_blockEdges {D : Type} (edgeSource_ : EdgeSource)
    (mapping : List (BlockID × Nat)) (g : GraphArrays D) (it : PhantomBlock D × Nat)
    (row : List Int × List Int) (h : blockEdges edgeSource_ mapping it.1 = some row) :
    addBlock edgeSource_ mapping g it =
      some
        { adjncy := g.adjncy ++ row.1
          xadj := g.xadj ++ [int64_c g.adjncy.length]
          vsize := g.vsize ++ [it.1.data.vertexSize]
          vwgt := g.vwgt ++ [it.1.data.vertexWeight]
          adjwgt := g.adjwgt ++ row.2
          xyz := g.xyz ++ [it.1.data.vertexCoords.c0, it.1.data.vertexCoords.c1,
            it.1.data.vertexCoords.c2] } := by
  simp [addBlock, emitEdges_acc, h]

theorem addBlock_isSome {D : Type} (edgeSource_ : EdgeSource)
    (mapping : List (BlockID × Nat)) (g g' : GraphArrays D) (it : PhantomBlock D × Nat)
    (h : addBlock edgeSource_ mapping g it = some g') :
    (blockEdges edgeSource_ mapping it.1).isSome = true := by
  cases hb : blockEdges edgeSource_ mapping it.1 with
  | some row => rfl
  | none => simp [addBlock, emitEdges_acc, hb] at h

/-- The loop over `targetProcess` fails when the edge loop of some block fails. -/
theorem graphLoop_isSome {D : Type} (edgeSource_ : EdgeSource) (mapping : List (BlockID × Nat))
    (targetProcess : List (PhantomBlock D × Nat)) :
    ∀ g g' : GraphArrays D, graphLoop edgeSource_ mapping targetProcess g = some g' →
      ∀ it ∈ targetProcess, (blockEdges edgeSource_ mapping it.1).isSome = true := by
  induction targetProcess with
  | nil => intro g g' _ it hit; simp at hit
  | cons a rest ih =>
    intro g g' h it hit
    simp only [graphLoop] at h
    cases ha : addBlock edgeSource_ mapping g a with
    | none => rw [ha] at h; exact Option.noConfusion h
    | some g1 =>
      rw [ha] at h
      rcases List.mem_cons.1 hit with rfl | hr
      · exact addBlock_isSome _ _ _ _ _ ha
      · exact ih g1 g' h it hr

/-- Closed form of the loop over `targetProcess` when the edge loop of every block succeeds. -/
theorem graphLoop_closed {D : Type} (edgeSource_ : EdgeSource) (mapping : List (BlockID × Nat))
    (targetProcess : List (PhantomBlock D × Nat)) :
    ∀ g : GraphArrays D,
      (∀ it ∈ targetProcess, (blockEdges edgeSource_ mapping it.1).isSome = true) →
      graphLoop edgeSource_ mapping targetProcess g =
        some
          { adjncy := g.adjncy ++
              (targetProcess.map (fun it => (edgeRow edgeSource_ mapping it.1).1)).flatten
            xadj := g.xadj ++ (List.range targetProcess.length).map (fun i =>
              int64_c (g.adjncy.length + ((targetProcess.take i).map
                (fun it => (edgeRow edgeSource_ mapping it.1).1.length)).sum))
            vsize := g.vsize ++ targetProcess.map (fun it => it.1.data.vertexSize)
            vwgt := g.vwgt ++ targetProcess.map (fun it => it.1.data.vertexWeight)
            adjwgt := g.adjwgt ++
              (targetProcess.map (fun it => (edgeRow edgeSource_ mapping it.1).2)).flatten
            xyz := g.xyz ++ (targetProcess.map (fun it =>
              [it.1.data.vertexCoords.c0, it.1.data.vertexCoords.c1,
                it.1.data.vertexCoords.c2])).flatten } := by
  induction targetProcess with
  | nil => intro g _; simp [graphLoop]
  | cons a rest ih =>
    intro g h
    have ha := h a (List.mem_cons_self _ _)
    obtain ⟨row, hrow⟩ := Option.isSome_iff_exists.1 ha
    have hrowD : edgeRow edgeSource_ mapping a.1 = row := by simp [edgeRow, hrow]
    simp only [graphLoop]
    rw [addBlock_of_blockEdges _ _ _ _ row hrow]
    simp only
    rw [ih _ (fun it hit => h it (List.mem_cons_of_mem _ hit))]
    simp only [List.map_cons, List.flatten_cons, List.length_cons, hrowD, List.append_assoc,
      List.length_append, Option.some.injEq, GraphArrays.mk.injEq, List.append_cancel_left_eq,
      true_and, and_true, List.singleton_append, List.cons_append, List.nil_append]
    rw [List.range_succ_eq_map]
    simp only [List.map_cons, List.take_zero, List.map_nil, List.sum_nil, Nat.add_zero,
      List.map_map, List.cons.injEq, true_and]
    apply List.map_congr_left
    intro i _
    simp only [Function.comp_apply, List.take_succ_cons, List.map_cons, List.sum_cons, hrowD]
    congr 1
    omega

theorem length_flatten_rows {D : Type} (edgeSource_ : EdgeSource)
    (mapping : List (BlockID × Nat)) (targetProcess : List (PhantomBlock D × Nat)) :
    (targetProcess.map (fun it => (edgeRow edgeSource_ mapping it.1).1)).flatten.length =
      rowOffset edgeSource_ mapping targetProcess targetProcess.length := by
  unfold rowOffset
  rw [List.take_of_length_le (le_refl _), List.length_flatten, List.map_map]
  rfl

/-- The builder returns arrays exactly when every referenced id resolves, and then the arrays
are the closed form. -/
theorem buildGraph_eq_some_iff {D : Type} (edgeSource_ : EdgeSource)
    (mapping : List (BlockID × Nat)) (targetProcess : List (PhantomBlock D × Nat))
    (g : GraphArrays D) :
    buildGraph edgeSource_ mapping targetProcess = some g ↔
      (∀ it ∈ targetProcess, ∀ id ∈ referencedIds edgeSource_ it.1,
        (mapFind mapping id).isSome = true) ∧
      g = closedGraph edgeSource_ mapping targetProcess := by
  have hclosed : (∀ it ∈ targetProcess, (blockEdges edgeSource_ mapping it.1).isSome = true) →
      buildGraph edgeSource_ mapping targetProcess =
        some (closedGraph edgeSource_ mapping targetProcess) := by
    intro h
    unfold buildGraph
    rw [graphLoop_closed edgeSource_ mapping targetProcess _ h]
    simp only [List.nil_append, List.length_nil, Nat.zero_add, closedGraph, Option.some.injEq,
      GraphArrays.mk.injEq, true_and, and_true]
    rw [List.range_succ, List.map_append, length_flatten_rows]
    simp only [List.map_cons, List.map_nil, List.append_cancel_right_eq]
    apply List.map_congr_left
    intro a _
    rw [rowOffset, List.map_take]
  constructor
  · intro h
    have hres : ∀ it ∈ targetProcess, (blockEdges edgeSource_ mapping it.1).isSome = true := by
      unfold buildGraph at h
      cases hl : graphLoop edgeSource_ mapping targetProcess
          { adjncy := [], xadj := [], vsize := [], vwgt := [], adjwgt := [], xyz := [] } with
      | none => rw [hl] at h; exact Option.noConfusion h
      | some g1 => exact graphLoop_isSome _ _ _ _ _ hl
    refine ⟨fun it hit => (blockEdges_isSome_iff _ _ _).1 (hres it hit), ?_⟩
    rw [hclosed hres] at h
    exact (Option.some.inj h).symm
  · rintro ⟨hres, rfl⟩
    exact hclosed (fun it hit => (blockEdges_isSome_iff _ _ _).2 (hres it hit))

theorem rowOffset_succ {D : Type} (edgeSource_ : EdgeSource) (mapping : List (BlockID × Nat))
    (targetProcess : List (PhantomBlock D × Nat)) (i : Nat) (it : PhantomBlock D × Nat)
    (h : targetProcess[i]? = some it) :
    rowOffset edgeSource_ mapping targetProcess (i + 1) =
      rowOffset edgeSource_ mapping targetProcess i +
        (edgeRow edgeSource_ mapping it.1).1.length := by
  obtain ⟨hi, hget⟩ := List.getElem?_eq_some.1 h
  unfold rowOffset
  rw [List.map_take, List.map_take,
    List.sum_take_succ _ i (by simpa using hi)]
  simp [hget]

theorem closedGraph_xadj_getElem? {D : Type} (edgeSource_ : EdgeSource)
    (mapping : List (BlockID × Nat)) (targetProcess : List (PhantomBlock D × Nat)) (i : Nat)
    (hi : i ≤ targetProcess.length) :
    (closedGraph edgeSource_ mapping targetProcess).xadj[i]? =
      some (int64_c (rowOffset edgeSource_ mapping targetProcess i)) := by
  simp only [closedGraph]
  rw [List.getElem?_map, List.getElem?_range (by omega)]
  rfl

/-- The rows of `adjncy` and `adjwgt` of a block have the same length. -/
theorem edgeRow_lengths {D : Type} (edgeSource_ : EdgeSource) (mapping : List (BlockID × Nat))
    (block : PhantomBlock D) :
    (edgeRow edgeSource_ mapping block).1.length = (edgeRow edgeSource_ mapping block).2.length := by
  cases edgeSource_
  · simp only [edgeRow, blockEdges, emitEdges, forestEdges_nil]
    split <;> simp
  · simp only [edgeRow, blockEdges, emitEdges, edgeWeightEdges_nil]
    split <;> simp

/-- The slice of `adjncy` between two consecutive offsets is the row of the block. -/
theorem closedGraph_adjncy_slice {D : Type} (edgeSource_ : EdgeSource)
    (mapping : List (BlockID × Nat)) (targetProcess : List (PhantomBlock D × Nat)) (i : Nat)
    (it : PhantomBlock D × Nat) (h : targetProcess[i]? = some it) :
    ((closedGraph edgeSource_ mapping targetProcess).adjncy.take
        (rowOffset edgeSource_ mapping targetProcess (i + 1))).drop
        (rowOffset edgeSource_ mapping targetProcess i) =
      (edgeRow edgeSource_ mapping it.1).1 := by
  obtain ⟨hi, hget⟩ := List.getElem?_eq_some.1 h
  have := List.drop_take_succ_flatten_eq_getElem
    (targetProcess.map (fun it => (edgeRow edgeSource_ mapping it.1).1)) i (by simpa using hi)
  simp only [List.map_map, List.getElem_map, hget] at this
  simpa [closedGraph, rowOffset, Function.comp_def] using this

/-- The slice of `adjwgt` between two consecutive offsets is the weight row of the block. -/
theorem closedGraph_adjwgt_slice {D : Type} (edgeSource_ : EdgeSource)
    (mapping : List (BlockID × Nat)) (targetProcess : List (PhantomBlock D × Nat)) (i : Nat)
    (it : PhantomBlock D × Nat) (h : targetProcess[i]? = some it) :
    ((closedGraph edgeSource_ mapping targetProcess).adjwgt.take
        (rowOffset edgeSource_ mapping targetProcess (i + 1))).drop
        (rowOffset edgeSource_ mapping targetProcess i) =
      (edgeRow edgeSource_ mapping it.1).2 := by
  obtain ⟨hi, hget⟩ := List.getElem?_eq_some.1 h
  have := List.drop_take_succ_flatten_eq_getElem
    (targetProcess.map (fun it => (edgeRow edgeSource_ mapping it.1).2)) i (by simpa using hi)
  simp only [List.map_map, List.getElem_map, hget] at this
  have hfun : (List.length ∘ fun it : PhantomBlock D × Nat =>
      (edgeRow edgeSource_ mapping it.1).2) =
      fun it => (edgeRow edgeSource_ mapping it.1).1.length := by
    funext x; simp [edgeRow_lengths]
  rw [hfun] at this
  simpa [closedGraph, rowOffset] using this

theorem rowOffset_mono {D : Type} (edgeSource_ : EdgeSource) (mapping : List (BlockID × Nat))
    (targetProcess : List (PhantomBlock D × Nat)) (i j : Nat) (hij : i ≤ j) :
    rowOffset edgeSource_ mapping targetProcess i ≤
      rowOffset edgeSource_ mapping targetProcess j := by
  unfold rowOffset
  rw [List.map_take, List.map_take]
  exact List.monotone_sum_take _ hij

theorem rowOffset_zero {D : Type} (edgeSource_ : EdgeSource) (mapping : List (BlockID × Nat))
    (targetProcess : List (PhantomBlock D × Nat)) :
    rowOffset edgeSource_ mapping targetProcess 0 = 0 := by
  simp [rowOffset]

/-- Entries of the concatenation of three-element rows. -/
theorem triples_getElem? {α β : Type} (f0 f1 f2 : α → β) (l : List α) :
    (l.map (fun x => [f0 x, f1 x, f2 x])).flatten.length = 3 * l.length ∧
    ∀ (i : Nat) (a : α), l[i]? = some a →
      (l.map (fun x => [f0 x, f1 x, f2 x])).flatten[3 * i]? = some (f0 a) ∧
      (l.map (fun x => [f0 x, f1 x, f2 x])).flatten[3 * i + 1]? = some (f1 a) ∧
      (l.map (fun x => [f0 x, f1 x, f2 x])).flatten[3 * i + 2]? = some (f2 a) := by
  induction l with
  | nil => simp
  | cons x rest ih =>
    refine ⟨?_, ?_⟩
    · simp only [List.map_cons, List.flatten_cons, List.length_append, List.length_cons,
        List.length_nil, ih.1]
      omega
    · intro i a h
      cases i with
      | zero =>
        simp only [List.getElem?_cons_zero, Option.some.injEq] at h
        subst h
        simp
      | succ j =>
        simp only [List.getElem?_cons_succ] at h
        obtain ⟨h0, h1, h2⟩ := ih.2 j a h
        have e0 : 3 * (j + 1) = 3 * j + 1 + 1 + 1 := by omega
        have e1 : 3 * (j + 1) + 1 = 3 * j + 1 + 1 + 1 + 1 := by omega
        have e2 : 3 * (j + 1) + 2 = 3 * j + 2 + 1 + 1 + 1 := by omega
        simp only [List.map_cons, List.flatten_cons, List.cons_append, List.nil_append]
        refine ⟨?_, ?_, ?_⟩
        · rw [e0]; simp only [List.getElem?_cons_succ]; exact h0
        · rw [e1]; simp only [List.getElem?_cons_succ]; exact h1
        · rw [e2]; simp only [List.getElem?_cons_succ]; exact h2

/-- C5: for either edge source the builder returns arrays whenever every referenced id
resolves, and in every graph it returns the offsets array `xadj` has length `n + 1`, starts
at 0, is non-decreasing, `xadj[i+1] - xadj[i]` is the number of edges emitted for block `i`,
and its last entry is the length of `adjncy`. -/
theorem xadj_csr_offsets {D : Type} (edgeSource_ : EdgeSource) (mapping : List (BlockID × Nat))
    (targetProcess : List (PhantomBlock D × Nat)) :
    ((∀ it ∈ targetProcess, ∀ id ∈ referencedIds edgeSource_ it.1,
        (mapFind mapping id).isSome = true) →
      ∃ g, buildGraph edgeSource_ mapping targetProcess = some g) ∧
    ∀ g, buildGraph edgeSource_ mapping targetProcess = some g →
      g.xadj.length = targetProcess.length + 1 ∧
      g.xadj[0]? = some 0 ∧
      (∀ (i j : Nat) (a b : Int), i ≤ j → g.xadj[i]? = some a → g.xadj[j]? = some b → a ≤ b) ∧
      (∀ i : Nat, i < targetProcess.length →
        ∃ (lo hi : Int) (it : PhantomBlock D × Nat) (row : List Int × List Int),
          g.xadj[i]? = some lo ∧ g.xadj[i + 1]? = some hi ∧ targetProcess[i]? = some it ∧
          blockEdges edgeSource_ mapping it.1 = some row ∧
          hi - lo = (row.1.length : Int)) ∧
      g.xadj[targetProcess.length]? = some (g.adjncy.length : Int) := by
  refine ⟨fun h => ⟨_, (buildGraph_eq_some_iff _ _ _ _).2 ⟨h, rfl⟩⟩, ?_⟩
  intro g hg
  obtain ⟨hres, rfl⟩ := (buildGraph_eq_some_iff _ _ _ _).1 hg
  refine ⟨by simp [closedGraph], ?_, ?_, ?_, ?_⟩
  · rw [closedGraph_xadj_getElem? _ _ _ 0 (by omega), rowOffset_zero]; rfl
  · intro i j a b hij ha hb
    have hj : j ≤ targetProcess.length := by
      by_contra hcon
      rw [List.getElem?_eq_none (by simp [closedGraph]; omega)] at hb
      exact Option.noConfusion hb
    rw [closedGraph_xadj_getElem? _ _ _ i (by omega)] at ha
    rw [closedGraph_xadj_getElem? _ _ _ j hj] at hb
    simp only [Option.some.injEq] at ha hb
    subst ha; subst hb
    unfold int64_c
    exact_mod_cast rowOffset_mono _ _ _ i j hij
  · intro i hi
    have hit : targetProcess[i]? = some targetProcess[i] := List.getElem?_eq_getElem hi
    have hsome := (blockEdges_isSome_iff edgeSource_ mapping targetProcess[i].1).2
      (hres _ (List.getElem_mem hi))
    obtain ⟨row, hrow⟩ := Option.isSome_iff_exists.1 hsome
    refine ⟨_, _, targetProcess[i], row, closedGraph_xadj_getElem? _ _ _ i (by omega),
      closedGraph_xadj_getElem? _ _ _ (i + 1) (by omega), hit, hrow, ?_⟩
    rw [rowOffset_succ _ _ _ i _ hit]
    simp [int64_c, edgeRow, hrow]
  · rw [closedGraph_xadj_getElem? _ _ _ _ (le_refl _)]
    simp only [closedGraph, length_flatten_rows]
    rfl

/-- C6: for either edge source the builder returns arrays whenever every referenced id
resolves, and in every graph it returns `adjncy` and `adjwgt` have equal length, `vwgt` and
`vsize` have length `n` with entry `i` the vertex weight and size of block `i`, `xyz` has
length `3n` with entries `3i`, `3i+1`, `3i+2` the coordinates of block `i`, and the length
assertions of lines 176-179 hold for a forest of `n` blocks. -/
theorem graph_array_lengths {D : Type} (edgeSource_ : EdgeSource)
    (mapping : List (BlockID × Nat)) (targetProcess : List (PhantomBlock D × Nat)) :
    ((∀ it ∈ targetProcess, ∀ id ∈ referencedIds edgeSource_ it.1,
        (mapFind mapping id).isSome = true) →
      ∃ g, buildGraph edgeSource_ mapping targetProcess = some g) ∧
    ∀ g, buildGraph edgeSource_ mapping targetProcess = some g →
      g.adjncy.length = g.adjwgt.length ∧
      g.vwgt.length = targetProcess.length ∧
      g.vsize.length = targetProcess.length ∧
      g.xyz.length = 3 * targetProcess.length ∧
      (∀ (i : Nat) (it : PhantomBlock D × Nat), targetProcess[i]? = some it →
        g.vwgt[i]? = some it.1.data.vertexWeight ∧
        g.vsize[i]? = some it.1.data.vertexSize ∧
        g.xyz[3 * i]? = some it.1.data.vertexCoords.c0 ∧
        g.xyz[3 * i + 1]? = some it.1.data.vertexCoords.c1 ∧
        g.xyz[3 * i + 2]? = some it.1.data.vertexCoords.c2) ∧
      (∀ phantomForest : PhantomBlockForest D,
        phantomForest.getNumberOfBlocks = targetProcess.length →
        graphAssertions phantomForest g = true) := by
  refine ⟨fun h => ⟨_, (buildGraph_eq_some_iff _ _ _ _).2 ⟨h, rfl⟩⟩, ?_⟩
  intro g hg
  obtain ⟨_, rfl⟩ := (buildGraph_eq_some_iff _ _ _ _).1 hg
  have hadj : (closedGraph edgeSource_ mapping targetProcess).adjncy.length =
      (closedGraph edgeSource_ mapping targetProcess).adjwgt.length := by
    simp only [closedGraph, List.length_flatten, List.map_map]
    congr 1
    apply List.map_congr_left
    intro it _
    exact edgeRow_lengths _ _ _
  have htri := triples_getElem? (fun it : PhantomBlock D × Nat => it.1.data.vertexCoords.c0)
    (fun it => it.1.data.vertexCoords.c1) (fun it => it.1.data.vertexCoords.c2) targetProcess
  refine ⟨hadj, by simp [closedGraph], by simp [closedGraph], htri.1, ?_, ?_⟩
  · intro i it hit
    refine ⟨?_, ?_, htri.2 i it hit⟩
    · simp [closedGraph, hit]
    · simp [closedGraph, hit]
  · intro phantomForest hn
    simp only [graphAssertions, Bool.and_eq_true, decide_eq_true_eq]
    refine ⟨⟨⟨?_, ?_⟩, ?_⟩, hadj⟩
    · simp [closedGraph, hn]
    · simp [closedGraph, hn]
    · simp [closedGraph, hn]

/-- Placement of the row of block `i` in the arrays of a built graph. -/
theorem buildGraph_row {D : Type} (edgeSource_ : EdgeSource) (mapping : List (BlockID × Nat))
    (targetProcess : List (PhantomBlock D × Nat)) (g : GraphArrays D)
    (hg : buildGraph edgeSource_ mapping targetProcess = some g) (i : Nat)
    (it : PhantomBlock D × Nat) (hit : targetProcess[i]? = some it) :
    ∃ lo : Nat, g.xadj[i]? = some (lo : Int) ∧
      g.xadj[i + 1]? = some ((lo + (edgeRow edgeSource_ mapping it.1).1.length : Nat) : Int) ∧
      (g.adjncy.take (lo + (edgeRow edgeSource_ mapping it.1).1.length)).drop lo =
        (edgeRow edgeSource_ mapping it.1).1 ∧
      (g.adjwgt.take (lo + (edgeRow edgeSource_ mapping it.1).1.length)).drop lo =
        (edgeRow edgeSource_ mapping it.1).2 := by
  obtain ⟨_, rfl⟩ := (buildGraph_eq_some_iff _ _ _ _).1 hg
  obtain ⟨hi, _⟩ := List.getElem?_eq_some.1 hit
  refine ⟨rowOffset edgeSource_ mapping targetProcess i,
    closedGraph_xadj_getElem? _ _ _ i (by omega), ?_, ?_, ?_⟩
  · rw [closedGraph_xadj_getElem? _ _ _ (i + 1) (by omega), rowOffset_succ _ _ _ i it hit]
    rfl
  · rw [← rowOffset_succ _ _ _ i it hit]
    exact closedGraph_adjncy_slice _ _ _ i it hit
  · rw [← rowOffset_succ _ _ _ i it hit]
    exact closedGraph_adjwgt_slice _ _ _ i it hit

/-- C9: with the edge source `EDGES_FROM_FOREST`, for a block whose neighbourhood ids all
resolve in the directory, the edge loop appends exactly one edge per neighbour, in
neighbourhood order: entry `j` of the appended adjacency row is the directory's sequence id of
neighbour `j` and entry `j` of the weight row is the weight the block's edge-weight map stores
for that neighbour, 0 when it stores none; in a built graph this row is the slice of `adjncy`
and `adjwgt` between `xadj[i]` and `xadj[i+1]`. -/
theorem forest_edges_follow_neighbourhood {D : Type} (mapping : List (BlockID × Nat))
    (targetProcess : List (PhantomBlock D × Nat)) (i : Nat) (it : PhantomBlock D × Nat)
    (hit : targetProcess[i]? = some it)
    (hres : ∀ id ∈ it.1.neighborhood, (mapFind mapping id).isSome = true) :
    ∃ adj wgt : List Int,
      (∀ adjncy adjwgt : List Int,
        emitEdges .PARMETIS_EDGES_FROM_FOREST mapping it.1 (adjncy, adjwgt) =
          some (adjncy ++ adj, adjwgt ++ wgt)) ∧
      adj.length = it.1.neighborhood.length ∧
      wgt.length = it.1.neighborhood.length ∧
      (∀ (j : Nat) (nid : BlockID), it.1.neighborhood[j]? = some nid →
        ∃ s, mapFind mapping nid = some s ∧ adj[j]? = some (s : Int) ∧
          (∀ w, mapFind it.1.data.edgeWeights nid = some w → wgt[j]? = some w) ∧
          (mapFind it.1.data.edgeWeights nid = none → wgt[j]? = some 0)) ∧
      (∀ g, buildGraph .PARMETIS_EDGES_FROM_FOREST mapping targetProcess = some g →
        ∃ lo : Nat, g.xadj[i]? = some (lo : Int) ∧
          g.xadj[i + 1]? = some ((lo + it.1.neighborhood.length : Nat) : Int) ∧
          (g.adjncy.take (lo + it.1.neighborhood.length)).drop lo = adj ∧
          (g.adjwgt.take (lo + it.1.neighborhood.length)).drop lo = wgt) := by
  have hall := hres
  have hblock : blockEdges .PARMETIS_EDGES_FROM_FOREST mapping it.1 =
      some (it.1.neighborhood.map (fun id => int64_c ((mapFind mapping id).getD 0)),
        it.1.neighborhood.map (fun id => (mapFind it.1.data.edgeWeights id).getD 0)) := by
    simp only [blockEdges, emitEdges, forestEdges_nil]
    rw [if_pos hall]
  have hrow : edgeRow .PARMETIS_EDGES_FROM_FOREST mapping it.1 =
      (it.1.neighborhood.map (fun id => int64_c ((mapFind mapping id).getD 0)),
        it.1.neighborhood.map (fun id => (mapFind it.1.data.edgeWeights id).getD 0)) := by
    simp [edgeRow, hblock]
  refine ⟨it.1.neighborhood.map (fun id => int64_c ((mapFind mapping id).getD 0)),
    it.1.neighborhood.map (fun id => (mapFind it.1.data.edgeWeights id).getD 0),
    ?_, by simp, by simp, ?_, ?_⟩
  · intro adjncy adjwgt
    rw [emitEdges_acc, hblock]
    rfl
  · intro j nid hj
    obtain ⟨s, hs⟩ := Option.isSome_iff_exists.1 (hres nid (List.mem_iff_getElem?.2 ⟨j, hj⟩))
    refine ⟨s, hs, ?_, ?_, ?_⟩
    · simp [hj, hs, int64_c]
    · intro w hw; simp [hj, hw]
    · intro hw; simp [hj, hw]
  · intro g hg
    obtain ⟨lo, h1, h2, h3, h4⟩ := buildGraph_row _ _ _ g hg i it hit
    rw [hrow] at h2 h3 h4
    simp only [List.length_map] at h2 h3 h4
    exact ⟨lo, h1, h2, h3, h4⟩

theorem addBlock_edge_weights_congr {D : Type} (mapping : List (BlockID × Nat))
    (g : GraphArrays D) (a b : PhantomBlock D × Nat) (h : a.1.data = b.1.data) :
    addBlock .PARMETIS_EDGES_FROM_EDGE_WEIGHTS mapping g a =
      addBlock .PARMETIS_EDGES_FROM_EDGE_WEIGHTS mapping g b := by
  simp only [addBlock, emitEdges, h]

theorem graphLoop_edge_weights_congr {D : Type} (mapping : List (BlockID × Nat))
    (tp tp' : List (PhantomBlock D × Nat)) (h : List.Forall₂ sameUpToNeighborhood tp tp') :
    ∀ g : GraphArrays D, graphLoop .PARMETIS_EDGES_FROM_EDGE_WEIGHTS mapping tp g =
      graphLoop .PARMETIS_EDGES_FROM_EDGE_WEIGHTS mapping tp' g := by
  induction h with
  | nil => intro g; rfl
  | cons hab _ ih =>
    intro g
    simp only [graphLoop]
    rw [addBlock_edge_weights_congr mapping g _ _ hab.2.1]
    cases addBlock .PARMETIS_EDGES_FROM_EDGE_WEIGHTS mapping g _ with
    | none => rfl
    | some g1 => exact ih g1

/-- C10: with the edge source `EDGES_FROM_EDGE_WEIGHTS`, for a block whose edge-weight-map keys
all resolve in the directory, the edge loop appends exactly one edge per entry `(id, w)` of the
map, in map order, with adjacency entry the directory's sequence id of `id` and weight `w`; in
a built graph this row is the slice between `xadj[i]` and `xadj[i+1]`; and two runs whose
blocks differ only in their neighbourhoods produce the same result, in particular the same
`xadj`, `adjncy` and `adjwgt`. -/
theorem edge_weight_edges_ignore_neighbourhood {D : Type} (mapping : List (BlockID × Nat))
    (targetProcess : List (PhantomBlock D × Nat)) :
    (∀ (i : Nat) (it : PhantomBlock D × Nat), targetProcess[i]? = some it →
      (∀ id ∈ it.1.data.edgeWeights.map Prod.fst, (mapFind mapping id).isSome = true) →
      ∃ adj wgt : List Int,
        (∀ adjncy adjwgt : List Int,
          emitEdges .PARMETIS_EDGES_FROM_EDGE_WEIGHTS mapping it.1 (adjncy, adjwgt) =
            some (adjncy ++ adj, adjwgt ++ wgt)) ∧
        adj.length = it.1.data.edgeWeights.length ∧
        wgt.length = it.1.data.edgeWeights.length ∧
        (∀ (j : Nat) (id : BlockID) (w : Int), it.1.data.edgeWeights[j]? = some (id, w) →
          ∃ s, mapFind mapping id = some s ∧ adj[j]? = some (s : Int) ∧ wgt[j]? = some w) ∧
        (∀ g, buildGraph .PARMETIS_EDGES_FROM_EDGE_WEIGHTS mapping targetProcess = some g →
          ∃ lo : Nat, g.xadj[i]? = some (lo : Int) ∧
            g.xadj[i + 1]? = some ((lo + it.1.data.edgeWeights.length : Nat) : Int) ∧
            (g.adjncy.take (lo + it.1.data.edgeWeights.length)).drop lo = adj ∧
            (g.adjwgt.take (lo + it.1.data.edgeWeights.length)).drop lo = wgt)) ∧
    (∀ targetProcess' : List (PhantomBlock D × Nat),
      List.Forall₂ sameUpToNeighborhood targetProcess targetProcess' →
      buildGraph .PARMETIS_EDGES_FROM_EDGE_WEIGHTS mapping targetProcess' =
        buildGraph .PARMETIS_EDGES_FROM_EDGE_WEIGHTS mapping targetProcess) := by
  refine ⟨?_, ?_⟩
  · intro i it hit hres
    have hall := hres
    have hblock : blockEdges .PARMETIS_EDGES_FROM_EDGE_WEIGHTS mapping it.1 =
        some (it.1.data.edgeWeights.map (fun e => int64_c ((mapFind mapping e.1).getD 0)),
          it.1.data.edgeWeights.map Prod.snd) := by
      simp only [blockEdges, emitEdges, edgeWeightEdges_nil]
      rw [if_pos hall]
    have hrow : edgeRow .PARMETIS_EDGES_FROM_EDGE_WEIGHTS mapping it.1 =
        (it.1.data.edgeWeights.map (fun e => int64_c ((mapFind mapping e.1).getD 0)),
          it.1.data.edgeWeights.map Prod.snd) := by
      simp [edgeRow, hblock]
    refine ⟨it.1.data.edgeWeights.map (fun e => int64_c ((mapFind mapping e.1).getD 0)),
      it.1.data.edgeWeights.map Prod.snd, ?_, by simp, by simp, ?_, ?_⟩
    · intro adjncy adjwgt
      rw [emitEdges_acc, hblock]
      rfl
    · intro j id w hj
      have hmem : id ∈ it.1.data.edgeWeights.map Prod.fst :=
        List.mem_map.2 ⟨(id, w), List.mem_iff_getElem?.2 ⟨j, hj⟩, rfl⟩
      obtain ⟨s, hs⟩ := Option.isSome_iff_exists.1 (hres id hmem)
      exact ⟨s, hs, by simp [hj, hs, int64_c], by simp [hj]⟩
    · intro g hg
      obtain ⟨lo, h1, h2, h3, h4⟩ := buildGraph_row _ _ _ g hg i it hit
      rw [hrow] at h2 h3 h4
      simp only [List.length_map] at h2 h3 h4
      exact ⟨lo, h1, h2, h3, h4⟩
  · intro targetProcess' h
    unfold buildGraph
    rw [graphLoop_edge_weights_congr mapping targetProcess targetProcess' h]

/-- Witness of C5: the sample graph with the forest edge source. -/
theorem xadj_csr_offsets_witness :
    buildGraph .PARMETIS_EDGES_FROM_FOREST sampleMapping sampleTargets =
      some { adjncy := [1, 5, 0], xadj := [0, 2, 3], vsize := [3, 3], vwgt := [2, 2],
             adjwgt := [4, 0, 9], xyz := [10, 20, 30, 10, 20, 30] } ∧
    ∃ g, buildGraph .PARMETIS_EDGES_FROM_FOREST sampleMapping sampleTargets = some g :=
  ⟨by decide,
    (xadj_csr_offsets .PARMETIS_EDGES_FROM_FOREST sampleMapping sampleTargets).1 (by decide)⟩

/-- Witness of C6: the sample graph with the edge-weight edge source passes the length
assertions for a forest of two blocks. -/
theorem graph_array_lengths_witness :
    buildGraph .PARMETIS_EDGES_FROM_EDGE_WEIGHTS sampleMapping sampleTargets =
      some { adjncy := [1, 0, 5], xadj := [0, 1, 3], vsize := [3, 3], vwgt := [2, 2],
             adjwgt := [4, 9, 3], xyz := [10, 20, 30, 10, 20, 30] } ∧
    graphAssertions
      { blockMap := sampleTargets.map (fun it => (it.1.id, it.1)), neighboringProcesses := [] }
      { adjncy := [1, 0, 5], xadj := [0, 1, 3], vsize := [3, 3], vwgt := [2, 2],
        adjwgt := [4, 9, 3], xyz := [10, 20, 30, 10, 20, 30] } = true :=
  ⟨by decide,
    ((graph_array_lengths .PARMETIS_EDGES_FROM_EDGE_WEIGHTS sampleMapping sampleTargets).2 _
      (by decide)).2.2.2.2.2 _ (by decide)⟩

/-- Witness of C9: the first sample block has the neighbours 2 and 7; its edges are the
sequence ids 1 and 5 with the weights 4 and 0. -/
theorem forest_edges_follow_neighbourhood_witness :
    emitEdges .PARMETIS_EDGES_FROM_FOREST sampleMapping (sampleBlock 1 [2, 7] [(2, 4)])
      ([], []) = some ([1, 5], [4, 0]) ∧
    ∃ adj wgt : List Int,
      emitEdges .PARMETIS_EDGES_FROM_FOREST sampleMapping (sampleBlock 1 [2, 7] [(2, 4)])
        ([], []) = some ([] ++ adj, [] ++ wgt) ∧
      adj.length = 2 ∧ wgt.length = 2 :=
  ⟨by decide,
    (forest_edges_follow_neighbourhood sampleMapping sampleTargets 0
      (sampleBlock 1 [2, 7] [(2, 4)], 0) (by decide) (by decide)).elim
      (fun adj h => h.elim (fun wgt hw => ⟨adj, wgt, hw.1 [] [], hw.2.1, hw.2.2.1⟩))⟩

/-- Witness of C10: the second sample block has the edge weights `(1, 9)` and `(7, 3)`; its
edges are the sequence ids 0 and 5 with the weights 9 and 3, and a run on blocks with other
neighbourhoods gives the same graph. -/
theorem edge_weight_edges_ignore_neighbourhood_witness :
    emitEdges .PARMETIS_EDGES_FROM_EDGE_WEIGHTS sampleMapping
      (sampleBlock 2 [1] [(1, 9), (7, 3)]) ([], []) = some ([0, 5], [9, 3]) ∧
    (∃ adj wgt : List Int,
      emitEdges .PARMETIS_EDGES_FROM_EDGE_WEIGHTS sampleMapping
        (sampleBlock 2 [1] [(1, 9), (7, 3)]) ([], []) = some ([] ++ adj, [] ++ wgt) ∧
      adj.length = 2 ∧ wgt.length = 2) ∧
    buildGraph .PARMETIS_EDGES_FROM_EDGE_WEIGHTS sampleMapping
        [(sampleBlock 1 [] [(2, 4)], 0), (sampleBlock 2 [7, 7, 1] [(1, 9), (7, 3)], 0)] =
      buildGraph .PARMETIS_EDGES_FROM_EDGE_WEIGHTS sampleMapping sampleTargets :=
  ⟨by decide,
    ((edge_weight_edges_ignore_neighbourhood sampleMapping sampleTargets).1 1
      (sampleBlock 2 [1] [(1, 9), (7, 3)], 0) (by decide) (by decide)).elim
      (fun adj h => h.elim (fun wgt hw => ⟨adj, wgt, hw.1 [] [], hw.2.1, hw.2.2.1⟩)),
    (edge_weight_edges_ignore_neighbourhood sampleMapping sampleTargets).2 _
      (List.Forall₂.cons ⟨rfl, rfl, rfl⟩ (List.Forall₂.cons ⟨rfl, rfl, rfl⟩ List.Forall₂.nil))⟩

/-! ### Block-id directory -/

theorem mapFind_cons {V : Type} (e : BlockID × V) (m : List (BlockID × V)) (key : BlockID) :
    mapFind (e :: m) key = if e.1 = key then some e.2 else mapFind m key := by
  obtain ⟨k, v⟩ := e
  simp [mapFind]

theorem mapFind_append {V : Type} (l1 l2 : List (BlockID × V)) (key : BlockID) :
    mapFind (l1 ++ l2) key = (mapFind l1 key).or (mapFind l2 key) := by
  induction l1 with
  | nil => simp [mapFind]
  | cons e rest ih =>
    rw [List.cons_append, mapFind_cons, mapFind_cons, ih]
    by_cases h : e.1 = key <;> simp [h]

/-- Looking up after an ordered insertion of an entry whose key was absent. -/
theorem mapFind_orderedInsert {V : Type} (e : BlockID × V) (m : List (BlockID × V))
    (key : BlockID) (h : mapFind m e.1 = none) :
    mapFind (List.orderedInsert (fun a b => a.1 ≤ b.1) e m) key =
      if e.1 = key then some e.2 else mapFind m key := by
  induction m with
  | nil => simp [mapFind_cons, mapFind]
  | cons a rest ih =>
    rw [mapFind_cons] at h
    by_cases hae : a.1 = e.1
    · simp [hae] at h
    · rw [if_neg hae] at h
      rw [List.orderedInsert]
      by_cases hle : e.1 ≤ a.1
      · rw [if_pos hle, mapFind_cons]
      · rw [if_neg hle, mapFind_cons, ih h, mapFind_cons]
        by_cases hak : a.1 = key
        · have : ¬ e.1 = key := fun hek => hae (hak.trans hek.symm)
          simp [hak, this]
        · simp [hak]

/-- `std::map::insert` followed by `find`: a stored value stays, a new key gets the value. -/
theorem mapFind_mapInsert {V : Type} (m : List (BlockID × V)) (e : BlockID × V)
    (key : BlockID) :
    mapFind (mapInsert m e).1 key =
      (mapFind m key).or (if e.1 = key then some e.2 else none) := by
  unfold mapInsert
  cases hm : mapFind m e.1 with
  | some v =>
    simp only
    by_cases hek : e.1 = key
    · rw [← hek, hm]; simp
    · simp [hek]
  | none =>
    simp only
    rw [mapFind_orderedInsert e m key hm]
    by_cases hek : e.1 = key
    · rw [← hek, hm]; simp
    · simp [hek]

theorem mapFind_insertAll (entries : List (BlockID × Nat)) :
    ∀ (m : List (BlockID × Nat)) (key : BlockID),
      mapFind (insertAll m entries) key = (mapFind m key).or (mapFind entries key) := by
  induction entries with
  | nil => intro m key; simp [insertAll, mapFind]
  | cons e rest ih =>
    intro m key
    have hstep : insertAll m (e :: rest) = insertAll (mapInsert m e).1 rest := by
      simp [insertAll]
    rw [hstep, ih, mapFind_mapInsert, mapFind_cons]
    cases mapFind m key with
    | some v => simp
    | none => by_cases hek : e.1 = key <;> simp [hek]

theorem assignSequenceIds_eq {B : Type} (blockMap : List (BlockID × B)) :
    ∀ (m : List (BlockID × Nat)) (s : Nat),
      assignSequenceIds blockMap (m, s) =
        (insertAll m (localEntries s blockMap), s + blockMap.length) := by
  induction blockMap with
  | nil => intro m s; simp [assignSequenceIds, localEntries, insertAll]
  | cons b rest ih =>
    intro m s
    obtain ⟨id, blk⟩ := b
    simp only [assignSequenceIds, localEntries, List.length_cons]
    rw [ih]
    simp only [insertAll, List.foldl_cons, Prod.mk.injEq, true_and]
    omega

/-- The values of the local entries: the block at position `k` of the block map gets the
sequence id `start + k`. -/
theorem mapFind_localEntries {B : Type} (blockMap : List (BlockID × B)) :
    ∀ (start : Nat) (key : BlockID),
      (key ∈ blockMap.map Prod.fst → (mapFind (localEntries start blockMap) key).isSome = true) ∧
      (∀ s, mapFind (localEntries start blockMap) key = some s →
        ∃ k, blockMap[k]?.map Prod.fst = some key ∧ s = start + k) := by
  induction blockMap with
  | nil => intro start key; simp [localEntries, mapFind]
  | cons b rest ih =>
    intro start key
    obtain ⟨id, blk⟩ := b
    simp only [localEntries, mapFind_cons, List.map_cons, List.mem_cons]
    by_cases hid : id = key
    · subst hid
      refine ⟨fun _ => by simp, ?_⟩
      intro s hs
      simp only [if_true, Option.some.injEq] at hs
      exact ⟨0, by simp, by omega⟩
    · rw [if_neg hid]
      refine ⟨?_, ?_⟩
      · rintro (h | h)
        · exact absurd h.symm hid
        · exact (ih (start + 1) key).1 h
      · intro s hs
        obtain ⟨k, hk, hsk⟩ := (ih (start + 1) key).2 s hs
        exact ⟨k + 1, by simpa using hk, by omega⟩

theorem localMapping_release {D : Type} (phantomForest : PhantomBlockForest D)
    (r : Nat × Nat) :
    localMapping false phantomForest r =
      some (insertAll [] (localEntries r.1 phantomForest.blockMap)) := by
  simp [localMapping, assignSequenceIds_eq]

theorem localMapping_debug {D : Type} (debug : Bool) (phantomForest : PhantomBlockForest D)
    (r : Nat × Nat) (m : List (BlockID × Nat)) (h : localMapping debug phantomForest r = some m) :
    localMapping false phantomForest r = some m := by
  unfold localMapping at h ⊢
  simp only [Bool.false_and, Bool.false_eq_true, if_false]
  simp only at h
  split at h
  · exact Option.noConfusion h
  · exact h

theorem mergeRemote_release (entries : List (BlockID × Nat)) :
    ∀ m : List (BlockID × Nat), mergeRemote false m entries = some (insertAll m entries) := by
  induction entries with
  | nil => intro m; simp [mergeRemote, insertAll]
  | cons e rest ih =>
    intro m
    simp only [mergeRemote, Bool.false_and, Bool.false_eq_true, if_false]
    rw [ih]
    simp [insertAll]

theorem mergeRemote_debug (debug : Bool) (entries : List (BlockID × Nat)) :
    ∀ m m' : List (BlockID × Nat), mergeRemote debug m entries = some m' →
      mergeRemote false m entries = some m' := by
  induction entries with
  | nil => intro m m' h; simpa [mergeRemote] using h
  | cons e rest ih =>
    intro m m' h
    simp only [mergeRemote] at h ⊢
    simp only [Bool.false_and, Bool.false_eq_true, if_false]
    split at h
    · exact Option.noConfusion h
    · exact ih _ _ h

theorem mergeBuffers_release (buffers : List (List (BlockID × Nat))) :
    ∀ m : List (BlockID × Nat),
      mergeBuffers false m buffers = some (insertAll m buffers.flatten) := by
  induction buffers with
  | nil => intro m; simp [mergeBuffers, insertAll]
  | cons b rest ih =>
    intro m
    simp only [mergeBuffers, mergeRemote_release, ih]
    simp [insertAll, List.foldl_append]

theorem mergeBuffers_debug (debug : Bool) (buffers : List (List (BlockID × Nat))) :
    ∀ m m' : List (BlockID × Nat), mergeBuffers debug m buffers = some m' →
      mergeBuffers false m buffers = some m' := by
  induction buffers with
  | nil => intro m m' h; simpa [mergeBuffers] using h
  | cons b rest ih =>
    intro m m' h
    simp only [mergeBuffers] at h ⊢
    cases hb : mergeRemote debug m b with
    | none => rw [hb] at h; exact Option.noConfusion h
    | some m1 =>
      rw [hb] at h
      rw [mergeRemote_debug debug b m m1 hb]
      exact ih _ _ h

theorem allResults_eq_some_iff {α : Type} (l : List (Option α)) (r : List α) :
    allResults l = some r ↔ l = r.map some := by
  induction l generalizing r with
  | nil =>
    cases r with
    | nil => simp [allResults]
    | cons a as => simp [allResults]
  | cons o rest ih =>
    cases o with
    | none => cases r <;> simp [allResults]
    | some a =>
      simp only [allResults]
      cases hr : allResults rest with
      | none =>
        cases r with
        | nil => simp
        | cons b bs =>
          constructor
          · intro h; exact Option.noConfusion h
          · intro h
            simp only [List.map_cons, List.cons.injEq, Option.some.injEq] at h
            rw [(ih bs).2 h.2] at hr
            exact Option.noConfusion hr
      | some as =>
        have has := (ih as).1 hr
        cases r with
        | nil => simp
        | cons b bs =>
          simp only [Option.some.injEq, List.cons.injEq, List.map_cons]
          constructor
          · rintro ⟨rfl, rfl⟩; exact ⟨rfl, has⟩
          · rintro ⟨rfl, hb⟩
            refine ⟨rfl, ?_⟩
            have := (ih bs).2 hb
            rw [hr] at this
            exact Option.some.inj this

theorem mapFind_flatten_some (L : List (List (BlockID × Nat))) (key : BlockID) (s : Nat)
    (h : mapFind L.flatten key = some s) : ∃ l ∈ L, mapFind l key = some s := by
  induction L with
  | nil => simp [mapFind] at h
  | cons l rest ih =>
    rw [List.flatten_cons, mapFind_append, Option.or_eq_some] at h
    rcases h with h | ⟨_, h⟩
    · exact ⟨l, List.mem_cons_self _ _, h⟩
    · obtain ⟨l', hl', hf⟩ := ih h
      exact ⟨l', List.mem_cons_of_mem _ hl', hf⟩

theorem mapFind_flatten_isSome (L : List (List (BlockID × Nat))) (key : BlockID)
    (l : List (BlockID × Nat)) (hl : l ∈ L) (h : (mapFind l key).isSome = true) :
    (mapFind L.flatten key).isSome = true := by
  induction L with
  | nil => simp at hl
  | cons a rest ih =>
    rw [List.flatten_cons, mapFind_append, Option.isSome_or]
    rcases List.mem_cons.1 hl with rfl | hr
    · simp [h]
    · simp [ih hr]

/-- The directory of a release build: closed form of `getBlockIdToSequenceMapping`. -/
theorem getBlockIdToSequenceMapping_release {D : Type} (phantomForest : PhantomBlockForest D)
    (r : Nat × Nat) (received : List (List (BlockID × Nat))) :
    ∃ m, getBlockIdToSequenceMapping false phantomForest r received = some m ∧
      ∀ key, mapFind m key =
        (mapFind (localEntries r.1 phantomForest.blockMap) key).or
          (mapFind received.flatten key) := by
  refine ⟨insertAll (insertAll [] (localEntries r.1 phantomForest.blockMap)) received.flatten,
    by simp [getBlockIdToSequenceMapping, localMapping_release, mergeBuffers_release], ?_⟩
  intro key
  rw [mapFind_insertAll, mapFind_insertAll]
  simp [mapFind]

theorem getBlockIdToSequenceMapping_debug {D : Type} (debug : Bool)
    (phantomForest : PhantomBlockForest D) (r : Nat × Nat)
    (received : List (List (BlockID × Nat))) (m : List (BlockID × Nat))
    (h : getBlockIdToSequenceMapping debug phantomForest r received = some m) :
    getBlockIdToSequenceMapping false phantomForest r received = some m := by
  unfold getBlockIdToSequenceMapping at h ⊢
  cases hl : localMapping debug phantomForest r with
  | none => rw [hl] at h; exact Option.noConfusion h
  | some m0 =>
    rw [hl] at h
    rw [localMapping_debug debug phantomForest r m0 hl]
    exact mergeBuffers_debug debug received m0 m h

theorem sentMapping_debug {D : Type} (debug : Bool)
    (procs : List (PhantomBlockForest D × (Nat × Nat))) (sender rank : Nat)
    (m : List (BlockID × Nat)) (h : sentMapping debug procs sender rank = some m) :
    sentMapping false procs sender rank = some m := by
  unfold sentMapping at h ⊢
  cases hp : procs[sender]? with
  | none => rw [hp] at h; exact Option.noConfusion h
  | some fr =>
    rw [hp] at h
    obtain ⟨f, r⟩ := fr
    simp only at h ⊢
    split at h
    · rename_i hmem
      rw [if_pos hmem]
      exact localMapping_debug debug f r m h
    · exact Option.noConfusion h

/-- What a release build sends: the local entries of the sender, when it lists the receiver. -/
theorem sentMapping_release {D : Type} (procs : List (PhantomBlockForest D × (Nat × Nat)))
    (sender rank : Nat) (m : List (BlockID × Nat))
    (h : sentMapping false procs sender rank = some m) :
    ∃ f r, procs[sender]? = some (f, r) ∧ rank ∈ f.neighboringProcesses ∧
      m = insertAll [] (localEntries r.1 f.blockMap) := by
  unfold sentMapping at h
  cases hp : procs[sender]? with
  | none => rw [hp] at h; exact Option.noConfusion h
  | some fr =>
    rw [hp] at h
    obtain ⟨f, r⟩ := fr
    simp only at h
    split at h
    · rename_i hmem
      rw [localMapping_release] at h
      exact ⟨f, r, rfl, hmem, (Option.some.inj h).symm⟩
    · exact Option.noConfusion h

theorem directoryOnRank_debug {D : Type} (debug : Bool)
    (procs : List (PhantomBlockForest D × (Nat × Nat))) (arrival : List Nat) (rank : Nat)
    (m : List (BlockID × Nat)) (h : directoryOnRank debug procs arrival rank = some m) :
    directoryOnRank false procs arrival rank = some m := by
  unfold directoryOnRank at h ⊢
  cases hp : procs[rank]? with
  | none => rw [hp] at h; exact Option.noConfusion h
  | some fr =>
    rw [hp] at h
    obtain ⟨f, r⟩ := fr
    simp only at h ⊢
    cases ha : allResults (arrival.map (fun sender => sentMapping debug procs sender rank)) with
    | none => rw [ha] at h; exact Option.noConfusion h
    | some received =>
      rw [ha] at h
      have ha2 : allResults (arrival.map (fun sender => sentMapping false procs sender rank)) =
          some received := by
        rw [allResults_eq_some_iff] at ha ⊢
        apply List.ext_getElem?
        intro i
        have hi := congrArg (fun l => l[i]?) ha
        simp only [List.getElem?_map] at hi ⊢
        cases hq : arrival[i]? with
        | none => rw [hq] at hi; simpa using hi
        | some q =>
          rw [hq] at hi
          cases hr : received[i]? with
          | none => rw [hr] at hi; simp at hi
          | some b =>
            rw [hr] at hi
            simp only [Option.map_some', Option.some.injEq] at hi ⊢
            exact sentMapping_debug debug procs q rank b hi
      rw [ha2]
      exact getBlockIdToSequenceMapping_debug debug f r received m h

/-- The directory a release build computes on a rank, in terms of the received maps. -/
theorem directoryOnRank_release {D : Type}
    (procs : List (PhantomBlockForest D × (Nat × Nat))) (arrival : List Nat) (rank : Nat)
    (m : List (BlockID × Nat)) (h : directoryOnRank false procs arrival rank = some m) :
    ∃ (f : PhantomBlockForest D) (r : Nat × Nat) (received : List (List (BlockID × Nat))),
      procs[rank]? = some (f, r) ∧
      arrival.map (fun sender => sentMapping false procs sender rank) = received.map some ∧
      ∀ key, mapFind m key =
        (mapFind (localEntries r.1 f.blockMap) key).or (mapFind received.flatten key) := by
  unfold directoryOnRank at h
  cases hp : procs[rank]? with
  | none => rw [hp] at h; exact Option.noConfusion h
  | some fr =>
    rw [hp] at h
    obtain ⟨f, r⟩ := fr
    simp only at h
    cases ha : allResults (arrival.map (fun sender => sentMapping false procs sender rank)) with
    | none => rw [ha] at h; exact Option.noConfusion h
    | some received =>
      rw [ha] at h
      simp only at h
      obtain ⟨m', hm', hfind⟩ := getBlockIdToSequenceMapping_release f r received
      rw [hm'] at h
      have hmm : m' = m := Option.some.inj h
      subst hmm
      exact ⟨f, r, received, rfl, (allResults_eq_some_iff _ _).1 ha, hfind⟩

/-- Every sequence id found in the directory of a rank is the one the owner of the block
assigned: the block is at some position `k` of the block map of some rank and the id is the
start of that rank's range plus `k`. -/
theorem directoryOnRank_sound {D : Type}
    (procs : List (PhantomBlockForest D × (Nat × Nat))) (arrival : List Nat) (rank : Nat)
    (m : List (BlockID × Nat)) (h : directoryOnRank false procs arrival rank = some m)
    (id : BlockID) (s : Nat) (hs : mapFind m id = some s) :
    ∃ (owner : Nat) (fo : PhantomBlockForest D) (ro : Nat × Nat) (k : Nat),
      procs[owner]? = some (fo, ro) ∧
      fo.blockMap[k]?.map Prod.fst = some id ∧ s = ro.1 + k := by
  obtain ⟨f, r, received, hp, hrec, hfind⟩ := directoryOnRank_release procs arrival rank m h
  rw [hfind, Option.or_eq_some] at hs
  rcases hs with hs | ⟨_, hs⟩
  · obtain ⟨k, hk, hsk⟩ := (mapFind_localEntries f.blockMap r.1 id).2 s hs
    exact ⟨rank, f, r, k, hp, hk, hsk⟩
  · obtain ⟨b, hb, hbs⟩ := mapFind_flatten_some received id s hs
    have hmem : some b ∈ arrival.map (fun sender => sentMapping false procs sender rank) := by
      rw [hrec]; exact List.mem_map.2 ⟨b, hb, rfl⟩
    obtain ⟨q, _, hq⟩ := List.mem_map.1 hmem
    obtain ⟨fq, rq, hpq, _, rfl⟩ := sentMapping_release procs q rank b hq
    rw [mapFind_insertAll] at hbs
    simp only [mapFind, Option.none_or] at hbs
    obtain ⟨k, hk, hsk⟩ := (mapFind_localEntries fq.blockMap rq.1 id).2 s hbs
    exact ⟨q, fq, rq, k, hpq, hk, hsk⟩

/-- With globally unique block ids a block has one owner and one position in its block map. -/
theorem owner_unique {D : Type} (procs : List (PhantomBlockForest D × (Nat × Nat)))
    (hunique : ((procs.map (fun p => p.1.blockMap.map Prod.fst)).flatten).Nodup)
    (id : BlockID) (q1 q2 k1 k2 : Nat) (f1 f2 : PhantomBlockForest D) (r1 r2 : Nat × Nat)
    (h1 : procs[q1]? = some (f1, r1)) (h2 : procs[q2]? = some (f2, r2))
    (hk1 : f1.blockMap[k1]?.map Prod.fst = some id)
    (hk2 : f2.blockMap[k2]?.map Prod.fst = some id) :
    q1 = q2 ∧ k1 = k2 := by
  obtain ⟨hnd, hpw⟩ := List.nodup_flatten.1 hunique
  obtain ⟨hq1, hg1⟩ := List.getElem?_eq_some_iff.1 h1
  obtain ⟨hq2, hg2⟩ := List.getElem?_eq_some_iff.1 h2
  have hm1 : (f1.blockMap.map Prod.fst)[k1]? = some id := by rw [List.getElem?_map]; exact hk1
  have hm2 : (f2.blockMap.map Prod.fst)[k2]? = some id := by rw [List.getElem?_map]; exact hk2
  have hmem1 : id ∈ f1.blockMap.map Prod.fst := List.mem_iff_getElem?.2 ⟨k1, hm1⟩
  have hmem2 : id ∈ f2.blockMap.map Prod.fst := List.mem_iff_getElem?.2 ⟨k2, hm2⟩
  have hq1m : q1 < (procs.map (fun p => p.1.blockMap.map Prod.fst)).length := by
    simpa using hq1
  have hq2m : q2 < (procs.map (fun p => p.1.blockMap.map Prod.fst)).length := by
    simpa using hq2
  have hL1 : (procs.map (fun p => p.1.blockMap.map Prod.fst))[q1] =
      f1.blockMap.map Prod.fst := by simp [hg1]
  have hL2 : (procs.map (fun p => p.1.blockMap.map Prod.fst))[q2] =
      f2.blockMap.map Prod.fst := by simp [hg2]
  have hqq : q1 = q2 := by
    rcases Nat.lt_trichotomy q1 q2 with hlt | heq | hgt
    · have hd := List.pairwise_iff_getElem.1 hpw q1 q2 hq1m hq2m hlt
      rw [hL1, hL2] at hd
      exact absurd hmem2 (hd hmem1)
    · exact heq
    · have hd := List.pairwise_iff_getElem.1 hpw q2 q1 hq2m hq1m hgt
      rw [hL1, hL2] at hd
      exact absurd hmem1 (hd hmem2)
  subst hqq
  refine ⟨rfl, ?_⟩
  rw [h1] at h2
  simp only [Option.some.injEq, Prod.mk.injEq] at h2
  obtain ⟨rfl, rfl⟩ := h2
  have hnd1 : (f1.blockMap.map Prod.fst).Nodup :=
    hnd _ (List.mem_map.2 ⟨(f1, r1), List.mem_iff_getElem?.2 ⟨q1, h1⟩, rfl⟩)
  obtain ⟨hlt1, he1⟩ := List.getElem?_eq_some_iff.1 hm1
  obtain ⟨hlt2, he2⟩ := List.getElem?_eq_some_iff.1 hm2
  exact (@List.Nodup.getElem_inj_iff _ _ hnd1 k1 hlt1 k2 hlt2).1 (he1.trans he2.symm)

/-- C4: for block-owning processes with globally unique block ids and symmetric neighbour
lists naming processes of the communicator, whatever the order in which the buffers arrive:
in a release build every rank obtains a directory, and every directory obtained (in either
build) has an entry for every block the rank owns and for every block owned by a process of
its neighbour list; every entry is the sequence id the owner of the block assigned in its
local mapping; and the directories of any two ranks agree on every block id both contain. -/
theorem directory_complete_and_consistent {D : Type}
    (procs : List (PhantomBlockForest D × (Nat × Nat))) (arrival : Nat → List Nat)
    (hunique : ((procs.map (fun p => p.1.blockMap.map Prod.fst)).flatten).Nodup)
    (hmember : ∀ pr ∈ procs, ∀ q ∈ pr.1.neighboringProcesses, q < procs.length)
    (hsym : ∀ p, p < procs.length → ∀ q, q < procs.length →
      (q ∈ neighborsOf procs p ↔ p ∈ neighborsOf procs q))
    (harrival : ∀ p, p < procs.length → ∀ q, q ∈ arrival p ↔ q ∈ neighborsOf procs p) :
    (∀ p, p < procs.length → ∃ m, directoryOnRank false procs (arrival p) p = some m) ∧
    (∀ (debug : Bool) (p : Nat) (m : List (BlockID × Nat)),
      directoryOnRank debug procs (arrival p) p = some m →
      (∀ id ∈ blockIdsOf procs p, (mapFind m id).isSome = true) ∧
      (∀ q ∈ neighborsOf procs p, ∀ id ∈ blockIdsOf procs q, (mapFind m id).isSome = true) ∧
      (∀ (id : BlockID) (s : Nat), mapFind m id = some s →
        ∃ (owner : Nat) (fo : PhantomBlockForest D) (ro : Nat × Nat) (lm : List (BlockID × Nat)),
          procs[owner]? = some (fo, ro) ∧ id ∈ fo.blockMap.map Prod.fst ∧
          localMapping false fo ro = some lm ∧ mapFind lm id = some s) ∧
      (∀ (debug' : Bool) (p' : Nat) (m' : List (BlockID × Nat)),
        directoryOnRank debug' procs (arrival p') p' = some m' →
        ∀ (id : BlockID) (s s' : Nat), mapFind m id = some s → mapFind m' id = some s' →
          s = s')) := by
  have hnb : ∀ (p : Nat) (f : PhantomBlockForest D) (r : Nat × Nat),
      procs[p]? = some (f, r) → neighborsOf procs p = f.neighboringProcesses := by
    intro p f r h; simp [neighborsOf, h]
  have hids : ∀ (p : Nat) (f : PhantomBlockForest D) (r : Nat × Nat),
      procs[p]? = some (f, r) → blockIdsOf procs p = f.blockMap.map Prod.fst := by
    intro p f r h; simp [blockIdsOf, h]
  refine ⟨?_, ?_⟩
  · intro p hp
    obtain ⟨⟨f, r⟩, hpp⟩ : ∃ x, procs[p]? = some x := ⟨_, List.getElem?_eq_getElem hp⟩
    have hall : ∀ o ∈ (arrival p).map (fun sender => sentMapping false procs sender p),
        ∃ a, o = some a := by
      intro o ho
      obtain ⟨q, hq, rfl⟩ := List.mem_map.1 ho
      have hqn : q ∈ neighborsOf procs p := (harrival p hp q).1 hq
      have hqlt : q < procs.length := by
        rw [hnb p _ _ hpp] at hqn
        exact hmember _ (List.mem_iff_getElem?.2 ⟨p, hpp⟩) q hqn
      obtain ⟨⟨fq, rq⟩, hqq⟩ : ∃ x, procs[q]? = some x := ⟨_, List.getElem?_eq_getElem hqlt⟩
      have hpq : p ∈ neighborsOf procs q := (hsym p hp q hqlt).1 hqn
      rw [hnb q _ _ hqq] at hpq
      refine ⟨insertAll [] (localEntries rq.1 fq.blockMap), ?_⟩
      simp only [sentMapping, hqq]
      rw [if_pos hpq, localMapping_release]
    obtain ⟨received, hrec, _, _⟩ := allResults_of_forall _ hall
    obtain ⟨m, hm, _⟩ := getBlockIdToSequenceMapping_release f r received
    exact ⟨m, by simp only [directoryOnRank, hpp, hrec]; exact hm⟩
  · intro debug p m hdir
    have hrel := directoryOnRank_debug debug procs (arrival p) p m hdir
    obtain ⟨f, r, received, hp, hrec, hfind⟩ := directoryOnRank_release procs (arrival p) p m hrel
    have hplt : p < procs.length := (List.getElem?_eq_some_iff.1 hp).1
    have hsound : ∀ (p1 : Nat) (m1 : List (BlockID × Nat)),
        directoryOnRank false procs (arrival p1) p1 = some m1 →
        ∀ (id : BlockID) (s : Nat), mapFind m1 id = some s →
        ∃ (owner : Nat) (fo : PhantomBlockForest D) (ro : Nat × Nat) (k : Nat),
          procs[owner]? = some (fo, ro) ∧
          fo.blockMap[k]?.map Prod.fst = some id ∧ s = ro.1 + k :=
      fun p1 m1 h1 id s hs => directoryOnRank_sound procs (arrival p1) p1 m1 h1 id s hs
    refine ⟨?_, ?_, ?_, ?_⟩
    · intro id hid
      rw [hids p f r hp] at hid
      rw [hfind, Option.isSome_or, (mapFind_localEntries f.blockMap r.1 id).1 hid]
      rfl
    · intro q hq id hid
      have hqa : q ∈ arrival p := (harrival p hplt q).2 hq
      have hmem : sentMapping false procs q p ∈
          (arrival p).map (fun sender => sentMapping false procs sender p) :=
        List.mem_map.2 ⟨q, hqa, rfl⟩
      rw [hrec] at hmem
      obtain ⟨b, hb, hbq⟩ := List.mem_map.1 hmem
      obtain ⟨fq, rq, hpq, _, rfl⟩ := sentMapping_release procs q p b hbq.symm
      rw [hids q fq rq hpq] at hid
      have hbsome : (mapFind (insertAll [] (localEntries rq.1 fq.blockMap)) id).isSome = true := by
        rw [mapFind_insertAll]
        simp only [mapFind, Option.none_or]
        exact (mapFind_localEntries fq.blockMap rq.1 id).1 hid
      rw [hfind, Option.isSome_or, mapFind_flatten_isSome received id _ hb hbsome]
      simp
    · intro id s hs
      obtain ⟨owner, fo, ro, k, ho, hk, hsk⟩ := hsound p m hrel id s hs
      have hidmem : id ∈ fo.blockMap.map Prod.fst :=
        List.mem_iff_getElem?.2 ⟨k, by rw [List.getElem?_map]; exact hk⟩
      refine ⟨owner, fo, ro, _, ho, hidmem, localMapping_release fo ro, ?_⟩
      rw [mapFind_insertAll]
      simp only [mapFind, Option.none_or]
      obtain ⟨s2, hs2⟩ := Option.isSome_iff_exists.1
        ((mapFind_localEntries fo.blockMap ro.1 id).1 hidmem)
      obtain ⟨k2, hk2, hsk2⟩ := (mapFind_localEntries fo.blockMap ro.1 id).2 s2 hs2
      obtain ⟨_, hkk⟩ := owner_unique procs hunique id owner owner k k2 fo fo ro ro ho ho hk hk2
      rw [hs2, hsk, hsk2, hkk]
    · intro debug' p' m' hdir' id s s' hs hs'
      have hrel' := directoryOnRank_debug debug' procs (arrival p') p' m' hdir'
      obtain ⟨o1, f1, r1, k1, ho1, hk1, hsk1⟩ := hsound p m hrel id s hs
      obtain ⟨o2, f2, r2, k2, ho2, hk2, hsk2⟩ := hsound p' m' hrel' id s' hs'
      obtain ⟨hoo, hkk⟩ := owner_unique procs hunique id o1 o2 k1 k2 f1 f2 r1 r2 ho1 ho2 hk1 hk2
      subst hoo
      rw [ho1] at ho2
      simp only [Option.some.injEq, Prod.mk.injEq] at ho2
      obtain ⟨_, rfl⟩ := ho2
      omega

/-- Witness of C4: the three sample processes; rank 1 receives the maps of ranks 2 and 0. -/
theorem directory_complete_and_consistent_witness :
    directoryOnRank false sampleProcs [2, 0] 1 =
      some [(10, 0), (11, 1), (20, 2), (30, 3), (31, 4)] ∧
    directoryOnRank true sampleProcs [1] 0 = some [(10, 0), (11, 1), (20, 2)] ∧
    ∀ p, p < sampleProcs.length →
      ∃ m, directoryOnRank false sampleProcs (neighborsOf sampleProcs p) p = some m :=
  ⟨by decide, by decide,
    (directory_complete_and_consistent sampleProcs (neighborsOf sampleProcs) (by decide)
      (by decide) (by decide) (fun _ _ _ => Iff.rfl)).1⟩

/-! ### Target assignment -/

/-- The assignment loop succeeds when `part` has an entry for every entry of `targetProcess`,
and entry `j` gets the value of `part[i + j]`. -/
theorem assignTargetsFrom_spec {B : Type} (part : List Int) (targetProcess : List (B × Nat)) :
    ∀ i : Nat, i + targetProcess.length ≤ part.length →
      ∃ tp, assignTargetsFrom part i targetProcess = some tp ∧
        tp.length = targetProcess.length ∧
        ∀ (j : Nat) (it : B × Nat), targetProcess[j]? = some it →
          ∃ p, part[i + j]? = some p ∧ tp[j]? = some (it.1, uint_c p) := by
  induction targetProcess with
  | nil => intro i _; exact ⟨[], rfl, rfl, by simp⟩
  | cons a rest ih =>
    intro i hi
    obtain ⟨b, t0⟩ := a
    simp only [List.length_cons] at hi
    have hilt : i < part.length := by omega
    obtain ⟨tp, htp, hlen, hall⟩ := ih (i + 1) (by omega)
    refine ⟨(b, uint_c part[i]) :: tp, ?_, by simp [hlen], ?_⟩
    · simp only [assignTargetsFrom, List.getElem?_eq_getElem hilt, htp]
    · intro j it hj
      cases j with
      | zero =>
        simp only [List.getElem?_cons_zero, Option.some.injEq] at hj
        subst hj
        exact ⟨part[i], by simp [List.getElem?_eq_getElem hilt], by simp⟩
      | succ k =>
        simp only [List.getElem?_cons_succ] at hj
        obtain ⟨p, hp, htpk⟩ := hall k it hj
        refine ⟨p, ?_, by simpa using htpk⟩
        rw [← hp]
        congr 1
        omega

/-- The vector `part` at line 222 has one entry per block, each a valid rank, when the own rank
is valid and the called entry point of the partitioner returns values in `[0, nparts)`. -/
theorem partitionResult_range {D : Type} (self : DynamicParMetis) (debug : Bool)
    (core : ParMetisWrapper D) (fp : DoubleValues D) (rank numProcesses : Nat)
    (mpi : Collectives) (targetProcess : List (PhantomBlock D × Nat))
    (phantomForest : PhantomBlockForest D) (hr : rank < numProcesses)
    (hpm : ∀ (vtxdist : List Int) (g : GraphArrays D) (part0 : List Int) (i : Nat),
      i < phantomForest.getNumberOfBlocks →
      0 ≤ (callPartitioner self core fp numProcesses vtxdist g part0).part i ∧
      (callPartitioner self core fp numProcesses vtxdist g part0).part i < int64_c numProcesses)
    (part : List Int)
    (h : partitionResult self debug core fp rank numProcesses mpi targetProcess phantomForest =
      some part) :
    part.length = phantomForest.getNumberOfBlocks ∧
      ∀ p ∈ part, 0 ≤ p ∧ p < (numProcesses : Int) := by
  unfold partitionResult at h
  simp only at h
  split at h
  · unfold partitionerPhase at h
    simp only at h
    split at h
    · exact Option.noConfusion h
    · split at h
      · exact Option.noConfusion h
      · split at h
        · exact Option.noConfusion h
        · split at h
          · exact Option.noConfusion h
          · simp only [Option.some.injEq] at h
            subst h
            refine ⟨by simp, ?_⟩
            intro p hp
            simp only [List.length_replicate, List.mem_map, List.mem_range] at hp
            obtain ⟨i, hi, rfl⟩ := hp
            exact hpm _ _ _ i hi
  · simp only [Option.some.injEq] at h
    subst h
    refine ⟨by simp, ?_⟩
    intro p hp
    rw [List.mem_replicate] at hp
    rw [hp.2]
    unfold int64_c
    omega

/-- C3: when the own rank is valid, `targetProcess` has exactly `getNumberOfBlocks` entries and
the called entry point of the partitioner returns values in `[0, nparts)` for the blocks of
the rank (nothing is asked of it on a block-less rank), then from every vector `part` with
which line 222 is reached the pass completes: the range assertions and the indexing `part[i]`
do not fail, the call returns `false`, and every entry `i` of `targetProcess` keeps its block
and carries the one target `part[i]`, which lies in `[0, numProcesses)`. -/
theorem targetProcess_valid {D : Type} (self : DynamicParMetis) (debug : Bool)
    (core : ParMetisWrapper D) (fp : DoubleValues D) (rank numProcesses : Nat)
    (mpi : Collectives) (targetProcess : List (PhantomBlock D × Nat))
    (processesToRecvFrom : List Nat) (phantomForest : PhantomBlockForest D) (iteration : Nat)
    (hr : rank < numProcesses)
    (htp : targetProcess.length = phantomForest.getNumberOfBlocks)
    (hpm : ∀ (vtxdist : List Int) (g : GraphArrays D) (part0 : List Int) (i : Nat),
      i < phantomForest.getNumberOfBlocks →
      0 ≤ (callPartitioner self core fp numProcesses vtxdist g part0).part i ∧
      (callPartitioner self core fp numProcesses vtxdist g part0).part i <
        int64_c numProcesses) :
    ∀ part : List Int,
      partitionResult self debug core fp rank numProcesses mpi targetProcess phantomForest =
        some part →
      ∃ (tp : List (PhantomBlock D × Nat)) (recv : List Nat),
        self.call debug core fp rank numProcesses mpi targetProcess processesToRecvFrom
          phantomForest iteration = some (tp, recv, false) ∧
        tp.length = targetProcess.length ∧
        ∀ (i : Nat) (it : PhantomBlock D × Nat), targetProcess[i]? = some it →
          ∃ p : Int, part[i]? = some p ∧ 0 ≤ p ∧ p < (numProcesses : Int) ∧
            tp[i]? = some (it.1, uint_c p) ∧ uint_c p < numProcesses := by
  intro part hpart
  obtain ⟨hlen, hrange⟩ := partitionResult_range self debug core fp rank numProcesses mpi
    targetProcess phantomForest hr hpm part hpart
  obtain ⟨v, hv, _⟩ := isSendingBlockToProcess_spec rank numProcesses part hr hrange
  obtain ⟨tp, htpa, htpl, hall⟩ := assignTargetsFrom_spec part targetProcess 0 (by omega)
  refine ⟨tp, insertReceivers processesToRecvFrom mpi.isReceivingBlockFromProcess, ?_, htpl, ?_⟩
  · simp only [DynamicParMetis.call, hpart, deriveRedistribution, hv, assignTargets, htpa]
  · intro i it hit
    obtain ⟨p, hp, htpi⟩ := hall i it hit
    rw [Nat.zero_add] at hp
    have hpr := hrange p (List.mem_iff_getElem?.2 ⟨i, hp⟩)
    refine ⟨p, hp, hpr.1, hpr.2, htpi, ?_⟩
    unfold uint_c
    omega

/-- Witness of C3: rank 1 of 3 processes owns the two sample blocks; the sample partitioner
keeps block 0 on rank 0 and block 1 on rank 1. -/
theorem targetProcess_valid_witness :
    partitionResult sampleConfig true sampleWrapper sampleDoubles 1 3 sampleCollectives
      sampleTargets sampleRankForest = some [0, 1] ∧
    ∃ (tp : List (PhantomBlock Int × Nat)) (recv : List Nat),
      sampleConfig.call true sampleWrapper sampleDoubles 1 3 sampleCollectives sampleTargets
        [] sampleRankForest 0 = some (tp, recv, false) ∧
      tp.length = sampleTargets.length ∧
      ∀ (i : Nat) (it : PhantomBlock Int × Nat), sampleTargets[i]? = some it →
        ∃ p : Int, ([0, 1] : List Int)[i]? = some p ∧ 0 ≤ p ∧ p < ((3 : Nat) : Int) ∧
          tp[i]? = some (it.1, uint_c p) ∧ uint_c p < 3 :=
  ⟨by decide,
    targetProcess_valid sampleConfig true sampleWrapper sampleDoubles 1 3 sampleCollectives
      sampleTargets [] sampleRankForest 0 (by decide) (by decide)
      (fun _ _ _ i _ => ⟨by simp [callPartitioner, sampleConfig, sampleWrapper]; omega,
        by simp [callPartitioner, sampleConfig, sampleWrapper, int64_c]; omega⟩)
      [0, 1] (by decide)⟩

/-! ### Configuration strings -/

theorem toupper_of_isspace (ch : Char) (h : isspace ch = true) : toupper ch = ch := by
  unfold isspace at h
  unfold toupper
  rw [if_neg]
  simp only [Bool.or_eq_true, decide_eq_true_eq, Bool.and_eq_true] at h
  omega

theorem to_upper_of_isspace (w : List Char) (h : ∀ ch ∈ w, isspace ch = true) :
    to_upper w = w := by
  unfold to_upper
  induction w with
  | nil => rfl
  | cons a rest ih =>
    rw [List.map_cons, toupper_of_isspace a (h a (List.mem_cons_self _ _)),
      ih (fun ch hch => h ch (List.mem_cons_of_mem _ hch))]

theorem dropWhile_append_of_all {α : Type} (p : α → Bool) (w y : List α)
    (h : ∀ a ∈ w, p a = true) : (w ++ y).dropWhile p = y.dropWhile p := by
  induction w with
  | nil => rfl
  | cons a rest ih =>
    rw [List.cons_append, List.dropWhile_cons_of_pos (h a (List.mem_cons_self _ _))]
    exact ih (fun b hb => h b (List.mem_cons_of_mem _ hb))

theorem rdropWhile_append_of_all {α : Type} (p : α → Bool) (w y : List α)
    (h : ∀ a ∈ w, p a = true) : (y ++ w).rdropWhile p = y.rdropWhile p := by
  unfold List.rdropWhile
  rw [List.reverse_append, dropWhile_append_of_all p w.reverse y.reverse
    (fun a ha => h a (List.mem_reverse.1 ha))]

theorem rdropWhile_cons {α : Type} (p : α → Bool) (a : α) (l : List α) :
    (a :: l).rdropWhile p =
      if (l.rdropWhile p).isEmpty = true then (if p a = true then [] else [a])
      else a :: l.rdropWhile p := by
  unfold List.rdropWhile
  rw [List.reverse_cons, List.dropWhile_append]
  cases h : List.dropWhile p l.reverse with
  | nil =>
    by_cases hp : p a = true <;> simp [hp]
  | cons b t => simp

/-- Trimming the right end and trimming the left end commute. -/
theorem dropWhile_rdropWhile_comm {α : Type} (p : α → Bool) (l : List α) :
    (l.rdropWhile p).dropWhile p = (l.dropWhile p).rdropWhile p := by
  induction l with
  | nil => simp [List.rdropWhile]
  | cons a rest ih =>
    rw [rdropWhile_cons]
    by_cases hp : p a = true
    · rw [List.dropWhile_cons_of_pos hp, ← ih]
      cases h : rest.rdropWhile p with
      | nil => simp [hp]
      | cons b t => simp [hp]
    · rw [List.dropWhile_cons_of_neg hp, rdropWhile_cons]
      cases h : rest.rdropWhile p with
      | nil => simp [hp]
      | cons b t => simp [hp]

/-- Whitespace around a string does not change the trimmed string. -/
theorem trim_pad (w1 w2 t : List Char) (h1 : ∀ ch ∈ w1, isspace ch = true)
    (h2 : ∀ ch ∈ w2, isspace ch = true) : trim (w1 ++ t ++ w2) = trim t := by
  unfold trim
  rw [rdropWhile_append_of_all isspace w2 (w1 ++ t) h2, dropWhile_rdropWhile_comm,
    dropWhile_append_of_all isspace w1 t h1, ← dropWhile_rdropWhile_comm]

/-- Whitespace around a string does not change the upper-cased, trimmed string. -/
theorem normalize_pad (w1 w2 s : List Char) (h1 : ∀ ch ∈ w1, isspace ch = true)
    (h2 : ∀ ch ∈ w2, isspace ch = true) :
    trim (to_upper (w1 ++ s ++ w2)) = trim (to_upper s) := by
  have : to_upper (w1 ++ s ++ w2) = to_upper w1 ++ to_upper s ++ to_upper w2 := by
    simp [to_upper]
  rw [this, to_upper_of_isspace w1 h1, to_upper_of_isspace w2 h2, trim_pad w1 w2 _ h1 h2]

/-- Strings that differ only in the case of their letters have the same upper-cased form. -/
theorem to_upper_congr (s s' : List Char)
    (h : List.Forall₂ (fun a b => toupper a = toupper b) s s') : to_upper s' = to_upper s := by
  unfold to_upper
  induction h with
  | nil => rfl
  | cons hab _ ih => rw [List.map_cons, List.map_cons, ih, hab]

/-- The parser `stringToAlgorithm` as a function of the upper-cased, trimmed string. -/
theorem stringToAlgorithm_eq (s : List Char) :
    stringToAlgorithm s =
      if trim (to_upper s) = "PART_GEOM_KWAY".toList then .ok .PARMETIS_PART_GEOM_KWAY
      else if trim (to_upper s) = "PART_KWAY".toList then .ok .PARMETIS_PART_KWAY
      else if trim (to_upper s) = "PART_ADAPTIVE_REPART".toList then
        .ok .PARMETIS_ADAPTIVE_REPART
      else if trim (to_upper s) = "REFINE_KWAY".toList then .ok .PARMETIS_REFINE_KWAY
      else
        .error ("Illegal ParMetis algorithm specified (".toList ++ trim (to_upper s) ++
          ")! Valid choices are: \"PART_GEOM_KWAY\", \"PART_KWAY\", \"PART_ADAPTIVE_REPART\", or \"REFINE_KWAY\".".toList) :=
  rfl

/-- C16: `stringToAlgorithm` returns an algorithm exactly when the upper-cased, trimmed string
is one of the four names, and then the algorithm of that name; every other string aborts; the
result does not change when letters change case or whitespace is added around the string. -/
theorem stringToAlgorithm_spec (s : List Char) :
    (stringToAlgorithm s = .ok .PARMETIS_PART_GEOM_KWAY ↔
      trim (to_upper s) = "PART_GEOM_KWAY".toList) ∧
    (stringToAlgorithm s = .ok .PARMETIS_PART_KWAY ↔
      trim (to_upper s) = "PART_KWAY".toList) ∧
    (stringToAlgorithm s = .ok .PARMETIS_ADAPTIVE_REPART ↔
      trim (to_upper s) = "PART_ADAPTIVE_REPART".toList) ∧
    (stringToAlgorithm s = .ok .PARMETIS_REFINE_KWAY ↔
      trim (to_upper s) = "REFINE_KWAY".toList) ∧
    ((∃ msg, stringToAlgorithm s = .error msg) ↔
      trim (to_upper s) ∉ ["PART_GEOM_KWAY".toList, "PART_KWAY".toList,
        "PART_ADAPTIVE_REPART".toList, "REFINE_KWAY".toList]) ∧
    (∀ s' : List Char, List.Forall₂ (fun a b => toupper a = toupper b) s s' →
      stringToAlgorithm s' = stringToAlgorithm s) ∧
    (∀ w1 w2 : List Char, (∀ ch ∈ w1, isspace ch = true) → (∀ ch ∈ w2, isspace ch = true) →
      stringToAlgorithm (w1 ++ s ++ w2) = stringToAlgorithm s) := by
  refine ⟨?_, ?_, ?_, ?_, ?_, ?_, ?_⟩
  · rw [stringToAlgorithm_eq]
    split_ifs with h1 h2 h3 h4 <;> simp_all
  · rw [stringToAlgorithm_eq]
    split_ifs with h1 h2 h3 h4 <;> simp_all
  · rw [stringToAlgorithm_eq]
    split_ifs with h1 h2 h3 h4 <;> simp_all
  · rw [stringToAlgorithm_eq]
    split_ifs with h1 h2 h3 h4 <;> simp_all
  · rw [stringToAlgorithm_eq]
    split_ifs with h1 h2 h3 h4 <;> simp_all
  · intro s' h
    rw [stringToAlgorithm_eq, stringToAlgorithm_eq, to_upper_congr s s' h]
  · intro w1 w2 h1 h2
    rw [stringToAlgorithm_eq, stringToAlgorithm_eq, normalize_pad w1 w2 s h1 h2]

/-- Evaluations for C16: the name is accepted in any case and with surrounding whitespace, a
string that is no name is rejected. -/
theorem stringToAlgorithm_spec_witness :
    stringToAlgorithm " part_Kway\n".toList = .ok .PARMETIS_PART_KWAY ∧
    stringToAlgorithm "REFINE_KWAY".toList = .ok .PARMETIS_REFINE_KWAY ∧
    (trim (to_upper "FOO".toList) ∉ ["PART_GEOM_KWAY".toList, "PART_KWAY".toList,
        "PART_ADAPTIVE_REPART".toList, "REFINE_KWAY".toList] →
      ∃ msg, stringToAlgorithm "FOO".toList = .error msg) :=
  ⟨rfl, rfl, (stringToAlgorithm_spec "FOO".toList).2.2.2.2.1.2⟩

/-- C17: when `stringToAlgorithm` rejects a string, the abort message contains each of the four
valid algorithm names and the rejected string in its upper-cased, trimmed form. -/
theorem stringToAlgorithm_abort_message (s msg : List Char)
    (h : stringToAlgorithm s = .error msg) :
    "PART_GEOM_KWAY".toList <:+: msg ∧
    "PART_KWAY".toList <:+: msg ∧
    "PART_ADAPTIVE_REPART".toList <:+: msg ∧
    "REFINE_KWAY".toList <:+: msg ∧
    trim (to_upper s) <:+: msg := by
  rw [stringToAlgorithm_eq] at h
  split_ifs at h with h1 h2 h3 h4
  simp only [Except.error.injEq] at h
  subst h
  have hsuffix : ∀ name : List Char,
      name <:+: ")! Valid choices are: \"PART_GEOM_KWAY\", \"PART_KWAY\", \"PART_ADAPTIVE_REPART\", or \"REFINE_KWAY\".".toList →
      name <:+: "Illegal ParMetis algorithm specified (".toList ++ trim (to_upper s) ++
        ")! Valid choices are: \"PART_GEOM_KWAY\", \"PART_KWAY\", \"PART_ADAPTIVE_REPART\", or \"REFINE_KWAY\".".toList :=
    fun name hn => List.IsInfix.trans hn (List.suffix_append _ _).isInfix
  refine ⟨hsuffix _ ⟨")! Valid choices are: \"".toList,
      "\", \"PART_KWAY\", \"PART_ADAPTIVE_REPART\", or \"REFINE_KWAY\".".toList, rfl⟩,
    hsuffix _ ⟨")! Valid choices are: \"PART_GEOM_KWAY\", \"".toList,
      "\", \"PART_ADAPTIVE_REPART\", or \"REFINE_KWAY\".".toList, rfl⟩,
    hsuffix _ ⟨")! Valid choices are: \"PART_GEOM_KWAY\", \"PART_KWAY\", \"".toList,
      "\", or \"REFINE_KWAY\".".toList, rfl⟩,
    hsuffix _ ⟨")! Valid choices are: \"PART_GEOM_KWAY\", \"PART_KWAY\", \"PART_ADAPTIVE_REPART\", or \"".toList,
      "\".".toList, rfl⟩, ?_⟩
  exact ⟨"Illegal ParMetis algorithm specified (".toList, _, rfl⟩

/-- Witness of C17: the string `FOO` is rejected with the message of the source. -/
theorem stringToAlgorithm_abort_message_witness :
    stringToAlgorithm "FOO".toList = .error
      "Illegal ParMetis algorithm specified (FOO)! Valid choices are: \"PART_GEOM_KWAY\", \"PART_KWAY\", \"PART_ADAPTIVE_REPART\", or \"REFINE_KWAY\".".toList ∧
    "REFINE_KWAY".toList <:+:
      "Illegal ParMetis algorithm specified (FOO)! Valid choices are: \"PART_GEOM_KWAY\", \"PART_KWAY\", \"PART_ADAPTIVE_REPART\", or \"REFINE_KWAY\".".toList :=
  ⟨rfl, (stringToAlgorithm_abort_message "FOO".toList _ rfl).2.2.2.1⟩

/-- The parser `stringToWeightsToUse` as a function of the upper-cased, trimmed string. -/
theorem stringToWeightsToUse_eq (s : List Char) :
    stringToWeightsToUse s =
      if trim (to_upper s) = "NO_WEIGHTS".toList then .ok .PARMETIS_NO_WEIGHTS
      else if trim (to_upper s) = "EDGE_WEIGHTS".toList then .ok .PARMETIS_EDGE_WEIGHTS
      else if trim (to_upper s) = "VERTEX_WEIGHTS".toList then .ok .PARMETIS_VERTEX_WEIGHTS
      else if trim (to_upper s) = "BOTH_WEIGHTS".toList then .ok .PARMETIS_BOTH_WEIGHTS
      else
        .error ("Illegal ParMetis weights usage specified (".toList ++ trim (to_upper s) ++
          weightsChoices) :=
  rfl

/-- The parser `stringToEdgeSource` as a function of the upper-cased, trimmed string. -/
theorem stringToEdgeSource_eq (s : List Char) :
    stringToEdgeSource s =
      if trim (to_upper s) = "EDGES_FROM_FOREST".toList then .ok .PARMETIS_EDGES_FROM_FOREST
      else if trim (to_upper s) = "EDGES_FROM_EDGE_WEIGHTS".toList then
        .ok .PARMETIS_EDGES_FROM_EDGE_WEIGHTS
      else
        .error ("Illegal ParMetis weights usage specified (".toList ++ trim (to_upper s) ++
          edgeSourceChoices) :=
  rfl

set_option maxRecDepth 100000 in
/-- The choices listed by the abort message of `stringToWeightsToUse` are its four names and
no name of the other two parsers. -/
theorem weightsChoices_lists :
    (∀ name ∈ ["NO_WEIGHTS".toList, "EDGE_WEIGHTS".toList, "VERTEX_WEIGHTS".toList,
        "BOTH_WEIGHTS".toList], quoted name <:+: weightsChoices) ∧
    (∀ name ∈ ["PART_GEOM_KWAY".toList, "PART_KWAY".toList, "PART_ADAPTIVE_REPART".toList,
        "REFINE_KWAY".toList, "EDGES_FROM_FOREST".toList, "EDGES_FROM_EDGE_WEIGHTS".toList],
      ¬ quoted name <:+: weightsChoices) := by
  decide

set_option maxRecDepth 100000 in
/-- The choices listed by the abort message of `stringToEdgeSource` are its two names and no
name of the other two parsers. -/
theorem edgeSourceChoices_lists :
    (∀ name ∈ ["EDGES_FROM_FOREST".toList, "EDGES_FROM_EDGE_WEIGHTS".toList],
      quoted name <:+: edgeSourceChoices) ∧
    (∀ name ∈ ["PART_GEOM_KWAY".toList, "PART_KWAY".toList, "PART_ADAPTIVE_REPART".toList,
        "REFINE_KWAY".toList, "NO_WEIGHTS".toList, "EDGE_WEIGHTS".toList,
        "VERTEX_WEIGHTS".toList, "BOTH_WEIGHTS".toList],
      ¬ quoted name <:+: edgeSourceChoices) := by
  decide

/-- C18: `stringToWeightsToUse` and `stringToEdgeSource` return a value exactly when the
upper-cased, trimmed string is one of their names, and then the value of that name; every
other string aborts, with a message made of the rejected string and a fixed text that lists, in
double quotes, the valid choices of that parser and no choice of another parser. -/
theorem stringToWeightsToUse_stringToEdgeSource_spec (s : List Char) :
    (stringToWeightsToUse s = .ok .PARMETIS_NO_WEIGHTS ↔
      trim (to_upper s) = "NO_WEIGHTS".toList) ∧
    (stringToWeightsToUse s = .ok .PARMETIS_EDGE_WEIGHTS ↔
      trim (to_upper s) = "EDGE_WEIGHTS".toList) ∧
    (stringToWeightsToUse s = .ok .PARMETIS_VERTEX_WEIGHTS ↔
      trim (to_upper s) = "VERTEX_WEIGHTS".toList) ∧
    (stringToWeightsToUse s = .ok .PARMETIS_BOTH_WEIGHTS ↔
      trim (to_upper s) = "BOTH_WEIGHTS".toList) ∧
    (stringToWeightsToUse s = .error ("Illegal ParMetis weights usage specified (".toList ++
        trim (to_upper s) ++ weightsChoices) ↔
      trim (to_upper s) ∉ ["NO_WEIGHTS".toList, "EDGE_WEIGHTS".toList,
        "VERTEX_WEIGHTS".toList, "BOTH_WEIGHTS".toList]) ∧
    (stringToEdgeSource s = .ok .PARMETIS_EDGES_FROM_FOREST ↔
      trim (to_upper s) = "EDGES_FROM_FOREST".toList) ∧
    (stringToEdgeSource s = .ok .PARMETIS_EDGES_FROM_EDGE_WEIGHTS ↔
      trim (to_upper s) = "EDGES_FROM_EDGE_WEIGHTS".toList) ∧
    (stringToEdgeSource s = .error ("Illegal ParMetis weights usage specified (".toList ++
        trim (to_upper s) ++ edgeSourceChoices) ↔
      trim (to_upper s) ∉ ["EDGES_FROM_FOREST".toList, "EDGES_FROM_EDGE_WEIGHTS".toList]) ∧
    (∀ name ∈ ["NO_WEIGHTS".toList, "EDGE_WEIGHTS".toList, "VERTEX_WEIGHTS".toList,
        "BOTH_WEIGHTS".toList], quoted name <:+: weightsChoices) ∧
    (∀ name ∈ ["PART_GEOM_KWAY".toList, "PART_KWAY".toList, "PART_ADAPTIVE_REPART".toList,
        "REFINE_KWAY".toList, "EDGES_FROM_FOREST".toList, "EDGES_FROM_EDGE_WEIGHTS".toList],
      ¬ quoted name <:+: weightsChoices) ∧
    (∀ name ∈ ["EDGES_FROM_FOREST".toList, "EDGES_FROM_EDGE_WEIGHTS".toList],
      quoted name <:+: edgeSourceChoices) ∧
    (∀ name ∈ ["PART_GEOM_KWAY".toList, "PART_KWAY".toList, "PART_ADAPTIVE_REPART".toList,
        "REFINE_KWAY".toList, "NO_WEIGHTS".toList, "EDGE_WEIGHTS".toList,
        "VERTEX_WEIGHTS".toList, "BOTH_WEIGHTS".toList],
      ¬ quoted name <:+: edgeSourceChoices) := by
  refine ⟨?_, ?_, ?_, ?_, ?_, ?_, ?_, ?_, weightsChoices_lists.1, weightsChoices_lists.2,
    edgeSourceChoices_lists.1, edgeSourceChoices_lists.2⟩
  · rw [stringToWeightsToUse_eq]
    split_ifs with h1 h2 h3 h4 <;> simp_all
  · rw [stringToWeightsToUse_eq]
    split_ifs with h1 h2 h3 h4 <;> simp_all
  · rw [stringToWeightsToUse_eq]
    split_ifs with h1 h2 h3 h4 <;> simp_all
  · rw [stringToWeightsToUse_eq]
    split_ifs with h1 h2 h3 h4 <;> simp_all
  · rw [stringToWeightsToUse_eq]
    split_ifs with h1 h2 h3 h4 <;> simp_all
  · rw [stringToEdgeSource_eq]
    split_ifs with h1 h2 <;> simp_all
  · rw [stringToEdgeSource_eq]
    split_ifs with h1 h2 <;> simp_all
  · rw [stringToEdgeSource_eq]
    split_ifs with h1 h2 <;> simp_all

/-- Evaluations for C18: names are accepted in any case and with surrounding whitespace, other
strings are rejected with the message of the source. -/
theorem stringToWeightsToUse_stringToEdgeSource_spec_witness :
    stringToWeightsToUse "\tboth_weights ".toList = .ok .PARMETIS_BOTH_WEIGHTS ∧
    stringToEdgeSource "Edges_From_Forest".toList = .ok .PARMETIS_EDGES_FROM_FOREST ∧
    stringToEdgeSource " foo".toList = .error
      "Illegal ParMetis weights usage specified (FOO)! Valid choices are: \"EDGES_FROM_FOREST\" or \"EDGES_FROM_EDGE_WEIGHTS\"".toList ∧
    (stringToWeightsToUse "PART_KWAY".toList = .error
        ("Illegal ParMetis weights usage specified (".toList ++
          trim (to_upper "PART_KWAY".toList) ++ weightsChoices) ↔
      trim (to_upper "PART_KWAY".toList) ∉ ["NO_WEIGHTS".toList, "EDGE_WEIGHTS".toList,
        "VERTEX_WEIGHTS".toList, "BOTH_WEIGHTS".toList]) :=
  ⟨rfl, rfl, rfl, (stringToWeightsToUse_stringToEdgeSource_spec "PART_KWAY".toList).2.2.2.2.1⟩

/-! ### The traced pass -/

theorem callPartitioner_eq {D : Type} (self : DynamicParMetis) (core : ParMetisWrapper D)
    (fp : DoubleValues D) (numProcesses : Nat) (vtxdist : List Int) (g : GraphArrays D)
    (part : List Int) :
    callPartitioner self core fp numProcesses vtxdist g part =
      entryPoint core self.algorithm_ (partitionerArgs self fp numProcesses vtxdist g part) := by
  unfold callPartitioner entryPoint partitionerArgs
  cases self.algorithm_ <;> rfl

/-- The traced partitioner phase computes the result of `partitionerPhase`. -/
theorem partitionerPhaseTraced_snd {D : Type} (self : DynamicParMetis) (debug : Bool)
    (core : ParMetisWrapper D) (fp : DoubleValues D) (numProcesses : Nat) (mpi : Collectives)
    (targetProcess : List (PhantomBlock D × Nat)) (phantomForest : PhantomBlockForest D)
    (part : List Int) :
    (partitionerPhaseTraced self debug core fp numProcesses mpi targetProcess phantomForest
      part).2 =
      partitionerPhase self debug core fp numProcesses mpi targetProcess phantomForest part := by
  unfold partitionerPhaseTraced partitionerPhase getBlockIdToSequenceMapping
  simp only [callPartitioner_eq]
  cases localMapping debug phantomForest
      (getBlockSequenceRange phantomForest mpi.subRank mpi.scan) with
  | none => rfl
  | some lm =>
    simp only
    cases mergeBuffers debug lm mpi.received with
    | none => rfl
    | some mapping =>
      simp only
      cases buildGraph self.edgeSource_ mapping targetProcess with
      | none => rfl
      | some g =>
        simp only
        split
        · rfl
        · split <;> rfl

/-- The traced call computes the result of `DynamicParMetis.call`. -/
theorem callTraced_snd {D : Type} (self : DynamicParMetis) (debug : Bool)
    (core : ParMetisWrapper D) (fp : DoubleValues D) (rank numProcesses : Nat)
    (mpi : Collectives) (targetProcess : List (PhantomBlock D × Nat))
    (processesToRecvFrom : List Nat) (phantomForest : PhantomBlockForest D) (iteration : Nat) :
    (self.callTraced debug core fp rank numProcesses mpi targetProcess processesToRecvFrom
      phantomForest iteration).2 =
      self.call debug core fp rank numProcesses mpi targetProcess processesToRecvFrom
        phantomForest iteration := by
  unfold DynamicParMetis.callTraced DynamicParMetis.call partitionResult deriveRedistribution
  simp only
  by_cases hr : rank ∈ mpi.ranks
  · simp only [if_pos hr, partitionerPhaseTraced_snd]
    cases partitionerPhase self debug core fp numProcesses mpi targetProcess phantomForest
        (List.replicate phantomForest.getNumberOfBlocks (int64_c rank)) with
    | none => rfl
    | some part =>
      simp only
      cases isSendingBlockToProcess rank numProcesses part with
      | none => rfl
      | some v =>
        simp only
        cases assignTargets part targetProcess <;> rfl
  · simp only [if_neg hr]
    cases isSendingBlockToProcess rank numProcesses
        (List.replicate phantomForest.getNumberOfBlocks (int64_c rank)) with
    | none => rfl
    | some v =>
      simp only
      cases assignTargets (List.replicate phantomForest.getNumberOfBlocks (int64_c rank))
        targetProcess <;> rfl

/-- The trace and the result of the partitioner phase once the directory and the graph are
built and the assertions of lines 175-179 pass: the three operations of the sub-communicator,
one call of the entry point of the configured algorithm, and the abort when its status is not
`METIS_OK`. -/
theorem partitionerPhaseTraced_reached {D : Type} (self : DynamicParMetis) (debug : Bool)
    (core : ParMetisWrapper D) (fp : DoubleValues D) (numProcesses : Nat) (mpi : Collectives)
    (targetProcess : List (PhantomBlock D × Nat)) (phantomForest : PhantomBlockForest D)
    (part : List Int) (localMap mapping : List (BlockID × Nat)) (g : GraphArrays D)
    (hl : localMapping debug phantomForest
      (getBlockSequenceRange phantomForest mpi.subRank mpi.scan) = some localMap)
    (hm : mergeBuffers debug localMap mpi.received = some mapping)
    (hg : buildGraph self.edgeSource_ mapping targetProcess = some g)
    (hassert : (debug && !(decide ((0 :: mpi.rangeEnds).length = mpi.ranks.length + 1) &&
      graphAssertions phantomForest g)) = false) :
    partitionerPhaseTraced self debug core fp numProcesses mpi targetProcess phantomForest part =
      if (entryPoint core self.algorithm_
          (partitionerArgs self fp numProcesses (0 :: mpi.rangeEnds) g part)).status ≠
          core.METIS_OK then
        ([Event.exscan phantomForest.getNumberOfBlocks,
          Event.bufferExchange phantomForest.neighboringProcesses localMap,
          Event.allGather (int64_c
            (getBlockSequenceRange phantomForest mpi.subRank mpi.scan).2),
          Event.partitioner self.algorithm_
            (partitionerArgs self fp numProcesses (0 :: mpi.rangeEnds) g part),
          Event.abort "ParMetis failed!".toList], none)
      else
        ([Event.exscan phantomForest.getNumberOfBlocks,
          Event.bufferExchange phantomForest.neighboringProcesses localMap,
          Event.allGather (int64_c
            (getBlockSequenceRange phantomForest mpi.subRank mpi.scan).2),
          Event.partitioner self.algorithm_
            (partitionerArgs self fp numProcesses (0 :: mpi.rangeEnds) g part)],
          some ((List.range part.length).map (entryPoint core self.algorithm_
            (partitionerArgs self fp numProcesses (0 :: mpi.rangeEnds) g part)).part)) := by
  unfold partitionerPhaseTraced
  simp only [hl, hm, hg, hassert, Bool.false_eq_true, if_false, List.cons_append,
    List.nil_append]

/-- Every trace of the partitioner phase: at most one call of the partitioner, of the entry
point of the configured algorithm with the arguments of lines 181-190; the abort is in the trace
exactly when that call is and its status is not `METIS_OK`, and then the phase has no result;
every event is an operation of the sub-communicator or the abort. -/
theorem partitionerPhaseTraced_events {D : Type} (self : DynamicParMetis) (debug : Bool)
    (core : ParMetisWrapper D) (fp : DoubleValues D) (numProcesses : Nat) (mpi : Collectives)
    (targetProcess : List (PhantomBlock D × Nat)) (phantomForest : PhantomBlockForest D)
    (part : List Int) :
    (((partitionerPhaseTraced self debug core fp numProcesses mpi targetProcess phantomForest
        part).1.filter Event.isPartitioner).length ≤ 1) ∧
    (∀ (alg : Algorithm) (args : ParMetisArgs D),
      Event.partitioner alg args ∈ (partitionerPhaseTraced self debug core fp numProcesses mpi
        targetProcess phantomForest part).1 →
      alg = self.algorithm_ ∧
      ∃ g, args = partitionerArgs self fp numProcesses (0 :: mpi.rangeEnds) g part) ∧
    (∀ msg : List Char,
      Event.abort msg ∈ (partitionerPhaseTraced self debug core fp numProcesses mpi
        targetProcess phantomForest part).1 ↔
      msg = "ParMetis failed!".toList ∧
      ∃ args, Event.partitioner self.algorithm_ args ∈
          (partitionerPhaseTraced self debug core fp numProcesses mpi targetProcess
            phantomForest part).1 ∧
        (entryPoint core self.algorithm_ args).status ≠ core.METIS_OK) ∧
    (∀ msg : List Char,
      Event.abort msg ∈ (partitionerPhaseTraced self debug core fp numProcesses mpi
        targetProcess phantomForest part).1 →
      (partitionerPhaseTraced self debug core fp numProcesses mpi targetProcess phantomForest
        part).2 = none) ∧
    (∀ e ∈ (partitionerPhaseTraced self debug core fp numProcesses mpi targetProcess
        phantomForest part).1, e.onSubCommunicator = true ∨ e.isAbort = true) := by
  unfold partitionerPhaseTraced
  simp only
  cases localMapping debug phantomForest
      (getBlockSequenceRange phantomForest mpi.subRank mpi.scan) with
  | none => simp [Event.isPartitioner, Event.onSubCommunicator]
  | some lm =>
    simp only
    cases mergeBuffers debug lm mpi.received with
    | none => simp [Event.isPartitioner, Event.onSubCommunicator]
    | some mapping =>
      simp only
      cases buildGraph self.edgeSource_ mapping targetProcess with
      | none => simp [Event.isPartitioner, Event.onSubCommunicator]
      | some g =>
        simp only
        split
        · simp [Event.isPartitioner, Event.onSubCommunicator]
        · split
          · rename_i hbad
            refine ⟨by simp [Event.isPartitioner], ?_, ?_, by simp, ?_⟩
            · intro alg args h
              simp only [List.cons_append, List.nil_append, List.mem_cons, List.mem_singleton,
                Event.partitioner.injEq, List.not_mem_nil, or_false, false_or,
                reduceCtorEq] at h
              exact ⟨h.1, g, h.2⟩
            · intro msg
              simp only [List.cons_append, List.nil_append, List.mem_cons, List.mem_singleton,
                Event.abort.injEq, Event.partitioner.injEq, List.not_mem_nil, or_false,
                false_or, reduceCtorEq, true_and, exists_eq_left, iff_self_and]
              intro _
              exact hbad
            · intro e he
              simp only [List.cons_append, List.nil_append, List.mem_cons, List.mem_singleton,
                List.not_mem_nil, or_false] at he
              rcases he with rfl | rfl | rfl | rfl | rfl <;>
                simp [Event.onSubCommunicator, Event.isAbort]
          · rename_i hok
            refine ⟨by simp [Event.isPartitioner], ?_, ?_, ?_, ?_⟩
            · intro alg args h
              simp only [List.cons_append, List.nil_append, List.mem_cons, List.mem_singleton,
                Event.partitioner.injEq, List.not_mem_nil, or_false, false_or,
                reduceCtorEq] at h
              exact ⟨h.1, g, h.2⟩
            · intro msg
              simp only [List.cons_append, List.nil_append, List.mem_cons, List.mem_singleton,
                Event.partitioner.injEq, List.not_mem_nil, or_false,
                false_or, reduceCtorEq, true_and, exists_eq_left, false_iff, not_and]
              intro _
              exact hok
            · intro msg h
              simp at h
            · intro e he
              simp only [List.cons_append, List.nil_append, List.mem_cons, List.mem_singleton,
                List.not_mem_nil, or_false] at he
              rcases he with rfl | rfl | rfl | rfl <;> simp [Event.onSubCommunicator]

/-- The trace of a call: the two operations on the original communicator, the trace of the
partitioner phase, and the all-to-all when the send vector is built. -/
theorem callTraced_fst {D : Type} (self : DynamicParMetis) (debug : Bool)
    (core : ParMetisWrapper D) (fp : DoubleValues D) (rank numProcesses : Nat)
    (mpi : Collectives) (targetProcess : List (PhantomBlock D × Nat))
    (processesToRecvFrom : List Nat) (phantomForest : PhantomBlockForest D) (iteration : Nat) :
    ∃ tail : List (Event D),
      (self.callTraced debug core fp rank numProcesses mpi targetProcess processesToRecvFrom
        phantomForest iteration).1 =
        [Event.allGatherv (ownRanks rank phantomForest), Event.commCreate mpi.ranks] ++
          (phaseOfCall self debug core fp rank numProcesses mpi targetProcess phantomForest).1 ++
          tail ∧
      (tail = [] ∨ ∃ part sendbuf,
        (phaseOfCall self debug core fp rank numProcesses mpi targetProcess phantomForest).2 =
          some part ∧
        isSendingBlockToProcess rank numProcesses part = some sendbuf ∧
        tail = [Event.alltoall sendbuf]) ∧
      ((phaseOfCall self debug core fp rank numProcesses mpi targetProcess phantomForest).2 =
          none →
        (self.callTraced debug core fp rank numProcesses mpi targetProcess processesToRecvFrom
          phantomForest iteration).2 = none) := by
  unfold DynamicParMetis.callTraced
  simp only
  have hphase : (if rank ∈ mpi.ranks then
      partitionerPhaseTraced self debug core fp numProcesses mpi targetProcess phantomForest
        (List.replicate phantomForest.getNumberOfBlocks (int64_c rank))
      else ([], some (List.replicate phantomForest.getNumberOfBlocks (int64_c rank)))) =
      phaseOfCall self debug core fp rank numProcesses mpi targetProcess phantomForest := rfl
  rw [hphase]
  cases hp : (phaseOfCall self debug core fp rank numProcesses mpi targetProcess
      phantomForest).2 with
  | none => exact ⟨[], by simp, Or.inl rfl, fun _ => rfl⟩
  | some part =>
    simp only
    cases hs : isSendingBlockToProcess rank numProcesses part with
    | none => exact ⟨[], by simp, Or.inl rfl, fun h => Option.noConfusion h⟩
    | some sendbuf =>
      simp only
      cases assignTargets part targetProcess with
      | none =>
        exact ⟨[Event.alltoall sendbuf], rfl, Or.inr ⟨part, sendbuf, rfl, hs, rfl⟩,
          fun h => Option.noConfusion h⟩
      | some tp =>
        exact ⟨[Event.alltoall sendbuf], rfl, Or.inr ⟨part, sendbuf, rfl, hs, rfl⟩,
          fun h => Option.noConfusion h⟩

/-- C20: whenever a call of `operator()` returns, on any forest, configuration, partitioner,
collective results and iteration number, the returned flag is `false`. -/
theorem operator_returns_false {D : Type} (self : DynamicParMetis) (debug : Bool)
    (core : ParMetisWrapper D) (fp : DoubleValues D) (rank numProcesses : Nat)
    (mpi : Collectives) (targetProcess : List (PhantomBlock D × Nat))
    (processesToRecvFrom : List Nat) (phantomForest : PhantomBlockForest D) (iteration : Nat)
    (res : List (PhantomBlock D × Nat) × List Nat × Bool)
    (h : self.call debug core fp rank numProcesses mpi targetProcess processesToRecvFrom
      phantomForest iteration = some res) :
    res.2.2 = false := by
  unfold DynamicParMetis.call at h
  cases hp : partitionResult self debug core fp rank numProcesses mpi targetProcess
      phantomForest with
  | none => rw [hp] at h; exact Option.noConfusion h
  | some part =>
    rw [hp] at h
    simp only at h
    cases hd : deriveRedistribution rank numProcesses part mpi.isReceivingBlockFromProcess
        targetProcess processesToRecvFrom with
    | none => rw [hd] at h; exact Option.noConfusion h
    | some tr =>
      rw [hd] at h
      obtain ⟨tp, recv⟩ := tr
      simp only [Option.some.injEq] at h
      rw [← h]

/-- Witness of C20: the sample pass on rank 1 of 3 returns at iteration 7, with the flag
`false`. -/
theorem operator_returns_false_witness :
    sampleConfig.call true sampleWrapper sampleDoubles 1 3 sampleCollectives sampleTargets []
        sampleRankForest 7 =
      some ([(sampleBlock 1 [2, 7] [(2, 4)], 0), (sampleBlock 2 [1] [(1, 9), (7, 3)], 1)],
        [2], false) ∧
    (([(sampleBlock 1 [2, 7] [(2, 4)], 0), (sampleBlock 2 [1] [(1, 9), (7, 3)], 1)],
        [2], false) : List (PhantomBlock Int × Nat) × List Nat × Bool).2.2 = false :=
  ⟨by decide, operator_returns_false sampleConfig true sampleWrapper sampleDoubles
    1 3 sampleCollectives sampleTargets [] sampleRankForest 7 _ (by decide)⟩

/-- C14: the number of parts handed to the partitioner is the number of processes of the
original communicator, whatever the gathered rank list (the sub-communicator) is; one
constraint is used and the target-weight vector has `nparts * ncon` entries; every partitioner
call of a pass carries these arguments; and a pass can assign a block to a rank that owns no
block (in the sample pass rank 1 sends a block to rank 0, which is not among the block-owning
ranks 1 and 2). -/
theorem nparts_is_numProcesses {D : Type} (self : DynamicParMetis) (fp : DoubleValues D)
    (numProcesses : Nat) :
    (∀ (vtxdist : List Int) (g : GraphArrays D) (part : List Int),
      (partitionerArgs self fp numProcesses vtxdist g part).nparts = (numProcesses : Int) ∧
      (partitionerArgs self fp numProcesses vtxdist g part).ncon = 1 ∧
      (partitionerArgs self fp numProcesses vtxdist g part).tpwgts.length =
        uint_c ((partitionerArgs self fp numProcesses vtxdist g part).nparts *
          (partitionerArgs self fp numProcesses vtxdist g part).ncon) ∧
      (partitionerArgs self fp numProcesses vtxdist g part).tpwgts.length = numProcesses) ∧
    (∀ (debug : Bool) (core : ParMetisWrapper D) (rank : Nat) (mpi : Collectives)
      (targetProcess : List (PhantomBlock D × Nat)) (processesToRecvFrom : List Nat)
      (phantomForest : PhantomBlockForest D) (iteration : Nat) (alg : Algorithm)
      (args : ParMetisArgs D),
      Event.partitioner alg args ∈ (self.callTraced debug core fp rank numProcesses mpi
        targetProcess processesToRecvFrom phantomForest iteration).1 →
      args.nparts = (numProcesses : Int) ∧ args.ncon = 1 ∧
        args.tpwgts.length = uint_c (args.nparts * args.ncon)) ∧
    (∃ (tp : List (PhantomBlock Int × Nat)) (recv : List Nat) (b : PhantomBlock Int),
      sampleConfig.call true sampleWrapper sampleDoubles 1 3 sampleCollectives sampleTargets []
        sampleRankForest 0 = some (tp, recv, false) ∧
      tp[0]? = some (b, 0) ∧ 0 ∉ sampleCollectives.ranks) := by
  have hargs : ∀ (vtxdist : List Int) (g : GraphArrays D) (part : List Int),
      (partitionerArgs self fp numProcesses vtxdist g part).nparts = (numProcesses : Int) ∧
      (partitionerArgs self fp numProcesses vtxdist g part).ncon = 1 ∧
      (partitionerArgs self fp numProcesses vtxdist g part).tpwgts.length =
        uint_c ((partitionerArgs self fp numProcesses vtxdist g part).nparts *
          (partitionerArgs self fp numProcesses vtxdist g part).ncon) ∧
      (partitionerArgs self fp numProcesses vtxdist g part).tpwgts.length = numProcesses := by
    intro vtxdist g part
    simp [partitionerArgs, int64_c, uint_c]
  refine ⟨hargs, ?_, ?_⟩
  · intro debug core rank mpi targetProcess processesToRecvFrom phantomForest iteration alg
      args hmem
    obtain ⟨tail, htrace, htail, _⟩ := callTraced_fst self debug core fp rank numProcesses mpi
      targetProcess processesToRecvFrom phantomForest iteration
    rw [htrace] at hmem
    have hphase : Event.partitioner alg args ∈
        (phaseOfCall self debug core fp rank numProcesses mpi targetProcess phantomForest).1 := by
      simp only [List.mem_append, List.mem_cons, List.mem_singleton, List.not_mem_nil,
        or_false, reduceCtorEq, false_or] at hmem
      rcases hmem with h | h
      · exact h
      · rcases htail with rfl | ⟨_, _, _, _, rfl⟩
        · simp at h
        · simp at h
    unfold phaseOfCall at hphase
    split at hphase
    · obtain ⟨_, g, rfl⟩ := (partitionerPhaseTraced_events self debug core fp numProcesses mpi
        targetProcess phantomForest _).2.1 alg args hphase
      exact ⟨(hargs _ g _).1, (hargs _ g _).2.1, (hargs _ g _).2.2.1⟩
    · simp at hphase
  · exact ⟨[(sampleBlock 1 [2, 7] [(2, 4)], 0), (sampleBlock 2 [1] [(1, 9), (7, 3)], 1)],
      [2], sampleBlock 1 [2, 7] [(2, 4)], by decide, rfl, by decide⟩

/-- Witness of C14: the arguments assembled for 3 processes. -/
theorem nparts_is_numProcesses_witness :
    (partitionerArgs sampleConfig sampleDoubles 3 [0, 2, 3]
      { adjncy := [], xadj := [0], vsize := [], vwgt := [], adjwgt := [], xyz := [] }
      []).nparts = 3 ∧
    (partitionerArgs sampleConfig sampleDoubles 3 [0, 2, 3]
      { adjncy := [], xadj := [0], vsize := [], vwgt := [], adjwgt := [], xyz := [] }
      []).tpwgts.length = 3 :=
  ⟨((nparts_is_numProcesses sampleConfig sampleDoubles 3).1 _ _ _).1,
    ((nparts_is_numProcesses sampleConfig sampleDoubles 3).1 _ _ _).2.2.2⟩

/-- The result of the partitioner phase of a call is the one `partitionResult` computes. -/
theorem phaseOfCall_snd {D : Type} (self : DynamicParMetis) (debug : Bool)
    (core : ParMetisWrapper D) (fp : DoubleValues D) (rank numProcesses : Nat)
    (mpi : Collectives) (targetProcess : List (PhantomBlock D × Nat))
    (phantomForest : PhantomBlockForest D) :
    (phaseOfCall self debug core fp rank numProcesses mpi targetProcess phantomForest).2 =
      partitionResult self debug core fp rank numProcesses mpi targetProcess phantomForest := by
  unfold phaseOfCall partitionResult
  by_cases hr : rank ∈ mpi.ranks
  · simp only [if_pos hr, partitionerPhaseTraced_snd]
  · simp only [if_neg hr]

/-- A call whose partitioner phase has a result with values in range returns. -/
theorem call_isSome_of_partitionResult {D : Type} (self : DynamicParMetis) (debug : Bool)
    (core : ParMetisWrapper D) (fp : DoubleValues D) (rank numProcesses : Nat)
    (mpi : Collectives) (targetProcess : List (PhantomBlock D × Nat))
    (processesToRecvFrom : List Nat) (phantomForest : PhantomBlockForest D) (iteration : Nat)
    (part : List Int) (hr : rank < numProcesses)
    (hpart : partitionResult self debug core fp rank numProcesses mpi targetProcess
      phantomForest = some part)
    (hlen : targetProcess.length ≤ part.length)
    (hrange : ∀ p ∈ part, 0 ≤ p ∧ p < (numProcesses : Int)) :
    ∃ tp, assignTargets part targetProcess = some tp ∧
      self.call debug core fp rank numProcesses mpi targetProcess processesToRecvFrom
        phantomForest iteration =
        some (tp, insertReceivers processesToRecvFrom mpi.isReceivingBlockFromProcess,
          false) := by
  obtain ⟨v, hv, _⟩ := isSendingBlockToProcess_spec rank numProcesses part hr hrange
  obtain ⟨tp, htpa, _, _⟩ := assignTargetsFrom_spec part targetProcess 0 (by omega)
  refine ⟨tp, htpa, ?_⟩
  simp only [DynamicParMetis.call, hpart, deriveRedistribution, hv, assignTargets, htpa]

/-- C15: in every pass, for each of the four algorithms, the partitioner is called at most once
and through the entry point of the configured algorithm; the abort `ParMetis failed!` happens
exactly when that call returns a status other than `METIS_OK`, and then the call produces
neither a target assignment nor a receive-set.  On a block-owning rank that has built its
directory and graph the entry point is called exactly once, the partitioner phase fails exactly
when the status is not `METIS_OK`, and so does the whole pass when the returned parts are valid
ranks. -/
theorem partitioner_failure_aborts {D : Type} (self : DynamicParMetis) (debug : Bool)
    (core : ParMetisWrapper D) (fp : DoubleValues D) (rank numProcesses : Nat)
    (mpi : Collectives) (targetProcess : List (PhantomBlock D × Nat))
    (processesToRecvFrom : List Nat) (phantomForest : PhantomBlockForest D) (iteration : Nat) :
    (((self.callTraced debug core fp rank numProcesses mpi targetProcess processesToRecvFrom
        phantomForest iteration).1.filter Event.isPartitioner).length ≤ 1) ∧
    (∀ (alg : Algorithm) (args : ParMetisArgs D),
      Event.partitioner alg args ∈ (self.callTraced debug core fp rank numProcesses mpi
        targetProcess processesToRecvFrom phantomForest iteration).1 →
      alg = self.algorithm_) ∧
    (∀ msg : List Char,
      Event.abort msg ∈ (self.callTraced debug core fp rank numProcesses mpi targetProcess
        processesToRecvFrom phantomForest iteration).1 ↔
      msg = "ParMetis failed!".toList ∧
      ∃ args, Event.partitioner self.algorithm_ args ∈
          (self.callTraced debug core fp rank numProcesses mpi targetProcess
            processesToRecvFrom phantomForest iteration).1 ∧
        (entryPoint core self.algorithm_ args).status ≠ core.METIS_OK) ∧
    (∀ msg : List Char,
      Event.abort msg ∈ (self.callTraced debug core fp rank numProcesses mpi targetProcess
        processesToRecvFrom phantomForest iteration).1 →
      self.call debug core fp rank numProcesses mpi targetProcess processesToRecvFrom
        phantomForest iteration = none) ∧
    (∀ (mapping : List (BlockID × Nat)) (g : GraphArrays D),
      rank ∈ mpi.ranks →
      getBlockIdToSequenceMapping debug phantomForest
        (getBlockSequenceRange phantomForest mpi.subRank mpi.scan) mpi.received = some mapping →
      buildGraph self.edgeSource_ mapping targetProcess = some g →
      (debug && !(decide ((0 :: mpi.rangeEnds).length = mpi.ranks.length + 1) &&
        graphAssertions phantomForest g)) = false →
      ((self.callTraced debug core fp rank numProcesses mpi targetProcess processesToRecvFrom
          phantomForest iteration).1.filter Event.isPartitioner).length = 1 ∧
      Event.partitioner self.algorithm_ (partitionerArgs self fp numProcesses
          (0 :: mpi.rangeEnds) g
          (List.replicate phantomForest.getNumberOfBlocks (int64_c rank))) ∈
        (self.callTraced debug core fp rank numProcesses mpi targetProcess processesToRecvFrom
          phantomForest iteration).1 ∧
      (partitionResult self debug core fp rank numProcesses mpi targetProcess phantomForest =
          none ↔
        (entryPoint core self.algorithm_ (partitionerArgs self fp numProcesses
          (0 :: mpi.rangeEnds) g
          (List.replicate phantomForest.getNumberOfBlocks (int64_c rank)))).status ≠
          core.METIS_OK) ∧
      ((entryPoint core self.algorithm_ (partitionerArgs self fp numProcesses
          (0 :: mpi.rangeEnds) g
          (List.replicate phantomForest.getNumberOfBlocks (int64_c rank)))).status ≠
          core.METIS_OK →
        self.call debug core fp rank numProcesses mpi targetProcess processesToRecvFrom
          phantomForest iteration = none) ∧
      (rank < numProcesses →
        targetProcess.length = phantomForest.getNumberOfBlocks →
        (∀ i, i < phantomForest.getNumberOfBlocks →
          0 ≤ (entryPoint core self.algorithm_ (partitionerArgs self fp numProcesses
            (0 :: mpi.rangeEnds) g
            (List.replicate phantomForest.getNumberOfBlocks (int64_c rank)))).part i ∧
          (entryPoint core self.algorithm_ (partitionerArgs self fp numProcesses
            (0 :: mpi.rangeEnds) g
            (List.replicate phantomForest.getNumberOfBlocks (int64_c rank)))).part i <
            (numProcesses : Int)) →
        (self.call debug core fp rank numProcesses mpi targetProcess processesToRecvFrom
            phantomForest iteration = none ↔
          (entryPoint core self.algorithm_ (partitionerArgs self fp numProcesses
            (0 :: mpi.rangeEnds) g
            (List.replicate phantomForest.getNumberOfBlocks (int64_c rank)))).status ≠
            core.METIS_OK))) := by
  obtain ⟨tail, htrace, htail, hnone⟩ := callTraced_fst self debug core fp rank numProcesses
    mpi targetProcess processesToRecvFrom phantomForest iteration
  have htailP : tail.filter Event.isPartitioner = [] := by
    rcases htail with rfl | ⟨_, _, _, _, rfl⟩ <;> simp [Event.isPartitioner]
  have hmemP : ∀ (alg : Algorithm) (args : ParMetisArgs D),
      Event.partitioner alg args ∈ (self.callTraced debug core fp rank numProcesses mpi
        targetProcess processesToRecvFrom phantomForest iteration).1 ↔
      Event.partitioner alg args ∈
        (phaseOfCall self debug core fp rank numProcesses mpi targetProcess phantomForest).1 := by
    intro alg args
    rw [htrace]
    rcases htail with rfl | ⟨_, _, _, _, rfl⟩ <;> simp
  have hmemA : ∀ msg : List Char,
      Event.abort msg ∈ (self.callTraced debug core fp rank numProcesses mpi
        targetProcess processesToRecvFrom phantomForest iteration).1 ↔
      Event.abort msg ∈
        (phaseOfCall self debug core fp rank numProcesses mpi targetProcess phantomForest).1 := by
    intro msg
    rw [htrace]
    rcases htail with rfl | ⟨_, _, _, _, rfl⟩ <;> simp
  have hfilter : (self.callTraced debug core fp rank numProcesses mpi targetProcess
      processesToRecvFrom phantomForest iteration).1.filter Event.isPartitioner =
      (phaseOfCall self debug core fp rank numProcesses mpi targetProcess
        phantomForest).1.filter Event.isPartitioner := by
    rw [htrace, List.filter_append, List.filter_append, htailP]
    simp [Event.isPartitioner]
  refine ⟨?_, ?_, ?_, ?_, ?_⟩
  · rw [hfilter]
    unfold phaseOfCall
    split
    · exact (partitionerPhaseTraced_events self debug core fp numProcesses mpi targetProcess
        phantomForest _).1
    · simp
  · intro alg args h
    rw [hmemP] at h
    unfold phaseOfCall at h
    split at h
    · exact ((partitionerPhaseTraced_events self debug core fp numProcesses mpi targetProcess
        phantomForest _).2.1 alg args h).1
    · simp at h
  · intro msg
    rw [hmemA]
    simp only [hmemP]
    unfold phaseOfCall
    split
    · exact (partitionerPhaseTraced_events self debug core fp numProcesses mpi targetProcess
        phantomForest _).2.2.1 msg
    · simp
  · intro msg h
    rw [hmemA] at h
    rw [← callTraced_snd]
    apply hnone
    unfold phaseOfCall at h ⊢
    split
    · rename_i hr
      rw [if_pos hr] at h
      exact (partitionerPhaseTraced_events self debug core fp numProcesses mpi targetProcess
        phantomForest _).2.2.2.1 msg h
    · rename_i hr
      rw [if_neg hr] at h
      simp at h
  · intro mapping g hrank hmap hg hassert
    unfold getBlockIdToSequenceMapping at hmap
    cases hl : localMapping debug phantomForest
        (getBlockSequenceRange phantomForest mpi.subRank mpi.scan) with
    | none => rw [hl] at hmap; exact Option.noConfusion hmap
    | some lm =>
      rw [hl] at hmap
      simp only at hmap
      have hreached := partitionerPhaseTraced_reached self debug core fp numProcesses mpi
        targetProcess phantomForest
        (List.replicate phantomForest.getNumberOfBlocks (int64_c rank)) lm mapping g hl hmap
        hg hassert
      have hphase : phaseOfCall self debug core fp rank numProcesses mpi targetProcess
          phantomForest =
          partitionerPhaseTraced self debug core fp numProcesses mpi targetProcess
            phantomForest (List.replicate phantomForest.getNumberOfBlocks (int64_c rank)) := by
        unfold phaseOfCall
        rw [if_pos hrank]
      have hres : partitionResult self debug core fp rank numProcesses mpi targetProcess
          phantomForest =
          (partitionerPhaseTraced self debug core fp numProcesses mpi targetProcess
            phantomForest
            (List.replicate phantomForest.getNumberOfBlocks (int64_c rank))).2 := by
        rw [← phaseOfCall_snd, hphase]
      by_cases hbad : (entryPoint core self.algorithm_ (partitionerArgs self fp numProcesses
          (0 :: mpi.rangeEnds) g
          (List.replicate phantomForest.getNumberOfBlocks (int64_c rank)))).status ≠
          core.METIS_OK
      · rw [if_pos hbad] at hreached
        have hcallnone : self.call debug core fp rank numProcesses mpi targetProcess
            processesToRecvFrom phantomForest iteration = none := by
          rw [← callTraced_snd]
          apply hnone
          rw [hphase, hreached]
        refine ⟨?_, ?_, ?_, fun _ => hcallnone, fun _ _ _ => ?_⟩
        · rw [hfilter, hphase, hreached]
          simp [Event.isPartitioner]
        · rw [hmemP, hphase, hreached]
          simp
        · rw [hres, hreached]
          simp [hbad]
        · simp [hcallnone, hbad]
      · rw [if_neg hbad] at hreached
        refine ⟨?_, ?_, ?_, fun h => absurd h hbad, fun hr htp hrange => ?_⟩
        · rw [hfilter, hphase, hreached]
          simp [Event.isPartitioner]
        · rw [hmemP, hphase, hreached]
          simp
        · rw [hres, hreached]
          simp [hbad]
        · have hpart := hres
          rw [hreached] at hpart
          simp only at hpart
          obtain ⟨tp, _, hcall⟩ := call_isSome_of_partitionResult self debug core fp rank
            numProcesses mpi targetProcess processesToRecvFrom phantomForest iteration _ hr
            hpart (by simp [htp]) (by
              intro p hp
              simp only [List.length_replicate, List.mem_map, List.mem_range] at hp
              obtain ⟨i, hi, rfl⟩ := hp
              exact hrange i hi)
          rw [hcall]
          simp [hbad]

/-- Witness of C15: on rank 1 of the sample pass the failing partitioner makes the call abort,
the succeeding one does not. -/
theorem partitioner_failure_aborts_witness :
    sampleConfig.call true failingWrapper sampleDoubles 1 3 sampleCollectives sampleTargets []
      sampleRankForest 0 = none ∧
    (sampleConfig.call true sampleWrapper sampleDoubles 1 3 sampleCollectives sampleTargets []
      sampleRankForest 0).isSome = true :=
  ⟨((partitioner_failure_aborts sampleConfig true failingWrapper sampleDoubles 1 3
      sampleCollectives sampleTargets [] sampleRankForest 0).2.2.2.2
      [(1, 0), (2, 1), (7, 2)]
      { adjncy := [1, 2, 0], xadj := [0, 2, 3], vsize := [3, 3], vwgt := [2, 2],
        adjwgt := [4, 0, 9], xyz := [10, 20, 30, 10, 20, 30] }
      (by decide) (by decide) (by decide) (by decide)).2.2.2.1 (by decide),
    by decide⟩

/-! ### Gathered rank list and vertex distribution -/

/-- The ranks gathered from the forests numbered from `k`: membership, order and length. -/
theorem gathered_enumFrom {D : Type} (forests : List (PhantomBlockForest D)) :
    ∀ k : Nat,
      (∀ r : Nat, r ∈ ((forests.enumFrom k).map (fun e => ownRanks e.1 e.2)).flatten ↔
        k ≤ r ∧ ∃ f, forests[r - k]? = some f ∧ 0 < f.getNumberOfBlocks) ∧
      (((forests.enumFrom k).map (fun e => ownRanks e.1 e.2)).flatten).Pairwise (· < ·) ∧
      (((forests.enumFrom k).map (fun e => ownRanks e.1 e.2)).flatten).length =
        (forests.filter (fun f => decide (0 < f.getNumberOfBlocks))).length := by
  induction forests with
  | nil => intro k; simp
  | cons f rest ih =>
    intro k
    obtain ⟨hmem, hpw, hlen⟩ := ih (k + 1)
    simp only [List.enumFrom_cons, List.map_cons, List.flatten_cons]
    refine ⟨?_, ?_, ?_⟩
    · intro r
      rw [List.mem_append, hmem r]
      by_cases hrk : r = k
      · subst hrk
        by_cases hf : 0 < f.getNumberOfBlocks
        · simp [ownRanks, hf]
        · simp [ownRanks, hf]
      · constructor
        · rintro (h | ⟨hle, g, hg, hpos⟩)
          · unfold ownRanks at h
            split at h
            · simp at h; exact absurd h hrk
            · simp at h
          · refine ⟨by omega, g, ?_, hpos⟩
            have : r - k = (r - (k + 1)) + 1 := by omega
            rw [this, List.getElem?_cons_succ]
            exact hg
        · rintro ⟨hle, g, hg, hpos⟩
          right
          have hlt : k + 1 ≤ r := by omega
          refine ⟨hlt, g, ?_, hpos⟩
          have : r - k = (r - (k + 1)) + 1 := by omega
          rw [this, List.getElem?_cons_succ] at hg
          exact hg
    · rw [List.pairwise_append]
      refine ⟨?_, hpw, ?_⟩
      · unfold ownRanks
        split <;> simp
      · intro a ha b hb
        have hbk := ((hmem b).1 hb).1
        unfold ownRanks at ha
        split at ha
        · simp at ha; omega
        · simp at ha
    · rw [List.length_append, hlen]
      by_cases hf : 0 < f.getNumberOfBlocks
      · simp [ownRanks, hf, List.filter_cons]
        omega
      · simp [ownRanks, hf, List.filter_cons]

/-- C11: the rank list gathered from all ranks contains rank `r` exactly once when rank `r`
owns at least one block and not at all otherwise, in ascending rank order; its length is the
number of block-owning ranks; and with this list a rank takes the branch of the non-null
sub-communicator (the partitioner phase) exactly when it owns at least one block. -/
theorem gatheredRanks_spec {D : Type} (forests : List (PhantomBlockForest D)) :
    (∀ r : Nat, r ∈ gatheredRanks forests ↔
      ∃ f, forests[r]? = some f ∧ 0 < f.getNumberOfBlocks) ∧
    (∀ (r : Nat) (f : PhantomBlockForest D), forests[r]? = some f →
      (gatheredRanks forests).count r = if 0 < f.getNumberOfBlocks then 1 else 0) ∧
    (gatheredRanks forests).Pairwise (· < ·) ∧
    (gatheredRanks forests).length =
      (forests.filter (fun f => decide (0 < f.getNumberOfBlocks))).length ∧
    (∀ (self : DynamicParMetis) (debug : Bool) (core : ParMetisWrapper D)
      (fp : DoubleValues D) (r numProcesses : Nat) (mpi : Collectives)
      (targetProcess : List (PhantomBlock D × Nat)) (f : PhantomBlockForest D),
      forests[r]? = some f → mpi.ranks = gatheredRanks forests →
      partitionResult self debug core fp r numProcesses mpi targetProcess f =
        if 0 < f.getNumberOfBlocks then
          partitionerPhase self debug core fp numProcesses mpi targetProcess f
            (List.replicate f.getNumberOfBlocks (int64_c r))
        else some (List.replicate f.getNumberOfBlocks (int64_c r))) := by
  obtain ⟨hmem, hpw, hlen⟩ := gathered_enumFrom forests 0
  have hmem' : ∀ r : Nat, r ∈ gatheredRanks forests ↔
      ∃ f, forests[r]? = some f ∧ 0 < f.getNumberOfBlocks := by
    intro r
    have := hmem r
    simpa [gatheredRanks, allGatherv, List.enum] using this
  have hpw' : (gatheredRanks forests).Pairwise (· < ·) := hpw
  refine ⟨hmem', ?_, hpw', hlen, ?_⟩
  · intro r f hf
    have hnd : (gatheredRanks forests).Nodup := hpw'.imp (fun h => Nat.ne_of_lt h)
    by_cases hpos : 0 < f.getNumberOfBlocks
    · rw [if_pos hpos]
      exact List.count_eq_one_of_mem hnd ((hmem' r).2 ⟨f, hf, hpos⟩)
    · rw [if_neg hpos]
      apply List.count_eq_zero_of_not_mem
      intro hr
      obtain ⟨g, hg, hgpos⟩ := (hmem' r).1 hr
      rw [hf] at hg
      exact hpos (by rw [Option.some.inj hg]; exact hgpos)
  · intro self debug core fp r numProcesses mpi targetProcess f hf hranks
    unfold partitionResult
    simp only [hranks]
    by_cases hpos : 0 < f.getNumberOfBlocks
    · rw [if_pos ((hmem' r).2 ⟨f, hf, hpos⟩), if_pos hpos]
    · rw [if_neg hpos, if_neg]
      intro hr
      obtain ⟨g, hg, hgpos⟩ := (hmem' r).1 hr
      rw [hf] at hg
      exact hpos (by rw [Option.some.inj hg]; exact hgpos)

/-- Witness of C11: of four ranks with 2, 0, 1 and 0 blocks, ranks 0 and 2 are gathered. -/
theorem gatheredRanks_spec_witness :
    gatheredRanks [sampleForest [1, 2] [], sampleForest [] [], sampleForest [3] [],
      sampleForest [] []] = [0, 2] ∧
    (gatheredRanks [sampleForest [1, 2] [], sampleForest [] [], sampleForest [3] [],
      sampleForest [] []]).count 2 = (if 0 < (sampleForest [3] []).getNumberOfBlocks then 1
        else 0) :=
  ⟨by decide,
    (gatheredRanks_spec [sampleForest [1, 2] [], sampleForest [] [], sampleForest [3] [],
      sampleForest [] []]).2.1 2 (sampleForest [3] []) (by decide)⟩

/-- Every entry of the vertex distribution is the number of blocks of the lower sub-ranks. -/
theorem vtxdistOf_getElem? {D : Type} (undef : Nat) (subForests : List (PhantomBlockForest D))
    (k : Nat) (hk : k ≤ subForests.length) :
    (vtxdistOf undef subForests)[k]? =
      some ((((subForests.map PhantomBlockForest.getNumberOfBlocks).take k).sum : Nat) : Int) := by
  unfold vtxdistOf allGather
  cases k with
  | zero => simp
  | succ j =>
    have hj : j < subForests.length := by omega
    rw [List.getElem?_cons_succ, List.getElem?_map,
      blockSequenceRanges_getElem? undef subForests j hj]
    simp only [Option.map_some', int64_c, Option.some.injEq]
    rw [List.sum_take_succ _ j (by simpa using hj)]
    simp [List.getD, List.getElem?_eq_getElem hj]

/-- C13: for `S` block-owning ranks in sub-communicator rank order the vertex distribution has
`S + 1` entries, starts at 0, entry `k + 1` is `c_0 + ... + c_k`; it is non-decreasing,
consecutive entries differ by `c_k`, the sequence range of sub-rank `k` is
`[vtxdist[k], vtxdist[k+1])`, the assertion of line 175 passes, and the array is what every
partitioner call of the pass receives. -/
theorem vtxdist_spec {D : Type} (undef : Nat) (subForests : List (PhantomBlockForest D)) :
    (vtxdistOf undef subForests).length = subForests.length + 1 ∧
    (vtxdistOf undef subForests)[0]? = some 0 ∧
    (∀ k : Nat, k < subForests.length →
      (vtxdistOf undef subForests)[k + 1]? =
        some ((((subForests.map PhantomBlockForest.getNumberOfBlocks).take (k + 1)).sum : Nat) :
          Int)) ∧
    (∀ (i j : Nat) (a b : Int), i ≤ j → (vtxdistOf undef subForests)[i]? = some a →
      (vtxdistOf undef subForests)[j]? = some b → a ≤ b) ∧
    (∀ k : Nat, k < subForests.length →
      ∃ (s e : Nat), (blockSequenceRanges undef subForests)[k]? = some (s, e) ∧
        (vtxdistOf undef subForests)[k]? = some (s : Int) ∧
        (vtxdistOf undef subForests)[k + 1]? = some (e : Int) ∧
        (e : Int) - (s : Int) =
          (((subForests.map PhantomBlockForest.getNumberOfBlocks).getD k 0 : Nat) : Int)) ∧
    (∀ numSubProcesses : Nat, numSubProcesses = subForests.length →
      decide ((vtxdistOf undef subForests).length = numSubProcesses + 1) = true) ∧
    (∀ (self : DynamicParMetis) (debug : Bool) (core : ParMetisWrapper D) (fp : DoubleValues D)
      (rank numProcesses : Nat) (mpi : Collectives)
      (targetProcess : List (PhantomBlock D × Nat)) (processesToRecvFrom : List Nat)
      (phantomForest : PhantomBlockForest D) (iteration : Nat) (alg : Algorithm)
      (args : ParMetisArgs D),
      mpi.rangeEnds =
        allGather ((blockSequenceRanges undef subForests).map (fun r => int64_c r.2)) →
      Event.partitioner alg args ∈ (self.callTraced debug core fp rank numProcesses mpi
        targetProcess processesToRecvFrom phantomForest iteration).1 →
      args.vtxdist = vtxdistOf undef subForests) := by
  have hlen : (vtxdistOf undef subForests).length = subForests.length + 1 := by
    simp [vtxdistOf, allGather, blockSequenceRanges_length]
  refine ⟨hlen, ?_, ?_, ?_, ?_, ?_, ?_⟩
  · rw [vtxdistOf_getElem? undef subForests 0 (by omega)]; simp
  · intro k hk
    exact vtxdistOf_getElem? undef subForests (k + 1) (by omega)
  · intro i j a b hij ha hb
    have hj : j ≤ subForests.length := by
      by_contra hcon
      rw [List.getElem?_eq_none (by rw [hlen]; omega)] at hb
      exact Option.noConfusion hb
    rw [vtxdistOf_getElem? undef subForests i (by omega)] at ha
    rw [vtxdistOf_getElem? undef subForests j hj] at hb
    simp only [Option.some.injEq] at ha hb
    subst ha; subst hb
    exact_mod_cast List.monotone_sum_take _ hij
  · intro k hk
    refine ⟨_, _, blockSequenceRanges_getElem? undef subForests k hk,
      vtxdistOf_getElem? undef subForests k (by omega), ?_, by push_cast; ring⟩
    rw [vtxdistOf_getElem? undef subForests (k + 1) (by omega),
      List.sum_take_succ _ k (by simpa using hk)]
    simp [List.getD, List.getElem?_eq_getElem hk]
  · intro numSubProcesses hn
    simp [hlen, hn]
  · intro self debug core fp rank numProcesses mpi targetProcess processesToRecvFrom
      phantomForest iteration alg args hends hmem
    obtain ⟨tail, htrace, htail, _⟩ := callTraced_fst self debug core fp rank numProcesses mpi
      targetProcess processesToRecvFrom phantomForest iteration
    rw [htrace] at hmem
    have hphase : Event.partitioner alg args ∈
        (phaseOfCall self debug core fp rank numProcesses mpi targetProcess phantomForest).1 := by
      rcases htail with rfl | ⟨_, _, _, _, rfl⟩ <;> simpa using hmem
    unfold phaseOfCall at hphase
    split at hphase
    · obtain ⟨_, g, rfl⟩ := (partitionerPhaseTraced_events self debug core fp numProcesses mpi
        targetProcess phantomForest _).2.1 alg args hphase
      simp [partitionerArgs, vtxdistOf, hends]
    · simp at hphase

/-- Witness of C13: sub-ranks with 2, 1 and 3 blocks. -/
theorem vtxdist_spec_witness :
    vtxdistOf 99 [sampleForest [1, 2] [], sampleForest [3] [], sampleForest [4, 5, 6] []] =
      [0, 2, 3, 6] ∧
    decide ((vtxdistOf 99
      [sampleForest [1, 2] [], sampleForest [3] [], sampleForest [4, 5, 6] []]).length =
        3 + 1) = true :=
  ⟨by decide,
    (vtxdist_spec 99 [sampleForest [1, 2] [], sampleForest [3] [],
      sampleForest [4, 5, 6] []]).2.2.2.2.2.1 3 (by decide)⟩

/-! ### Ranks without blocks and passes that move nothing -/

theorem markTargets_some (n : Nat) (part : List Int) :
    ∀ v w : List Nat, markTargets n v part = some w →
      ∀ p ∈ part, 0 ≤ p ∧ p < (n : Int) := by
  induction part with
  | nil => intro v w _ p hp; simp at hp
  | cons q rest ih =>
    intro v w h p hp
    simp only [markTargets] at h
    split at h
    · rename_i hq
      rcases List.mem_cons.1 hp with rfl | hr
      · exact ⟨hq.1, hq.2.1⟩
      · exact ih _ _ h p hr
    · exact Option.noConfusion h

/-- A send vector is only built from partition values that are valid ranks, on a valid rank. -/
theorem isSendingBlockToProcess_some (rank n : Nat) (part : List Int) (v : List Nat)
    (h : isSendingBlockToProcess rank n part = some v) :
    rank < n ∧ ∀ p ∈ part, 0 ≤ p ∧ p < (n : Int) := by
  unfold isSendingBlockToProcess at h
  cases hm : markTargets n (List.replicate n 0) part with
  | none => rw [hm] at h; exact Option.noConfusion h
  | some w =>
    rw [hm] at h
    simp only at h
    obtain ⟨_, hw, hwl, _⟩ := markTargets_spec n part (List.replicate n 0) (by simp)
      (markTargets_some n part _ w hm)
    rw [hm] at hw
    have hwl' : w.length = n := by rw [Option.some.inj hw]; exact hwl
    split at h
    · rename_i hr
      exact ⟨by omega, markTargets_some n part _ w hm⟩
    · exact Option.noConfusion h

/-- The rows of a send matrix are the send vectors of the ranks. -/
theorem sendMatrix_rows (parts : List (List Int)) (matrix : List (List Nat))
    (h : sendMatrix parts = some matrix) :
    matrix.length = parts.length ∧
    ∀ (a : Nat) (part : List Int), parts[a]? = some part →
      ∃ row, matrix[a]? = some row ∧
        isSendingBlockToProcess a parts.length part = some row := by
  unfold sendMatrix at h
  rw [allResults_eq_some_iff] at h
  have hlen : matrix.length = parts.length := by
    have := congrArg List.length h
    simpa using this.symm
  refine ⟨hlen, ?_⟩
  intro a part ha
  have hi := congrArg (fun l => l[a]?) h
  simp only [List.getElem?_map, List.getElem?_enum, ha, Option.map_some'] at hi
  cases hr : matrix[a]? with
  | none => rw [hr] at hi; simp at hi
  | some row =>
    rw [hr] at hi
    simp only [Option.map_some', Option.some.injEq] at hi
    exact ⟨row, rfl, hi⟩

/-- The flags a rank receives from the all-to-all: the flag of rank `a` is 1 exactly when `a`
is another rank with at least one block targeted at the receiver. -/
theorem alltoall_flag (parts : List (List Int)) (matrix : List (List Nat))
    (h : sendMatrix parts = some matrix) (rank : Nat) (hr : rank < parts.length) (a : Nat) :
    (MPI_Alltoall matrix rank)[a]? = some 1 ↔
      a ≠ rank ∧ ∃ part, parts[a]? = some part ∧ (rank : Int) ∈ part := by
  obtain ⟨hlen, hrows⟩ := sendMatrix_rows parts matrix h
  unfold MPI_Alltoall
  rw [List.getElem?_map]
  by_cases ha : a < parts.length
  · obtain ⟨row, hrow, hsend⟩ := hrows a parts[a] (List.getElem?_eq_getElem ha)
    obtain ⟨_, hrange⟩ := isSendingBlockToProcess_some a parts.length parts[a] row hsend
    obtain ⟨v, hv, hvl, hvt⟩ := isSendingBlockToProcess_spec a parts.length parts[a] ha hrange
    rw [hsend] at hv
    have hvrow : row = v := Option.some.inj hv
    subst hvrow
    rw [hrow]
    simp only [Option.map_some', Option.some.injEq]
    have hget := hvt rank
    rw [if_pos hr] at hget
    rw [List.getD_eq_getElem?_getD, hget]
    by_cases hc : rank ≠ a ∧ (rank : Int) ∈ parts[a]
    · rw [if_pos hc]
      simp only [Option.getD_some, true_iff]
      exact ⟨fun he => hc.1 he.symm, parts[a], List.getElem?_eq_getElem ha, hc.2⟩
    · rw [if_neg hc]
      simp only [Option.getD_some, zero_ne_one, false_iff]
      rintro ⟨hne, part, hp, hmem⟩
      rw [List.getElem?_eq_getElem ha] at hp
      exact hc ⟨fun he => hne he.symm, by rw [Option.some.inj hp]; exact hmem⟩
  · have hnone : matrix[a]? = none := List.getElem?_eq_none (by omega)
    rw [hnone]
    refine ⟨fun hx => Option.noConfusion hx, ?_⟩
    rintro ⟨_, part, hp, _⟩
    rw [List.getElem?_eq_none (by omega)] at hp
    exact Option.noConfusion hp

/-- The vector `part` at line 222 has one entry per block. -/
theorem partitionResult_length {D : Type} (self : DynamicParMetis) (debug : Bool)
    (core : ParMetisWrapper D) (fp : DoubleValues D) (rank numProcesses : Nat)
    (mpi : Collectives) (targetProcess : List (PhantomBlock D × Nat))
    (phantomForest : PhantomBlockForest D) (part : List Int)
    (h : partitionResult self debug core fp rank numProcesses mpi targetProcess phantomForest =
      some part) :
    part.length = phantomForest.getNumberOfBlocks := by
  unfold partitionResult at h
  simp only at h
  split at h
  · unfold partitionerPhase at h
    simp only at h
    split at h
    · exact Option.noConfusion h
    · split at h
      · exact Option.noConfusion h
      · split at h
        · exact Option.noConfusion h
        · split at h
          · exact Option.noConfusion h
          · simp only [Option.some.injEq] at h
            subst h
            simp
  · simp only [Option.some.injEq] at h
    subst h
    simp

/-- The insertion loop leaves the set as it is when no received flag is 1. -/
theorem insertReceivers_of_no_flag (processesToRecvFrom flags : List Nat)
    (h : ∀ f ∈ flags, f ≠ 1) :
    insertReceivers processesToRecvFrom flags = processesToRecvFrom := by
  unfold insertReceivers List.enum
  generalize 0 = k
  induction flags generalizing k with
  | nil => rfl
  | cons f rest ih =>
    rw [List.enumFrom_cons, List.foldl_cons]
    simp only [h f (List.mem_cons_self _ _), if_false]
    exact ih (fun g hg => h g (List.mem_cons_of_mem _ hg)) (k + 1)

/-- The send vector of a rank that keeps all its blocks is all zero. -/
theorem isSendingBlockToProcess_own (rank n : Nat) (part : List Int) (hr : rank < n)
    (hown : ∀ p ∈ part, p = (rank : Int)) :
    isSendingBlockToProcess rank n part = some (List.replicate n 0) := by
  obtain ⟨v, hv, _, ht⟩ := isSendingBlockToProcess_spec rank n part hr
    (fun p hp => by rw [hown p hp]; omega)
  rw [hv]
  congr 1
  apply List.ext_getElem?
  intro t
  rw [ht t, List.getElem?_replicate]
  by_cases htn : t < n
  · rw [if_pos htn, if_pos htn, if_neg]
    rintro ⟨hne, hmem⟩
    exact hne (by have := hown _ hmem; omega)
  · rw [if_neg htn, if_neg htn]

/-- The assignment loop writes the own rank into every entry when every partition value is the
own rank. -/
theorem assignTargetsFrom_own {B : Type} (rank : Nat) (part : List Int)
    (hown : ∀ p ∈ part, p = (rank : Int)) (targetProcess : List (B × Nat)) :
    ∀ i : Nat, i + targetProcess.length ≤ part.length →
      assignTargetsFrom part i targetProcess =
        some (targetProcess.map (fun it => (it.1, rank))) := by
  induction targetProcess with
  | nil => intro i _; rfl
  | cons a rest ih =>
    intro i hi
    obtain ⟨b, t0⟩ := a
    simp only [List.length_cons] at hi
    have hilt : i < part.length := by omega
    have hp : part[i] = (rank : Int) := hown _ (List.getElem_mem _)
    simp only [assignTargetsFrom, List.getElem?_eq_getElem hilt, ih (i + 1) (by omega), hp,
      List.map_cons]
    simp [uint_c]

/-- The all-to-all of an all-zero send matrix delivers no flag 1. -/
theorem alltoall_zero (n m rank : Nat) :
    ∀ f ∈ MPI_Alltoall (List.replicate n (List.replicate m 0)) rank, f ≠ 1 := by
  intro f hf
  unfold MPI_Alltoall at hf
  rw [List.map_replicate] at hf
  have hf0 := (List.mem_replicate.1 hf).2
  rw [hf0, List.getD_eq_getElem?_getD, List.getElem?_replicate]
  split <;> simp

/-- C12 (amended): a rank without blocks is not in the gathered rank list; it issues the
all-gather, the communicator creation and the all-to-all and no operation of the
sub-communicator (sequence numbering, directory exchange, range ends, partitioner); its vector
`part` and its target assignment are empty and its send vector is all zero; and when the flags
it receives are those of the all-to-all over the send vectors of all ranks, the call returns
with the set passed in extended by exactly the ranks that have at least one block targeted at
it, which is exactly the set of these ranks when the set is passed in empty. -/
theorem blockless_rank_pass {D : Type} (self : DynamicParMetis) (debug : Bool)
    (core : ParMetisWrapper D) (fp : DoubleValues D) (forests : List (PhantomBlockForest D))
    (parts : List (List Int)) (rank : Nat) (mpi : Collectives)
    (targetProcess : List (PhantomBlock D × Nat)) (processesToRecvFrom : List Nat)
    (phantomForest : PhantomBlockForest D) (iteration : Nat)
    (hf : forests[rank]? = some phantomForest)
    (hn : phantomForest.getNumberOfBlocks = 0)
    (htp : targetProcess.length = phantomForest.getNumberOfBlocks)
    (hranks : mpi.ranks = gatheredRanks forests)
    (hlen : parts.length = forests.length)
    (hrecv : (sendMatrix parts).map (fun matrix => MPI_Alltoall matrix rank) =
      some mpi.isReceivingBlockFromProcess) :
    rank ∉ mpi.ranks ∧
    (self.callTraced debug core fp rank forests.length mpi targetProcess processesToRecvFrom
        phantomForest iteration).1 =
      [Event.allGatherv [], Event.commCreate mpi.ranks,
        Event.alltoall (List.replicate forests.length 0)] ∧
    (∀ e ∈ (self.callTraced debug core fp rank forests.length mpi targetProcess
        processesToRecvFrom phantomForest iteration).1, e.onSubCommunicator = false) ∧
    partitionResult self debug core fp rank forests.length mpi targetProcess phantomForest =
      some [] ∧
    isSendingBlockToProcess rank forests.length [] = some (List.replicate forests.length 0) ∧
    ∃ recv : List Nat,
      self.call debug core fp rank forests.length mpi targetProcess processesToRecvFrom
        phantomForest iteration = some ([], recv, false) ∧
      (∀ a : Nat, a ∈ recv ↔ a ∈ processesToRecvFrom ∨
        (a ≠ rank ∧ ∃ part, parts[a]? = some part ∧ (rank : Int) ∈ part)) ∧
      (processesToRecvFrom = [] →
        ∀ a : Nat, a ∈ recv ↔ a ≠ rank ∧ ∃ part, parts[a]? = some part ∧ (rank : Int) ∈ part) := by
  have hrlt : rank < forests.length := (List.getElem?_eq_some.1 hf).1
  have hnot : rank ∉ mpi.ranks := by
    rw [hranks]
    intro hr
    have hmem := ((gathered_enumFrom forests 0).1 rank).1
      (by simpa [gatheredRanks, allGatherv, List.enum] using hr)
    obtain ⟨_, g, hg, hpos⟩ := hmem
    rw [Nat.sub_zero, hf] at hg
    have hgf : phantomForest = g := Option.some.inj hg
    subst hgf
    omega
  have htp0 : targetProcess = [] := List.length_eq_zero.1 (by omega)
  subst htp0
  have hsend : isSendingBlockToProcess rank forests.length [] =
      some (List.replicate forests.length 0) :=
    isSendingBlockToProcess_own rank forests.length [] hrlt (by simp)
  have hpart : partitionResult self debug core fp rank forests.length mpi
      ([] : List (PhantomBlock D × Nat)) phantomForest = some [] := by
    unfold partitionResult
    simp only [if_neg hnot, hn, List.replicate_zero]
  have htrace : (self.callTraced debug core fp rank forests.length mpi
      ([] : List (PhantomBlock D × Nat)) processesToRecvFrom phantomForest iteration).1 =
      [Event.allGatherv [], Event.commCreate mpi.ranks,
        Event.alltoall (List.replicate forests.length 0)] := by
    unfold DynamicParMetis.callTraced
    simp only [if_neg hnot, hn, List.replicate_zero, hsend, assignTargets,
      assignTargetsFrom, ownRanks, gt_iff_lt, lt_self_iff_false, if_false, List.append_nil,
      List.cons_append, List.nil_append]
  obtain ⟨matrix, hM, hflags⟩ : ∃ matrix, sendMatrix parts = some matrix ∧
      mpi.isReceivingBlockFromProcess = MPI_Alltoall matrix rank := by
    cases hm : sendMatrix parts with
    | none => rw [hm] at hrecv; exact Option.noConfusion hrecv
    | some matrix =>
      rw [hm] at hrecv
      simp only [Option.map_some', Option.some.injEq] at hrecv
      exact ⟨matrix, rfl, hrecv.symm⟩
  have hmemrecv : ∀ a : Nat,
      a ∈ insertReceivers processesToRecvFrom mpi.isReceivingBlockFromProcess ↔
        a ∈ processesToRecvFrom ∨
          (a ≠ rank ∧ ∃ part, parts[a]? = some part ∧ (rank : Int) ∈ part) := by
    intro a
    rw [mem_insertReceivers, hflags, alltoall_flag parts matrix hM rank (by omega) a]
  refine ⟨hnot, htrace, ?_, hpart, hsend,
    insertReceivers processesToRecvFrom mpi.isReceivingBlockFromProcess, ?_, hmemrecv, ?_⟩
  · intro e he
    rw [htrace] at he
    simp only [List.mem_cons, List.mem_singleton, List.not_mem_nil, or_false] at he
    rcases he with rfl | rfl | rfl <;> rfl
  · simp only [DynamicParMetis.call, hpart, deriveRedistribution, hsend, assignTargets,
      assignTargetsFrom]
  · intro hempty a
    rw [hmemrecv a, hempty]
    simp

/-- Witness of C12: of three ranks, rank 1 owns no block and rank 0 moves a block to rank 1;
rank 1 issues no operation of the sub-communicator and its receive-set, passed in empty, becomes
the non-empty set holding rank 0. -/
theorem blockless_rank_pass_witness :
    sampleConfig.call true sampleWrapper sampleDoubles 1 3 blocklessCollectives [] []
      (sampleForest [] []) 0 = some ([], [0], false) ∧
    (1 ∉ blocklessCollectives.ranks ∧
    (sampleConfig.callTraced true sampleWrapper sampleDoubles 1
        [sampleForest [4] [], sampleForest [] [], sampleForest [5] []].length
        blocklessCollectives [] [] (sampleForest [] []) 0).1 =
      [Event.allGatherv [], Event.commCreate blocklessCollectives.ranks,
        Event.alltoall (List.replicate
          [sampleForest [4] [], sampleForest [] [], sampleForest [5] []].length 0)] ∧
    (∀ e ∈ (sampleConfig.callTraced true sampleWrapper sampleDoubles 1
        [sampleForest [4] [], sampleForest [] [], sampleForest [5] []].length
        blocklessCollectives [] [] (sampleForest [] []) 0).1, e.onSubCommunicator = false) ∧
    partitionResult sampleConfig true sampleWrapper sampleDoubles 1
        [sampleForest [4] [], sampleForest [] [], sampleForest [5] []].length
        blocklessCollectives [] (sampleForest [] []) = some [] ∧
    isSendingBlockToProcess 1
        [sampleForest [4] [], sampleForest [] [], sampleForest [5] []].length [] =
      some (List.replicate
        [sampleForest [4] [], sampleForest [] [], sampleForest [5] []].length 0) ∧
    ∃ recv : List Nat,
      sampleConfig.call true sampleWrapper sampleDoubles 1
        [sampleForest [4] [], sampleForest [] [], sampleForest [5] []].length
        blocklessCollectives [] [] (sampleForest [] []) 0 = some ([], recv, false) ∧
      (∀ a : Nat, a ∈ recv ↔ a ∈ ([] : List Nat) ∨
        (a ≠ 1 ∧ ∃ part, ([[1], [], [2]] : List (List Int))[a]? = some part ∧
          ((1 : Nat) : Int) ∈ part)) ∧
      (([] : List Nat) = [] →
        ∀ a : Nat, a ∈ recv ↔ a ≠ 1 ∧ ∃ part, ([[1], [], [2]] : List (List Int))[a]? =
          some part ∧ ((1 : Nat) : Int) ∈ part)) :=
  ⟨by decide,
    blockless_rank_pass sampleConfig true sampleWrapper sampleDoubles
      [sampleForest [4] [], sampleForest [] [], sampleForest [5] []] [[1], [], [2]] 1
      blocklessCollectives [] [] (sampleForest [] []) 0 (by decide) (by decide) (by decide)
      (by decide) (by decide) (by decide)⟩

/-- Counterexample to C12 as stated: rank 1 of 3 owns no block and is handed the receive-set
`{2}`; rank 0 targets a block at rank 1 and rank 2 keeps its block, so the all-to-all delivers
the flags `[1, 0, 0]`; after the call the receive-set is `{0, 2}` and holds rank 2, which has
no block targeted at rank 1. -/
theorem blockless_rank_keeps_received_set :
    sendMatrix [[1], [], [2]] = some [[0, 1, 0], [0, 0, 0], [0, 0, 0]] ∧
    MPI_Alltoall [[0, 1, 0], [0, 0, 0], [0, 0, 0]] 1 =
      blocklessCollectives.isReceivingBlockFromProcess ∧
    sampleConfig.call true sampleWrapper sampleDoubles 1 3 blocklessCollectives [] [2]
      (sampleForest [] []) 0 = some ([], [0, 2], false) ∧
    ((1 : Nat) : Int) ∉ ([2] : List Int) := by
  decide

/-- C19 (amended): when on every rank the vector `part` holds the own rank for every block, the
send vector of every rank is all zero, the all-to-all leaves every receive-set as it was passed
in, so every receive-set passed in empty is empty afterwards, and on every rank the call returns
with every block targeted at the rank that owns it and with the receive-set it was handed. -/
theorem identity_partition_pass {D : Type} (self : DynamicParMetis) (debug : Bool)
    (core : ParMetisWrapper D) (fp : DoubleValues D) (parts : List (List Int))
    (hown : ∀ (a : Nat) (part : List Int), parts[a]? = some part → ∀ p ∈ part, p = (a : Int)) :
    sendMatrix parts =
      some (List.replicate parts.length (List.replicate parts.length 0)) ∧
    (∀ initial : List (List Nat),
      receiveSets initial (List.replicate parts.length (List.replicate parts.length 0)) =
        initial) ∧
    receiveSets (List.replicate parts.length [])
        (List.replicate parts.length (List.replicate parts.length 0)) =
      List.replicate parts.length [] ∧
    ∀ (rank : Nat) (mpi : Collectives) (targetProcess : List (PhantomBlock D × Nat))
      (processesToRecvFrom : List Nat) (phantomForest : PhantomBlockForest D) (iteration : Nat)
      (part : List Int),
      parts[rank]? = some part →
      partitionResult self debug core fp rank parts.length mpi targetProcess phantomForest =
        some part →
      targetProcess.length = phantomForest.getNumberOfBlocks →
      mpi.isReceivingBlockFromProcess =
        MPI_Alltoall (List.replicate parts.length (List.replicate parts.length 0)) rank →
      isSendingBlockToProcess rank parts.length part =
        some (List.replicate parts.length 0) ∧
      self.call debug core fp rank parts.length mpi targetProcess processesToRecvFrom
          phantomForest iteration =
        some (targetProcess.map (fun it => (it.1, rank)), processesToRecvFrom, false) := by
  have hrs : ∀ initial : List (List Nat),
      receiveSets initial (List.replicate parts.length (List.replicate parts.length 0)) =
        initial := by
    intro initial
    unfold receiveSets
    have : ∀ e : Nat × List Nat,
        insertReceivers e.2
          (MPI_Alltoall (List.replicate parts.length (List.replicate parts.length 0)) e.1) =
        e.2 := fun e => insertReceivers_of_no_flag _ _ (alltoall_zero _ _ _)
    simp only [this]
    exact List.enum_map_snd initial
  refine ⟨?_, hrs, hrs _, ?_⟩
  · unfold sendMatrix
    rw [allResults_eq_some_iff]
    apply List.ext_getElem?
    intro a
    rw [List.getElem?_map, List.getElem?_enum, List.getElem?_map, List.getElem?_replicate]
    by_cases ha : a < parts.length
    · rw [List.getElem?_eq_getElem ha, if_pos ha]
      simp only [Option.map_some']
      rw [isSendingBlockToProcess_own a parts.length parts[a] ha
        (hown a parts[a] (List.getElem?_eq_getElem ha))]
    · rw [List.getElem?_eq_none (by omega), if_neg ha]
      rfl
  · intro rank mpi targetProcess processesToRecvFrom phantomForest iteration part hrank hpart
      htp hflags
    have hrlt : rank < parts.length := (List.getElem?_eq_some.1 hrank).1
    have hsend := isSendingBlockToProcess_own rank parts.length part hrlt (hown rank part hrank)
    have hlen := partitionResult_length self debug core fp rank parts.length mpi targetProcess
      phantomForest part hpart
    have hassign := assignTargetsFrom_own rank part (hown rank part hrank) targetProcess 0
      (by omega)
    refine ⟨hsend, ?_⟩
    simp only [DynamicParMetis.call, hpart, deriveRedistribution, hsend, assignTargets, hassign,
      hflags, insertReceivers_of_no_flag _ _ (alltoall_zero _ _ _)]

/-- Witness of C19: of three ranks only rank 0 owns a block and the sample partitioner keeps it
on rank 0; every send vector is zero and rank 0, handed the empty receive-set, returns it
empty. -/
theorem identity_partition_pass_witness :
    sampleConfig.call true sampleWrapper sampleDoubles 0 3 ownerCollectives
      [(sampleBlock 4 [] [], 0)] [] (sampleForest [4] []) 0 =
        some ([(sampleBlock 4 [] [], 0)], [], false) ∧
    sendMatrix ([[0], [], []] : List (List Int)) =
      some (List.replicate ([[0], [], []] : List (List Int)).length
        (List.replicate ([[0], [], []] : List (List Int)).length 0)) :=
  ⟨by decide,
    (identity_partition_pass sampleConfig true sampleWrapper sampleDoubles [[0], [], []]
      (by
        intro a part h p hp
        rcases a with _ | _ | _ | a <;> simp at h <;> subst h <;> simp_all)).1⟩

/-- Counterexample to C19 as stated: of three ranks only rank 0 owns a block and the partitioner
keeps it on rank 0, so every block stays where it is and every send vector is zero; rank 0 is
handed the receive-set `{2}` and the set is `{2}`, not empty, after the pass. -/
theorem identity_partition_keeps_received_set :
    partitionResult sampleConfig true sampleWrapper sampleDoubles 0 3 ownerCollectives
      [(sampleBlock 4 [] [], 0)] (sampleForest [4] []) = some [0] ∧
    sendMatrix [[0], [], []] = some [[0, 0, 0], [0, 0, 0], [0, 0, 0]] ∧
    MPI_Alltoall [[0, 0, 0], [0, 0, 0], [0, 0, 0]] 0 =
      ownerCollectives.isReceivingBlockFromProcess ∧
    sampleConfig.call true sampleWrapper sampleDoubles 0 3 ownerCollectives
      [(sampleBlock 4 [] [], 0)] [2] (sampleForest [4] []) 0 =
        some ([(sampleBlock 4 [] [], 0)], [2], false) := by
  decide

/-! ### Merging received maps, failing lookups, local sequence ids -/

/-- In a debug build the merge of one received map with distinct keys fails exactly when one of
its keys is in the map already. -/
theorem mergeRemote_debug_none_iff (entries : List (BlockID × Nat)) :
    ∀ m : List (BlockID × Nat), (entries.map Prod.fst).Nodup →
      (mergeRemote true m entries = none ↔
        ∃ e ∈ entries, (mapFind m e.1).isSome = true) := by
  induction entries with
  | nil => intro m _; simp [mergeRemote]
  | cons e rest ih =>
    intro m hnd
    rw [List.map_cons, List.nodup_cons] at hnd
    obtain ⟨hnot, hrest⟩ := hnd
    simp only [mergeRemote, mapInsert]
    cases hm : mapFind m e.1 with
    | some v =>
      simp only [Bool.not_false, Bool.and_self, if_true, true_iff]
      exact ⟨e, List.mem_cons_self _ _, by simp [hm]⟩
    | none =>
      simp only [Bool.not_true, Bool.and_false, Bool.false_eq_true, if_false]
      rw [ih _ hrest]
      constructor
      · rintro ⟨e', he', hsome⟩
        refine ⟨e', List.mem_cons_of_mem _ he', ?_⟩
        rw [mapFind_orderedInsert e m e'.1 hm] at hsome
        have hne : ¬ e.1 = e'.1 := fun h => hnot (h ▸ List.mem_map_of_mem Prod.fst he')
        rwa [if_neg hne] at hsome
      · rintro ⟨e', he', hsome⟩
        rcases List.mem_cons.1 he' with rfl | hr
        · rw [hm] at hsome; simp at hsome
        · refine ⟨e', hr, ?_⟩
          rw [mapFind_orderedInsert e m e'.1 hm]
          have hne : ¬ e.1 = e'.1 := fun h => hnot (h ▸ List.mem_map_of_mem Prod.fst hr)
          rwa [if_neg hne]

/-- C21 (amended): in a debug build, merging the pairs of one received map (a map, its keys
pairwise distinct) into the directory aborts exactly when some incoming block id is in the
directory already, whatever sequence id the directory holds for it; in a release build the
merge of a received map, and of any list of received maps, never aborts. -/
theorem merge_aborts_iff_key_present (mapping entries : List (BlockID × Nat))
    (hnd : (entries.map Prod.fst).Nodup) :
    (mergeRemote true mapping entries = none ↔
      ∃ e ∈ entries, (mapFind mapping e.1).isSome = true) ∧
    (∃ m, mergeRemote false mapping entries = some m) ∧
    (∀ buffers : List (List (BlockID × Nat)),
      ∃ m, mergeBuffers false mapping (entries :: buffers) = some m) :=
  ⟨mergeRemote_debug_none_iff entries mapping hnd,
    ⟨_, mergeRemote_release entries mapping⟩,
    fun buffers => ⟨_, mergeBuffers_release (entries :: buffers) mapping⟩⟩

/-- Witness of C21: the directory holds block 7; a received map with the blocks 5 and 7 aborts
the debug build and is merged by the release build. -/
theorem merge_aborts_iff_key_present_witness :
    mergeRemote true [(1, 0), (7, 2)] [(5, 4), (7, 3)] = none ∧
    mergeRemote false [(1, 0), (7, 2)] [(5, 4), (7, 3)] = some [(1, 0), (5, 4), (7, 2)] ∧
    (mergeRemote true [(1, 0), (7, 2)] [(5, 4), (7, 3)] = none ↔
      ∃ e ∈ ([(5, 4), (7, 3)] : List (BlockID × Nat)),
        (mapFind ([(1, 0), (7, 2)] : List (BlockID × Nat)) e.1).isSome = true) :=
  ⟨by decide, by decide,
    (merge_aborts_iff_key_present [(1, 0), (7, 2)] [(5, 4), (7, 3)] (by decide)).1⟩

/-- Counterexample to C21 as stated: the directory holds block 7 with sequence id 2 and the
received map holds the same pair; no incoming block id is present with a different sequence
id, and the debug build aborts. -/
theorem merge_aborts_on_equal_pair :
    mergeRemote true [(7, 2)] [(7, 2)] = none ∧
    mapFind ([(7, 2)] : List (BlockID × Nat)) 7 = some 2 ∧
    ¬ ∃ e ∈ ([(7, 2)] : List (BlockID × Nat)), ∃ s : Nat,
      mapFind ([(7, 2)] : List (BlockID × Nat)) e.1 = some s ∧ s ≠ e.2 := by
  refine ⟨by decide, by decide, ?_⟩
  rintro ⟨e, he, s, hs, hne⟩
  rw [List.mem_singleton] at he
  subst he
  simp [mapFind] at hs
  exact hne hs.symm

/-- The builder fails exactly when some referenced id has no entry in the directory. -/
theorem buildGraph_eq_none_iff {D : Type} (edgeSource_ : EdgeSource)
    (mapping : List (BlockID × Nat)) (targetProcess : List (PhantomBlock D × Nat)) :
    buildGraph edgeSource_ mapping targetProcess = none ↔
      ∃ it ∈ targetProcess, ∃ id ∈ referencedIds edgeSource_ it.1, mapFind mapping id = none := by
  constructor
  · intro h
    by_contra hcon
    have hall : ∀ it ∈ targetProcess, ∀ id ∈ referencedIds edgeSource_ it.1,
        (mapFind mapping id).isSome = true := by
      intro it hit id hid
      cases hm : mapFind mapping id with
      | none => exact absurd ⟨it, hit, id, hid, hm⟩ hcon
      | some s => rfl
    rw [(buildGraph_eq_some_iff edgeSource_ mapping targetProcess _).2 ⟨hall, rfl⟩] at h
    exact Option.noConfusion h
  · rintro ⟨it, hit, id, hid, hm⟩
    cases hb : buildGraph edgeSource_ mapping targetProcess with
    | none => rfl
    | some g =>
      have := ((buildGraph_eq_some_iff edgeSource_ mapping targetProcess g).1 hb).1 it hit id hid
      rw [hm] at this
      exact Bool.noConfusion this

/-- C22: the graph builder fails exactly when some block id it looks up (a neighbourhood entry
with `EDGES_FROM_FOREST`, a key of the edge-weight map with `EDGES_FROM_EDGE_WEIGHTS`) has no
entry in the directory; and when the directory has an entry for every block of the rank and of
its declared neighbour processes and every referenced block is owned by the rank or by a
declared neighbour, the builder returns the graph arrays. -/
theorem graph_builder_fails_iff_unresolved {D : Type} (mapping : List (BlockID × Nat))
    (targetProcess : List (PhantomBlock D × Nat)) :
    (buildGraph .PARMETIS_EDGES_FROM_FOREST mapping targetProcess = none ↔
      ∃ it ∈ targetProcess, ∃ id ∈ it.1.neighborhood, mapFind mapping id = none) ∧
    (buildGraph .PARMETIS_EDGES_FROM_EDGE_WEIGHTS mapping targetProcess = none ↔
      ∃ it ∈ targetProcess, ∃ id ∈ it.1.data.edgeWeights.map Prod.fst,
        mapFind mapping id = none) ∧
    (∀ (edgeSource_ : EdgeSource) (procs : List (PhantomBlockForest D × (Nat × Nat)))
      (rank : Nat),
      (∀ id ∈ blockIdsOf procs rank, (mapFind mapping id).isSome = true) →
      (∀ q ∈ neighborsOf procs rank, ∀ id ∈ blockIdsOf procs q,
        (mapFind mapping id).isSome = true) →
      (∀ it ∈ targetProcess, ∀ id ∈ referencedIds edgeSource_ it.1,
        id ∈ blockIdsOf procs rank ∨ ∃ q ∈ neighborsOf procs rank, id ∈ blockIdsOf procs q) →
      ∃ g, buildGraph edgeSource_ mapping targetProcess = some g) := by
  refine ⟨buildGraph_eq_none_iff .PARMETIS_EDGES_FROM_FOREST mapping targetProcess,
    buildGraph_eq_none_iff .PARMETIS_EDGES_FROM_EDGE_WEIGHTS mapping targetProcess, ?_⟩
  intro edgeSource_ procs rank hown hnb href
  refine ⟨_, (buildGraph_eq_some_iff edgeSource_ mapping targetProcess _).2 ⟨?_, rfl⟩⟩
  intro it hit id hid
  rcases href it hit id hid with h | ⟨q, hq, h⟩
  · exact hown id h
  · exact hnb q hq id h

/-- The local entries of a block map with distinct keys: the block at position `i` gets the
sequence id `start + i`. -/
theorem mapFind_localEntries_nodup {B : Type} (blockMap : List (BlockID × B))
    (hnd : (blockMap.map Prod.fst).Nodup) (start i : Nat) (b : BlockID × B)
    (hb : blockMap[i]? = some b) :
    mapFind (localEntries start blockMap) b.1 = some (start + i) := by
  have hmem : b.1 ∈ blockMap.map Prod.fst :=
    List.mem_map_of_mem Prod.fst (List.mem_iff_getElem?.2 ⟨i, hb⟩)
  obtain ⟨s, hs⟩ := Option.isSome_iff_exists.1 ((mapFind_localEntries blockMap start b.1).1 hmem)
  obtain ⟨k, hk, hsk⟩ := (mapFind_localEntries blockMap start b.1).2 s hs
  have hi' : (blockMap.map Prod.fst)[i]? = some b.1 := by rw [List.getElem?_map, hb]; rfl
  have hk' : (blockMap.map Prod.fst)[k]? = some b.1 := by rw [List.getElem?_map]; exact hk
  obtain ⟨hlt1, he1⟩ := List.getElem?_eq_some_iff.1 hi'
  obtain ⟨hlt2, he2⟩ := List.getElem?_eq_some_iff.1 hk'
  have hik : i = k := (@List.Nodup.getElem_inj_iff _ _ hnd i hlt1 k hlt2).1 (he1.trans he2.symm)
  rw [hs, hsk, hik]

/-- C23: for a block map `b_0 .. b_{n-1}` (a map, its keys pairwise distinct) and a range
`[s, s + n)`, the loop of lines 61-63 leaves the counter at the end of the range, so the
assertion of line 64 holds and the local map is built in both builds; it maps `b_i` to
`s + i`, holds nothing but the local blocks, maps different blocks to different ids, and every
id of `[s, s + n)` is the id of exactly one block. -/
theorem local_directory_bijection {D : Type} (debug : Bool)
    (phantomForest : PhantomBlockForest D) (s : Nat)
    (hnd : (phantomForest.blockMap.map Prod.fst).Nodup) :
    (assignSequenceIds phantomForest.blockMap ([], s)).2 =
      s + phantomForest.getNumberOfBlocks ∧
    ∃ m : List (BlockID × Nat),
      localMapping debug phantomForest (s, s + phantomForest.getNumberOfBlocks) = some m ∧
      (∀ received : List (List (BlockID × Nat)),
        getBlockIdToSequenceMapping debug phantomForest
          (s, s + phantomForest.getNumberOfBlocks) received = mergeBuffers debug m received) ∧
      (∀ (i : Nat) (b : BlockID × PhantomBlock D), phantomForest.blockMap[i]? = some b →
        mapFind m b.1 = some (s + i)) ∧
      (∀ (id : BlockID) (x : Nat), mapFind m id = some x →
        ∃ (i : Nat) (b : BlockID × PhantomBlock D),
          phantomForest.blockMap[i]? = some b ∧ b.1 = id ∧ x = s + i) ∧
      (∀ (id1 id2 : BlockID) (x : Nat), mapFind m id1 = some x → mapFind m id2 = some x →
        id1 = id2) ∧
      (∀ x : Nat, s ≤ x → x < s + phantomForest.getNumberOfBlocks →
        ∃! id : BlockID, mapFind m id = some x) := by
  have hcount : (assignSequenceIds phantomForest.blockMap ([], s)).2 =
      s + phantomForest.getNumberOfBlocks := by
    rw [assignSequenceIds_eq]; rfl
  have hlocal : localMapping debug phantomForest (s, s + phantomForest.getNumberOfBlocks) =
      some (insertAll [] (localEntries s phantomForest.blockMap)) := by
    unfold localMapping
    simp only [hcount, bne_self_eq_false, Bool.and_false, Bool.false_eq_true, if_false]
    rw [assignSequenceIds_eq]
  have hfind : ∀ key, mapFind (insertAll [] (localEntries s phantomForest.blockMap)) key =
      mapFind (localEntries s phantomForest.blockMap) key := by
    intro key
    rw [mapFind_insertAll]
    simp [mapFind]
  have hfwd : ∀ (i : Nat) (b : BlockID × PhantomBlock D), phantomForest.blockMap[i]? = some b →
      mapFind (insertAll [] (localEntries s phantomForest.blockMap)) b.1 = some (s + i) := by
    intro i b hb
    rw [hfind]
    exact mapFind_localEntries_nodup phantomForest.blockMap hnd s i b hb
  have hback : ∀ (id : BlockID) (x : Nat),
      mapFind (insertAll [] (localEntries s phantomForest.blockMap)) id = some x →
      ∃ (i : Nat) (b : BlockID × PhantomBlock D),
        phantomForest.blockMap[i]? = some b ∧ b.1 = id ∧ x = s + i := by
    intro id x hx
    rw [hfind] at hx
    obtain ⟨k, hk, hxk⟩ := (mapFind_localEntries phantomForest.blockMap s id).2 x hx
    cases hb : phantomForest.blockMap[k]? with
    | none => rw [hb] at hk; simp at hk
    | some b =>
      rw [hb] at hk
      simp only [Option.map_some', Option.some.injEq] at hk
      exact ⟨k, b, hb, hk, hxk⟩
  have hinj : ∀ (id1 id2 : BlockID) (x : Nat),
      mapFind (insertAll [] (localEntries s phantomForest.blockMap)) id1 = some x →
      mapFind (insertAll [] (localEntries s phantomForest.blockMap)) id2 = some x →
      id1 = id2 := by
    intro id1 id2 x h1 h2
    obtain ⟨i1, b1, hb1, rfl, hx1⟩ := hback id1 x h1
    obtain ⟨i2, b2, hb2, rfl, hx2⟩ := hback id2 x h2
    have hii : i1 = i2 := by omega
    subst hii
    rw [hb1] at hb2
    rw [Option.some.inj hb2]
  refine ⟨hcount, _, hlocal, ?_, hfwd, hback, hinj, ?_⟩
  · intro received
    simp only [getBlockIdToSequenceMapping, hlocal]
  · intro x hlo hhi
    have hlt : x - s < phantomForest.blockMap.length := by
      unfold PhantomBlockForest.getNumberOfBlocks at hhi
      omega
    refine ⟨phantomForest.blockMap[x - s].1, ?_, ?_⟩
    · have := hfwd (x - s) phantomForest.blockMap[x - s] (List.getElem?_eq_getElem hlt)
      simp only at this ⊢
      rw [this]
      congr 1
      omega
    · intro id hid
      have h0 := hfwd (x - s) phantomForest.blockMap[x - s] (List.getElem?_eq_getElem hlt)
      have hx : s + (x - s) = x := by omega
      rw [hx] at h0
      exact hinj _ _ x hid h0

/-- Witness of C23: the blocks 10, 11 and 12 with the range `[4, 7)`. -/
theorem local_directory_bijection_witness :
    localMapping true (sampleForest [10, 11, 12] []) (4, 7) =
      some [(10, 4), (11, 5), (12, 6)] ∧
    (assignSequenceIds (sampleForest [10, 11, 12] []).blockMap ([], 4)).2 =
      4 + (sampleForest [10, 11, 12] []).getNumberOfBlocks :=
  ⟨by decide, (local_directory_bijection true (sampleForest [10, 11, 12] []) 4 (by decide)).1⟩

/-! ### Round trip of the algorithm name -/

/-- C27: evaluation of the round trip on the four algorithms.  The names printed for
`PARMETIS_PART_GEOM_KWAY`, `PARMETIS_PART_KWAY` and `PARMETIS_ADAPTIVE_REPART` are parsed back
to the algorithm; the name printed for `PARMETIS_REFINE_KWAY` is `PARMETIS_REFINE_KWAY`, which
`stringToAlgorithm` rejects with its abort message. -/
theorem algorithmToString_round_trip (weightsToUse_ : WeightsToUse) (edgeSource_ : EdgeSource) :
    stringToAlgorithm (DynamicParMetis.algorithmToString
      { algorithm_ := .PARMETIS_PART_GEOM_KWAY, weightsToUse_ := weightsToUse_,
        edgeSource_ := edgeSource_ }) = .ok .PARMETIS_PART_GEOM_KWAY ∧
    stringToAlgorithm (DynamicParMetis.algorithmToString
      { algorithm_ := .PARMETIS_PART_KWAY, weightsToUse_ := weightsToUse_,
        edgeSource_ := edgeSource_ }) = .ok .PARMETIS_PART_KWAY ∧
    stringToAlgorithm (DynamicParMetis.algorithmToString
      { algorithm_ := .PARMETIS_ADAPTIVE_REPART, weightsToUse_ := weightsToUse_,
        edgeSource_ := edgeSource_ }) = .ok .PARMETIS_ADAPTIVE_REPART ∧
    DynamicParMetis.algorithmToString
      { algorithm_ := .PARMETIS_REFINE_KWAY, weightsToUse_ := weightsToUse_,
        edgeSource_ := edgeSource_ } = "PARMETIS_REFINE_KWAY".toList ∧
    stringToAlgorithm (DynamicParMetis.algorithmToString
      { algorithm_ := .PARMETIS_REFINE_KWAY, weightsToUse_ := weightsToUse_,
        edgeSource_ := edgeSource_ }) =
      .error ("Illegal ParMetis algorithm specified (PARMETIS_REFINE_KWAY)! Valid choices are: \"PART_GEOM_KWAY\", \"PART_KWAY\", \"PART_ADAPTIVE_REPART\", or \"REFINE_KWAY\".".toList) ∧
    stringToAlgorithm "REFINE_KWAY".toList = .ok .PARMETIS_REFINE_KWAY :=
  ⟨rfl, rfl, rfl, rfl, rfl, rfl⟩

/-! ### Merging in a release build -/

theorem mapFind_isSome_iff_mem_keys {V : Type} (m : List (BlockID × V)) (key : BlockID) :
    (mapFind m key).isSome = true ↔ key ∈ m.map Prod.fst := by
  induction m with
  | nil => simp [mapFind]
  | cons e rest ih =>
    rw [mapFind_cons, List.map_cons, List.mem_cons]
    by_cases h : e.1 = key
    · simp [h]
    · rw [if_neg h, ih]
      constructor
      · exact Or.inr
      · rintro (h' | h')
        · exact absurd h'.symm h
        · exact h'

theorem localEntries_keys {B : Type} (blockMap : List (BlockID × B)) :
    ∀ start : Nat, (localEntries start blockMap).map Prod.fst = blockMap.map Prod.fst := by
  induction blockMap with
  | nil => intro start; rfl
  | cons b rest ih =>
    intro start
    obtain ⟨id, blk⟩ := b
    simp only [localEntries, List.map_cons, ih]

/-- C28: in a release build, inserting a pair whose block id is in the directory leaves the
directory as it is, and a merge keeps every entry the directory holds; the directory returned
by `getBlockIdToSequenceMapping` holds for every block id the first sequence id recorded for
it, the local one before the received ones and the received ones in the order of arrival, so a
local entry is never overwritten; and its key set is the union of the local key set and the
key sets of all received maps. -/
theorem release_merge_keeps_first {D : Type} (phantomForest : PhantomBlockForest D)
    (blockSequenceRange : Nat × Nat) (received : List (List (BlockID × Nat))) :
    (∀ (mapping : List (BlockID × Nat)) (remoteIt : BlockID × Nat) (v : Nat),
      mapFind mapping remoteIt.1 = some v → mapInsert mapping remoteIt = (mapping, false)) ∧
    (∀ (mapping entries : List (BlockID × Nat)) (key : BlockID) (v : Nat),
      mapFind mapping key = some v →
      ∃ m, mergeRemote false mapping entries = some m ∧ mapFind m key = some v) ∧
    ∃ m : List (BlockID × Nat),
      getBlockIdToSequenceMapping false phantomForest blockSequenceRange received = some m ∧
      (∀ key : BlockID, mapFind m key =
        (mapFind (localEntries blockSequenceRange.1 phantomForest.blockMap) key).or
          (mapFind received.flatten key)) ∧
      (∀ (key : BlockID) (v : Nat),
        mapFind (localEntries blockSequenceRange.1 phantomForest.blockMap) key = some v →
        mapFind m key = some v) ∧
      (∀ key : BlockID, key ∈ m.map Prod.fst ↔
        key ∈ phantomForest.blockMap.map Prod.fst ∨
          ∃ remoteMapping ∈ received, key ∈ remoteMapping.map Prod.fst) := by
  refine ⟨?_, ?_, ?_⟩
  · intro mapping remoteIt v h
    simp only [mapInsert, h]
  · intro mapping entries key v h
    refine ⟨_, mergeRemote_release entries mapping, ?_⟩
    rw [mapFind_insertAll, h]
    rfl
  · obtain ⟨m, hm, hfind⟩ :=
      getBlockIdToSequenceMapping_release phantomForest blockSequenceRange received
    refine ⟨m, hm, hfind, ?_, ?_⟩
    · intro key v h
      rw [hfind, h]
      rfl
    · intro key
      rw [← mapFind_isSome_iff_mem_keys, hfind, Option.isSome_or, Bool.or_eq_true,
        mapFind_isSome_iff_mem_keys, mapFind_isSome_iff_mem_keys, localEntries_keys,
        List.map_flatten, List.mem_flatten]
      constructor
      · rintro (h | ⟨l, hl, hk⟩)
        · exact Or.inl h
        · obtain ⟨b, hb, rfl⟩ := List.mem_map.1 hl
          exact Or.inr ⟨b, hb, hk⟩
      · rintro (h | ⟨b, hb, hk⟩)
        · exact Or.inl h
        · exact Or.inr ⟨_, List.mem_map.2 ⟨b, hb, rfl⟩, hk⟩

/-- Witness of C28: rank 1 of the sample processes holds block 20 and receives the maps of
ranks 0 and 2 and, again, a map naming block 20 with another sequence id. -/
theorem release_merge_keeps_first_witness :
    getBlockIdToSequenceMapping false (sampleForest [20] [0, 2]) (2, 3)
      [[(10, 0), (11, 1)], [(20, 9), (30, 3)], [(30, 8)]] =
      some [(10, 0), (11, 1), (20, 2), (30, 3)] ∧
    ∀ (mapping : List (BlockID × Nat)) (remoteIt : BlockID × Nat) (v : Nat),
      mapFind mapping remoteIt.1 = some v → mapInsert mapping remoteIt = (mapping, false) :=
  ⟨by decide,
    (release_merge_keeps_first (sampleForest [20] [0, 2]) (2, 3)
      [[(10, 0), (11, 1)], [(20, 9), (30, 3)], [(30, 8)]]).1⟩

/-! ### Order of the received maps -/

theorem mapFind_some_mem {V : Type} (m : List (BlockID × V)) (key : BlockID) (v : V)
    (h : mapFind m key = some v) : (key, v) ∈ m := by
  induction m with
  | nil => simp [mapFind] at h
  | cons e rest ih =>
    rw [mapFind_cons] at h
    by_cases hk : e.1 = key
    · rw [if_pos hk] at h
      have hv : e.2 = v := Option.some.inj h
      rw [← hk, ← hv]
      exact List.mem_cons_self _ _
    · rw [if_neg hk] at h
      exact List.mem_cons_of_mem _ (ih h)

/-- An ordered insertion of an absent key keeps the entries strictly ordered by key. -/
theorem pairwise_orderedInsert_key {V : Type} (e : BlockID × V) (m : List (BlockID × V))
    (hs : m.Pairwise (fun a b => a.1 < b.1)) (h : mapFind m e.1 = none) :
    (List.orderedInsert (fun a b => a.1 ≤ b.1) e m).Pairwise (fun a b => a.1 < b.1) := by
  induction m with
  | nil => simp
  | cons a rest ih =>
    rw [mapFind_cons] at h
    have hae : ¬ a.1 = e.1 := by
      intro hc
      rw [if_pos hc] at h
      exact Option.noConfusion h
    rw [if_neg hae] at h
    rw [List.pairwise_cons] at hs
    rw [List.orderedInsert]
    by_cases hle : e.1 ≤ a.1
    · rw [if_pos hle, List.pairwise_cons]
      refine ⟨?_, List.pairwise_cons.2 hs⟩
      intro x hx
      have hlt : e.1 < a.1 := lt_of_le_of_ne hle (fun hc => hae hc.symm)
      rcases List.mem_cons.1 hx with rfl | hr
      · exact hlt
      · exact lt_trans hlt (hs.1 x hr)
    · rw [if_neg hle, List.pairwise_cons]
      refine ⟨?_, ih hs.2 h⟩
      intro x hx
      rcases (List.mem_orderedInsert _).1 hx with hxe | hr
      · rw [hxe]; exact not_le.1 hle
      · exact hs.1 x hr

theorem insertAll_pairwise (entries : List (BlockID × Nat)) :
    ∀ m : List (BlockID × Nat), m.Pairwise (fun a b => a.1 < b.1) →
      (insertAll m entries).Pairwise (fun a b => a.1 < b.1) := by
  induction entries with
  | nil => intro m hm; simpa [insertAll] using hm
  | cons e rest ih =>
    intro m hm
    have hstep : insertAll m (e :: rest) = insertAll (mapInsert m e).1 rest := by
      simp [insertAll]
    rw [hstep]
    apply ih
    unfold mapInsert
    cases hf : mapFind m e.1 with
    | some v => exact hm
    | none => exact pairwise_orderedInsert_key e m hm hf

/-- Two maps whose entries are strictly ordered by key and that hold the same value for every
key are the same list. -/
theorem sorted_map_ext {V : Type} (m1 : List (BlockID × V)) :
    ∀ m2 : List (BlockID × V), m1.Pairwise (fun a b => a.1 < b.1) →
      m2.Pairwise (fun a b => a.1 < b.1) →
      (∀ key, mapFind m1 key = mapFind m2 key) → m1 = m2 := by
  induction m1 with
  | nil =>
    intro m2 _ _ h
    cases m2 with
    | nil => rfl
    | cons b t =>
      have := h b.1
      rw [mapFind_cons, if_pos rfl] at this
      simp [mapFind] at this
  | cons a t1 ih =>
    intro m2 h1 h2 h
    cases m2 with
    | nil =>
      have := h a.1
      rw [mapFind_cons, if_pos rfl] at this
      simp [mapFind] at this
    | cons b t2 =>
      rw [List.pairwise_cons] at h1 h2
      have hkey : a.1 = b.1 := by
        have ha := h a.1
        have hb := h b.1
        rw [mapFind_cons, mapFind_cons, if_pos rfl] at ha
        rw [mapFind_cons, mapFind_cons, if_pos rfl] at hb
        by_contra hne
        rw [if_neg (fun hc => hne hc.symm)] at ha
        rw [if_neg hne] at hb
        have h3 := h2.1 _ (mapFind_some_mem t2 a.1 a.2 ha.symm)
        have h4 := h1.1 _ (mapFind_some_mem t1 b.1 b.2 hb)
        exact lt_asymm h3 h4
      have hval : a.2 = b.2 := by
        have ha := h a.1
        rw [mapFind_cons, mapFind_cons, if_pos rfl, if_pos hkey.symm] at ha
        exact Option.some.inj ha
      have hab : a = b := Prod.ext hkey hval
      subst hab
      have htail : ∀ key, mapFind t1 key = mapFind t2 key := by
        intro key
        have hk := h key
        rw [mapFind_cons, mapFind_cons] at hk
        by_cases hak : a.1 = key
        · have n1 : mapFind t1 key = none := by
            cases hf : mapFind t1 key with
            | none => rfl
            | some v =>
              have hlt := h1.1 _ (mapFind_some_mem t1 key v hf)
              rw [hak] at hlt
              exact absurd hlt (lt_irrefl _)
          have n2 : mapFind t2 key = none := by
            cases hf : mapFind t2 key with
            | none => rfl
            | some v =>
              have hlt := h2.1 _ (mapFind_some_mem t2 key v hf)
              rw [hak] at hlt
              exact absurd hlt (lt_irrefl _)
          rw [n1, n2]
        · rwa [if_neg hak, if_neg hak] at hk
      rw [ih t2 h1.2 h2.2 htail]

theorem mergeRemote_append (debug : Bool) (l1 l2 : List (BlockID × Nat)) :
    ∀ m : List (BlockID × Nat),
      mergeRemote debug m (l1 ++ l2) =
        (mergeRemote debug m l1).bind (fun m1 => mergeRemote debug m1 l2) := by
  induction l1 with
  | nil => intro m; simp [mergeRemote]
  | cons e rest ih =>
    intro m
    simp only [List.cons_append, mergeRemote]
    split
    · rfl
    · exact ih _

/-- Merging the received maps one after the other is merging their concatenation. -/
theorem mergeBuffers_eq_mergeRemote (debug : Bool) (buffers : List (List (BlockID × Nat))) :
    ∀ m : List (BlockID × Nat),
      mergeBuffers debug m buffers = mergeRemote debug m buffers.flatten := by
  induction buffers with
  | nil => intro m; simp [mergeBuffers, mergeRemote]
  | cons b rest ih =>
    intro m
    rw [List.flatten_cons, mergeRemote_append]
    simp only [mergeBuffers]
    cases mergeRemote debug m b with
    | none => rfl
    | some m1 => exact ih m1

/-- In a debug build a merge returns exactly when no incoming key is in the map and the
incoming keys are pairwise distinct. -/
theorem mergeRemote_debug_isSome_iff (entries : List (BlockID × Nat)) :
    ∀ m : List (BlockID × Nat),
      (mergeRemote true m entries).isSome = true ↔
        (∀ e ∈ entries, mapFind m e.1 = none) ∧ (entries.map Prod.fst).Nodup := by
  induction entries with
  | nil => intro m; simp [mergeRemote]
  | cons e rest ih =>
    intro m
    simp only [mergeRemote, mapInsert]
    cases hm : mapFind m e.1 with
    | some v =>
      simp only [Bool.not_false, Bool.and_self, if_true, Option.isSome_none,
        Bool.false_eq_true, false_iff, not_and]
      intro hall
      have := hall e (List.mem_cons_self _ _)
      rw [hm] at this
      exact Option.noConfusion this
    | none =>
      simp only [Bool.not_true, Bool.and_false, Bool.false_eq_true, if_false]
      rw [ih, List.map_cons, List.nodup_cons]
      constructor
      · rintro ⟨hall, hnd⟩
        refine ⟨?_, ?_, hnd⟩
        · intro e' he'
          rcases List.mem_cons.1 he' with rfl | hr
          · exact hm
          · have := hall e' hr
            rw [mapFind_orderedInsert e m e'.1 hm] at this
            by_cases hk : e.1 = e'.1
            · rw [if_pos hk] at this; exact Option.noConfusion this
            · rwa [if_neg hk] at this
        · intro hmem
          obtain ⟨e', he', hk⟩ := List.mem_map.1 hmem
          have := hall e' he'
          rw [mapFind_orderedInsert e m e'.1 hm, if_pos hk.symm] at this
          exact Option.noConfusion this
      · rintro ⟨hall, hnot, hnd⟩
        refine ⟨?_, hnd⟩
        intro e' he'
        rw [mapFind_orderedInsert e m e'.1 hm]
        have hk : ¬ e.1 = e'.1 := fun hc => hnot (hc ▸ List.mem_map_of_mem Prod.fst he')
        rw [if_neg hk]
        exact hall e' (List.mem_cons_of_mem _ he')

/-- Looking a key up in the concatenation of maps that agree on every common key does not
depend on the order of the maps. -/
theorem mapFind_flatten_perm (L L' : List (List (BlockID × Nat))) (hperm : L'.Perm L)
    (hfree : ∀ a ∈ L, ∀ b ∈ L, ∀ (key : BlockID) (v w : Nat),
      mapFind a key = some v → mapFind b key = some w → v = w) (key : BlockID) :
    mapFind L'.flatten key = mapFind L.flatten key := by
  cases h : mapFind L.flatten key with
  | none =>
    cases h' : mapFind L'.flatten key with
    | none => rfl
    | some w =>
      obtain ⟨l, hl, hlw⟩ := mapFind_flatten_some L' key w h'
      have := mapFind_flatten_isSome L key l (hperm.mem_iff.1 hl) (by rw [hlw]; rfl)
      rw [h] at this
      exact Bool.noConfusion this
  | some v =>
    obtain ⟨l, hl, hlv⟩ := mapFind_flatten_some L key v h
    have hsome := mapFind_flatten_isSome L' key l (hperm.mem_iff.2 hl) (by rw [hlv]; rfl)
    obtain ⟨w, hw⟩ := Option.isSome_iff_exists.1 hsome
    obtain ⟨l', hl', hlw⟩ := mapFind_flatten_some L' key w hw
    rw [hw, hfree l hl l' (hperm.mem_iff.1 hl') key v w hlv hlw]

/-- C25: for a local map (its entries in key order) and received maps such that no block id is
mapped to two different sequence ids across the local and the received maps, merging the
received maps in any other order gives the same result, in a release build and in a debug
build; the release build returns a directory, it maps a block id to a sequence id exactly when
one of the maps does (the union of the maps), and a directory returned by the debug build is
that same directory. -/
theorem merge_order_independent (debug : Bool) (mapping : List (BlockID × Nat))
    (received received' : List (List (BlockID × Nat)))
    (hsorted : mapping.Pairwise (fun a b => a.1 < b.1))
    (hperm : received'.Perm received)
    (hfree : ∀ a ∈ mapping :: received, ∀ b ∈ mapping :: received, ∀ e ∈ a, ∀ e' ∈ b,
      e.1 = e'.1 → e.2 = e'.2) :
    mergeBuffers debug mapping received' = mergeBuffers debug mapping received ∧
    ∃ m : List (BlockID × Nat),
      mergeBuffers false mapping received = some m ∧
      (∀ (key : BlockID) (v : Nat), mapFind m key = some v ↔
        ∃ a ∈ mapping :: received, mapFind a key = some v) ∧
      (∀ m' : List (BlockID × Nat), mergeBuffers debug mapping received = some m' → m' = m) := by
  have hfree' : ∀ a ∈ mapping :: received, ∀ b ∈ mapping :: received,
      ∀ (key : BlockID) (v w : Nat), mapFind a key = some v → mapFind b key = some w →
        v = w := by
    intro a ha b hb key v w hv hw
    exact hfree a ha b hb _ (mapFind_some_mem a key v hv) _ (mapFind_some_mem b key w hw) rfl
  have hflat : ∀ key, mapFind received'.flatten key = mapFind received.flatten key :=
    mapFind_flatten_perm received received' hperm
      (fun a ha b hb => hfree' a (List.mem_cons_of_mem _ ha) b (List.mem_cons_of_mem _ hb))
  have hrel : insertAll mapping received'.flatten = insertAll mapping received.flatten := by
    apply sorted_map_ext _ _ (insertAll_pairwise _ _ hsorted) (insertAll_pairwise _ _ hsorted)
    intro key
    rw [mapFind_insertAll, mapFind_insertAll, hflat]
  have hdebug : mergeBuffers true mapping received' = mergeBuffers true mapping received := by
    rw [mergeBuffers_eq_mergeRemote, mergeBuffers_eq_mergeRemote]
    have hp : received'.flatten.Perm received.flatten := hperm.flatten
    have hiff : (mergeRemote true mapping received'.flatten).isSome = true ↔
        (mergeRemote true mapping received.flatten).isSome = true := by
      rw [mergeRemote_debug_isSome_iff, mergeRemote_debug_isSome_iff]
      constructor
      · rintro ⟨hall, hnd⟩
        exact ⟨fun e he => hall e (hp.mem_iff.2 he), ((hp.map Prod.fst).nodup_iff).1 hnd⟩
      · rintro ⟨hall, hnd⟩
        exact ⟨fun e he => hall e (hp.mem_iff.1 he), ((hp.map Prod.fst).nodup_iff).2 hnd⟩
    cases h1 : mergeRemote true mapping received'.flatten with
    | none =>
      cases h2 : mergeRemote true mapping received.flatten with
      | none => rfl
      | some m2 =>
        have := hiff.2 (by rw [h2]; rfl)
        rw [h1] at this
        exact Bool.noConfusion this
    | some m1 =>
      cases h2 : mergeRemote true mapping received.flatten with
      | none =>
        have := hiff.1 (by rw [h1]; rfl)
        rw [h2] at this
        exact Bool.noConfusion this
      | some m2 =>
        have e1 := mergeRemote_debug true _ _ _ h1
        have e2 := mergeRemote_debug true _ _ _ h2
        rw [mergeRemote_release] at e1 e2
        rw [← Option.some.inj e1, ← Option.some.inj e2, hrel]
  refine ⟨?_, insertAll mapping received.flatten, mergeBuffers_release received mapping, ?_, ?_⟩
  · cases debug
    · rw [mergeBuffers_release, mergeBuffers_release, hrel]
    · exact hdebug
  · intro key v
    rw [mapFind_insertAll]
    constructor
    · intro h
      rw [Option.or_eq_some] at h
      rcases h with h | ⟨_, h⟩
      · exact ⟨mapping, List.mem_cons_self _ _, h⟩
      · obtain ⟨l, hl, hlv⟩ := mapFind_flatten_some received key v h
        exact ⟨l, List.mem_cons_of_mem _ hl, hlv⟩
    · rintro ⟨a, ha, hav⟩
      cases hm : mapFind mapping key with
      | some w =>
        rw [hfree' mapping (List.mem_cons_self _ _) a ha key w v hm hav]
        rfl
      | none =>
        rcases List.mem_cons.1 ha with rfl | hr
        · rw [hm] at hav; exact Option.noConfusion hav
        · have hsome := mapFind_flatten_isSome received key a hr (by rw [hav]; rfl)
          obtain ⟨w, hw⟩ := Option.isSome_iff_exists.1 hsome
          obtain ⟨l, hl, hlw⟩ := mapFind_flatten_some received key w hw
          rw [Option.none_or, hw,
            hfree' l (List.mem_cons_of_mem _ hl) a ha key w v hlw hav]
  · intro m' hm'
    have := mergeBuffers_debug debug received mapping m' hm'
    rw [mergeBuffers_release] at this
    exact (Option.some.inj this).symm

/-- Witness of C25: the local map of block 20 and two received maps, merged in both orders. -/
theorem merge_order_independent_witness :
    mergeBuffers true [(20, 2)] [[(30, 3)], [(10, 0), (11, 1)]] =
      some [(10, 0), (11, 1), (20, 2), (30, 3)] ∧
    mergeBuffers true [(20, 2)] [[(30, 3)], [(10, 0), (11, 1)]] =
      mergeBuffers true [(20, 2)] [[(10, 0), (11, 1)], [(30, 3)]] :=
  ⟨by decide,
    (merge_order_independent true [(20, 2)] [[(10, 0), (11, 1)], [(30, 3)]]
      [[(30, 3)], [(10, 0), (11, 1)]] (by decide) (by decide) (by decide)).1⟩

/-! ### Graph rows, sequence ids and global vertex ids -/

/-- The adjacency row of a block whose referenced ids all resolve: the sequence ids of the
referenced ids, in order. -/
theorem edgeRow_fst {D : Type} (edgeSource_ : EdgeSource) (mapping : List (BlockID × Nat))
    (block : PhantomBlock D)
    (h : ∀ id ∈ referencedIds edgeSource_ block, (mapFind mapping id).isSome = true) :
    (edgeRow edgeSource_ mapping block).1 =
      (referencedIds edgeSource_ block).map (fun id => int64_c ((mapFind mapping id).getD 0)) := by
  cases edgeSource_
  · simp only [referencedIds] at h
    simp only [edgeRow, blockEdges, emitEdges, forestEdges_nil, referencedIds]
    rw [if_pos h]
    rfl
  · simp only [referencedIds] at h
    simp only [edgeRow, blockEdges, emitEdges, edgeWeightEdges_nil, referencedIds]
    rw [if_pos h]
    simp [List.map_map, Function.comp_def]

/-- The range of a process of a communicator whose ranges are those of
`getBlockSequenceRange`: it starts at the number of blocks of the lower ranks. -/
theorem range_of_proc {D : Type} (undef : Nat)
    (procs : List (PhantomBlockForest D × (Nat × Nat)))
    (hranges : procs.map Prod.snd = blockSequenceRanges undef (procs.map Prod.fst))
    (q : Nat) (f : PhantomBlockForest D) (r : Nat × Nat) (hq : procs[q]? = some (f, r)) :
    r.1 = ((procs.map (fun p => p.1.getNumberOfBlocks)).take q).sum ∧
    r.1 + f.getNumberOfBlocks ≤ (procs.map (fun p => p.1.getNumberOfBlocks)).sum := by
  obtain ⟨hlt, hget⟩ := List.getElem?_eq_some.1 hq
  have h1 : (procs.map Prod.snd)[q]? = some r := by rw [List.getElem?_map, hq]; rfl
  rw [hranges, blockSequenceRanges_getElem? undef _ q (by simpa using hlt)] at h1
  simp only [List.map_map, Option.some.injEq] at h1
  have hcs : (PhantomBlockForest.getNumberOfBlocks ∘ Prod.fst :
      PhantomBlockForest D × (Nat × Nat) → Nat) = fun p => p.1.getNumberOfBlocks := rfl
  rw [hcs] at h1
  have hr1 : r.1 = ((procs.map (fun p => p.1.getNumberOfBlocks)).take q).sum := by
    rw [← h1]
  refine ⟨hr1, ?_⟩
  have hlt' : q < (procs.map (fun p => p.1.getNumberOfBlocks)).length := by simpa using hlt
  have h2 := List.sum_take_succ (procs.map (fun p => p.1.getNumberOfBlocks)) q hlt'
  have h3 : ((procs.map (fun p => p.1.getNumberOfBlocks)).take (q + 1)).sum ≤
      ((procs.map (fun p => p.1.getNumberOfBlocks)).take
        (procs.map (fun p => p.1.getNumberOfBlocks)).length).sum :=
    List.monotone_sum_take _ (by omega)
  rw [List.take_length] at h3
  have h4 : (procs.map (fun p => p.1.getNumberOfBlocks))[q] = f.getNumberOfBlocks := by
    simp [hget]
  omega

/-- The ranges of two different processes share no sequence id. -/
theorem ranges_disjoint {D : Type} (undef : Nat)
    (procs : List (PhantomBlockForest D × (Nat × Nat)))
    (hranges : procs.map Prod.snd = blockSequenceRanges undef (procs.map Prod.fst))
    (q1 q2 : Nat) (f1 f2 : PhantomBlockForest D) (r1 r2 : Nat × Nat)
    (h1 : procs[q1]? = some (f1, r1)) (h2 : procs[q2]? = some (f2, r2)) (k1 k2 : Nat)
    (hk1 : k1 < f1.getNumberOfBlocks) (hk2 : k2 < f2.getNumberOfBlocks)
    (heq : r1.1 + k1 = r2.1 + k2) : q1 = q2 := by
  obtain ⟨hs1, _⟩ := range_of_proc undef procs hranges q1 f1 r1 h1
  obtain ⟨hs2, _⟩ := range_of_proc undef procs hranges q2 f2 r2 h2
  have hl1 : q1 < (procs.map (fun p => p.1.getNumberOfBlocks)).length := by
    simpa using (List.getElem?_eq_some.1 h1).1
  have hl2 : q2 < (procs.map (fun p => p.1.getNumberOfBlocks)).length := by
    simpa using (List.getElem?_eq_some.1 h2).1
  have hd1 : (procs.map (fun p => p.1.getNumberOfBlocks)).getD q1 0 = f1.getNumberOfBlocks := by
    simp [List.getD, List.getElem?_map, h1]
  have hd2 : (procs.map (fun p => p.1.getNumberOfBlocks)).getD q2 0 = f2.getNumberOfBlocks := by
    simp [List.getD, List.getElem?_map, h2]
  rcases Nat.lt_trichotomy q1 q2 with hlt | heq' | hgt
  · have := prefix_interval_le (procs.map (fun p => p.1.getNumberOfBlocks)) q1 q2 hlt hl1
    omega
  · exact heq'
  · have := prefix_interval_le (procs.map (fun p => p.1.getNumberOfBlocks)) q2 q1 hgt hl2
    omega

/-- C24 (amended): on a sub-communicator whose ranges are those of `getBlockSequenceRange`,
row `i` of every graph the builder returns describes entry `i` of `targetProcess` (offsets,
adjacency slice, vertex weight, vertex size, coordinates); the directory of the rank maps entry
`i` of the block map to `rangeStart + i`, where `rangeStart` is `vtxdist[subRank]`; and entry
`i` of `targetProcess` is, for every `i`, the block with sequence id `rangeStart + i`, with one
entry per block, exactly when `targetProcess` lists the blocks of the rank in block-map order,
the order in which the sequence ids were assigned: then and only then vertex `i` of the local
graph is global vertex `vtxdist[subRank] + i`. -/
theorem graph_rows_follow_sequence_ids {D : Type} (debug : Bool) (edgeSource_ : EdgeSource)
    (undef : Nat) (procs : List (PhantomBlockForest D × (Nat × Nat))) (arrival : List Nat)
    (subRank : Nat) (phantomForest : PhantomBlockForest D) (blockSequenceRange : Nat × Nat)
    (mapping : List (BlockID × Nat)) (targetProcess : List (PhantomBlock D × Nat))
    (g : GraphArrays D)
    (hranges : procs.map Prod.snd = blockSequenceRanges undef (procs.map Prod.fst))
    (hproc : procs[subRank]? = some (phantomForest, blockSequenceRange))
    (hnd : (phantomForest.blockMap.map Prod.fst).Nodup)
    (hdir : directoryOnRank debug procs arrival subRank = some mapping)
    (hg : buildGraph edgeSource_ mapping targetProcess = some g) :
    (vtxdistOf undef (procs.map Prod.fst))[subRank]? = some (blockSequenceRange.1 : Int) ∧
    (∀ (i : Nat) (it : PhantomBlock D × Nat), targetProcess[i]? = some it →
      (∃ lo : Nat, g.xadj[i]? = some (lo : Int) ∧
        g.xadj[i + 1]? = some ((lo + (edgeRow edgeSource_ mapping it.1).1.length : Nat) : Int) ∧
        (g.adjncy.take (lo + (edgeRow edgeSource_ mapping it.1).1.length)).drop lo =
          (edgeRow edgeSource_ mapping it.1).1) ∧
      g.vwgt[i]? = some it.1.data.vertexWeight ∧
      g.vsize[i]? = some it.1.data.vertexSize ∧
      g.xyz[3 * i]? = some it.1.data.vertexCoords.c0 ∧
      g.xyz[3 * i + 1]? = some it.1.data.vertexCoords.c1 ∧
      g.xyz[3 * i + 2]? = some it.1.data.vertexCoords.c2) ∧
    (∀ (i : Nat) (b : BlockID × PhantomBlock D), phantomForest.blockMap[i]? = some b →
      mapFind mapping b.1 = some (blockSequenceRange.1 + i)) ∧
    (targetProcess.map (fun it => it.1.id) = phantomForest.blockMap.map Prod.fst ↔
      targetProcess.length = phantomForest.getNumberOfBlocks ∧
      ∀ (i : Nat) (it : PhantomBlock D × Nat), targetProcess[i]? = some it →
        mapFind mapping it.1.id = some (blockSequenceRange.1 + i)) := by
  obtain ⟨hstart, _⟩ := range_of_proc undef procs hranges subRank phantomForest
    blockSequenceRange hproc
  have hlt : subRank < procs.length := (List.getElem?_eq_some.1 hproc).1
  have hrel := directoryOnRank_debug debug procs arrival subRank mapping hdir
  obtain ⟨f, r, received, hp, _, hfind⟩ :=
    directoryOnRank_release procs arrival subRank mapping hrel
  rw [hproc] at hp
  simp only [Option.some.injEq, Prod.mk.injEq] at hp
  obtain ⟨rfl, rfl⟩ := hp
  have hlocal : ∀ (i : Nat) (b : BlockID × PhantomBlock D),
      phantomForest.blockMap[i]? = some b →
      mapFind mapping b.1 = some (blockSequenceRange.1 + i) := by
    intro i b hb
    rw [hfind, mapFind_localEntries_nodup phantomForest.blockMap hnd blockSequenceRange.1 i b hb]
    rfl
  refine ⟨?_, ?_, hlocal, ?_, ?_⟩
  · rw [vtxdistOf_getElem? undef _ subRank (by simp; omega), hstart]
    simp [List.map_map, Function.comp_def]
  · intro i it hit
    obtain ⟨lo, h1, h2, h3, _⟩ := buildGraph_row edgeSource_ mapping targetProcess g hg i it hit
    obtain ⟨_, rfl⟩ := (buildGraph_eq_some_iff _ _ _ _).1 hg
    have htri := (triples_getElem?
      (fun it : PhantomBlock D × Nat => it.1.data.vertexCoords.c0)
      (fun it => it.1.data.vertexCoords.c1) (fun it => it.1.data.vertexCoords.c2)
      targetProcess).2 i it hit
    refine ⟨⟨lo, h1, h2, h3⟩, ?_, ?_, htri⟩
    · simp [closedGraph, hit]
    · simp [closedGraph, hit]
  · intro horder
    refine ⟨?_, ?_⟩
    · have := congrArg List.length horder
      simpa [PhantomBlockForest.getNumberOfBlocks] using this
    · intro i it hit
      have hid : (phantomForest.blockMap.map Prod.fst)[i]? = some it.1.id := by
        rw [← horder, List.getElem?_map, hit]
        rfl
      rw [List.getElem?_map] at hid
      cases hb : phantomForest.blockMap[i]? with
      | none => rw [hb] at hid; simp at hid
      | some b =>
        rw [hb] at hid
        simp only [Option.map_some', Option.some.injEq] at hid
        rw [← hid]
        exact hlocal i b hb
  · rintro ⟨hlen, hall⟩
    apply List.ext_getElem?
    intro i
    rw [List.getElem?_map, List.getElem?_map]
    by_cases hi : i < targetProcess.length
    · have hi' : i < phantomForest.blockMap.length := by
        unfold PhantomBlockForest.getNumberOfBlocks at hlen
        omega
      have hit : targetProcess[i]? = some targetProcess[i] := List.getElem?_eq_getElem hi
      have hb : phantomForest.blockMap[i]? = some phantomForest.blockMap[i] :=
        List.getElem?_eq_getElem hi'
      rw [hit, hb]
      simp only [Option.map_some', Option.some.injEq]
      have hs := hall i _ hit
      obtain ⟨owner, fo, ro, k, ho, hk, hsk⟩ :=
        directoryOnRank_sound procs arrival subRank mapping hrel _ _ hs
      have hklt : k < fo.getNumberOfBlocks := by
        cases hbk : fo.blockMap[k]? with
        | none => rw [hbk] at hk; simp at hk
        | some b => exact (List.getElem?_eq_some.1 hbk).1
      have hown : owner = subRank :=
        ranges_disjoint undef procs hranges owner subRank fo phantomForest ro
          blockSequenceRange ho hproc k i hklt hi' hsk.symm
      subst hown
      rw [hproc] at ho
      simp only [Option.some.injEq, Prod.mk.injEq] at ho
      obtain ⟨rfl, rfl⟩ := ho
      have hki : k = i := by omega
      subst hki
      rw [hb] at hk
      simp only [Option.map_some', Option.some.injEq] at hk
      exact hk.symm
    · have hi' : ¬ i < phantomForest.blockMap.length := by
        unfold PhantomBlockForest.getNumberOfBlocks at hlen
        omega
      rw [List.getElem?_eq_none (by omega), List.getElem?_eq_none (by omega)]
      rfl

/-- Witness of C24: rank 1 of the sample processes with the block 20 and the range `[2, 3)`;
`targetProcess` holds that block, which is vertex 0 of the local graph and global vertex 2. -/
theorem graph_rows_follow_sequence_ids_witness :
    directoryOnRank true sampleProcs [2, 0] 1 =
      some [(10, 0), (11, 1), (20, 2), (30, 3), (31, 4)] ∧
    (vtxdistOf 7 (sampleProcs.map Prod.fst))[1]? = some (((2, 3) : Nat × Nat).1 : Int) ∧
    ([(sampleBlock 20 [10, 30] [], 1)].length = (sampleForest [20] [0, 2]).getNumberOfBlocks ∧
      ∀ (i : Nat) (it : PhantomBlock Int × Nat),
        [(sampleBlock 20 [10, 30] [], 1)][i]? = some it →
        mapFind [(10, 0), (11, 1), (20, 2), (30, 3), (31, 4)] it.1.id =
          some (((2, 3) : Nat × Nat).1 + i)) :=
  ⟨by decide,
    (graph_rows_follow_sequence_ids true .PARMETIS_EDGES_FROM_FOREST 7 sampleProcs [2, 0] 1
      (sampleForest [20] [0, 2]) (2, 3) [(10, 0), (11, 1), (20, 2), (30, 3), (31, 4)]
      [(sampleBlock 20 [10, 30] [], 1)]
      (closedGraph .PARMETIS_EDGES_FROM_FOREST [(10, 0), (11, 1), (20, 2), (30, 3), (31, 4)]
        [(sampleBlock 20 [10, 30] [], 1)])
      (by decide) (by decide) (by decide) (by decide) (by decide)).1,
    (graph_rows_follow_sequence_ids true .PARMETIS_EDGES_FROM_FOREST 7 sampleProcs [2, 0] 1
      (sampleForest [20] [0, 2]) (2, 3) [(10, 0), (11, 1), (20, 2), (30, 3), (31, 4)]
      [(sampleBlock 20 [10, 30] [], 1)]
      (closedGraph .PARMETIS_EDGES_FROM_FOREST [(10, 0), (11, 1), (20, 2), (30, 3), (31, 4)]
        [(sampleBlock 20 [10, 30] [], 1)])
      (by decide) (by decide) (by decide) (by decide) (by decide)).2.2.2.1 (by decide)⟩

/-- Counterexample to C24 as stated: one rank owns the blocks 10 and 11 with the range
`[0, 2)`, so its directory maps block 10 to 0 and block 11 to 1; `targetProcess` lists block 11
before block 10.  The builder returns a graph whose row 0 describes block 11 (its one edge, to
block 10), the entry 0 of `targetProcess`, and the sequence id of that block is 1, not
`rangeStart + 0 = 0`. -/
theorem graph_rows_out_of_block_map_order :
    [(sampleForest [10, 11] [], ((0, 2) : Nat × Nat))].map Prod.snd =
      blockSequenceRanges 7 ([(sampleForest [10, 11] [], ((0, 2) : Nat × Nat))].map Prod.fst) ∧
    directoryOnRank true [(sampleForest [10, 11] [], (0, 2))] [] 0 = some [(10, 0), (11, 1)] ∧
    buildGraph .PARMETIS_EDGES_FROM_FOREST [(10, 0), (11, 1)]
      [(sampleBlock 11 [10] [], 0), (sampleBlock 10 [] [], 0)] =
      some { adjncy := [0], xadj := [0, 1, 1], vsize := [3, 3], vwgt := [2, 2], adjwgt := [0],
             xyz := [10, 20, 30, 10, 20, 30] } ∧
    mapFind [(10, 0), (11, 1)] (sampleBlock 11 [10] [], 0).1.id = some 1 ∧
    ¬ ∀ (i : Nat) (it : PhantomBlock Int × Nat),
      [(sampleBlock 11 [10] [], 0), (sampleBlock 10 [] [], 0)][i]? = some it →
      mapFind [(10, 0), (11, 1)] it.1.id = some (((0, 2) : Nat × Nat).1 + i) :=
  ⟨by decide, by decide, by decide, by decide,
    fun h => absurd (h 0 (sampleBlock 11 [10] [], 0) rfl) (by decide)⟩

/-- C29: on a sub-communicator of `S` block-owning processes with globally unique block ids
whose ranges are those of `getBlockSequenceRange` (they tile `[0, N)`, `N = vtxdist[S]` the
total number of blocks), every entry of the adjacency array of a graph built from the directory
of a rank lies in `[0, N)`; it is the directory's sequence id of an id referenced by a block of
`targetProcess`, and that is the sequence id the local mapping of the block's owner holds for
it. -/
theorem adjncy_valid_vertex_ids {D : Type} (debug : Bool) (edgeSource_ : EdgeSource)
    (undef : Nat) (procs : List (PhantomBlockForest D × (Nat × Nat))) (arrival : List Nat)
    (rank : Nat) (mapping : List (BlockID × Nat)) (targetProcess : List (PhantomBlock D × Nat))
    (g : GraphArrays D)
    (hranges : procs.map Prod.snd = blockSequenceRanges undef (procs.map Prod.fst))
    (hunique : ((procs.map (fun p => p.1.blockMap.map Prod.fst)).flatten).Nodup)
    (hdir : directoryOnRank debug procs arrival rank = some mapping)
    (hg : buildGraph edgeSource_ mapping targetProcess = some g) :
    (vtxdistOf undef (procs.map Prod.fst))[procs.length]? =
      some (((procs.map (fun p => p.1.getNumberOfBlocks)).sum : Nat) : Int) ∧
    ∀ (j : Nat) (a : Int), g.adjncy[j]? = some a →
      0 ≤ a ∧ a < (((procs.map (fun p => p.1.getNumberOfBlocks)).sum : Nat) : Int) ∧
      ∃ it ∈ targetProcess, ∃ id ∈ referencedIds edgeSource_ it.1, ∃ s : Nat,
        mapFind mapping id = some s ∧ a = (s : Int) ∧
        ∃ (owner : Nat) (fo : PhantomBlockForest D) (ro : Nat × Nat)
          (lm : List (BlockID × Nat)),
          procs[owner]? = some (fo, ro) ∧ id ∈ fo.blockMap.map Prod.fst ∧
          localMapping false fo ro = some lm ∧ mapFind lm id = some s := by
  refine ⟨?_, ?_⟩
  · rw [vtxdistOf_getElem? undef _ procs.length (by simp)]
    simp [List.map_map, Function.comp_def, List.take_of_length_le]
  · intro j a hja
    obtain ⟨hres, rfl⟩ := (buildGraph_eq_some_iff _ _ _ _).1 hg
    have hmem : a ∈ (closedGraph edgeSource_ mapping targetProcess).adjncy :=
      List.mem_iff_getElem?.2 ⟨j, hja⟩
    simp only [closedGraph, List.mem_flatten, List.mem_map] at hmem
    obtain ⟨row, ⟨it, hit, rfl⟩, harow⟩ := hmem
    rw [edgeRow_fst edgeSource_ mapping it.1 (hres it hit), List.mem_map] at harow
    obtain ⟨id, hid, rfl⟩ := harow
    obtain ⟨s, hs⟩ := Option.isSome_iff_exists.1 (hres it hit id hid)
    have hrel := directoryOnRank_debug debug procs arrival rank mapping hdir
    obtain ⟨owner, fo, ro, k, ho, hk, hsk⟩ :=
      directoryOnRank_sound procs arrival rank mapping hrel id s hs
    obtain ⟨hstart, hend⟩ := range_of_proc undef procs hranges owner fo ro ho
    have hklt : k < fo.getNumberOfBlocks := by
      cases hb : fo.blockMap[k]? with
      | none => rw [hb] at hk; simp at hk
      | some b => exact (List.getElem?_eq_some.1 hb).1
    have hidmem : id ∈ fo.blockMap.map Prod.fst :=
      List.mem_iff_getElem?.2 ⟨k, by rw [List.getElem?_map]; exact hk⟩
    have hndo : (fo.blockMap.map Prod.fst).Nodup :=
      (List.nodup_flatten.1 hunique).1 _
        (List.mem_map.2 ⟨(fo, ro), List.mem_iff_getElem?.2 ⟨owner, ho⟩, rfl⟩)
    have hlm : mapFind (insertAll [] (localEntries ro.1 fo.blockMap)) id = some s := by
      rw [mapFind_insertAll]
      simp only [mapFind, Option.none_or]
      cases hb : fo.blockMap[k]? with
      | none => rw [hb] at hk; simp at hk
      | some b =>
        rw [hb] at hk
        simp only [Option.map_some', Option.some.injEq] at hk
        have := mapFind_localEntries_nodup fo.blockMap hndo ro.1 k b hb
        rw [hk] at this
        rw [this, hsk]
    simp only [hs, Option.getD_some, int64_c]
    refine ⟨by omega, by omega, it, hit, id, hid, s, hs, rfl, owner, fo, ro, _, ho, hidmem,
      localMapping_release fo ro, hlm⟩

/-- Witness of C29: the graph of rank 1 of the sample processes, whose block 20 has the
neighbours 10 and 30. -/
theorem adjncy_valid_vertex_ids_witness :
    buildGraph .PARMETIS_EDGES_FROM_FOREST [(10, 0), (11, 1), (20, 2), (30, 3), (31, 4)]
      [(sampleBlock 20 [10, 30] [], 1)] =
      some { adjncy := [0, 3], xadj := [0, 2], vsize := [3], vwgt := [2], adjwgt := [0, 0],
             xyz := [10, 20, 30] } ∧
    (vtxdistOf 7 (sampleProcs.map Prod.fst))[sampleProcs.length]? =
      some (((sampleProcs.map (fun p => p.1.getNumberOfBlocks)).sum : Nat) : Int) :=
  ⟨by decide,
    (adjncy_valid_vertex_ids true .PARMETIS_EDGES_FROM_FOREST 7 sampleProcs [2, 0] 1
      [(10, 0), (11, 1), (20, 2), (30, 3), (31, 4)] [(sampleBlock 20 [10, 30] [], 1)]
      { adjncy := [0, 3], xadj := [0, 2], vsize := [3], vwgt := [2], adjwgt := [0, 0],
        xyz := [10, 20, 30] }
      (by decide) (by decide) (by decide) (by decide)).1⟩

/-! ### The collectives of a pass that returns -/

theorem onSubCommunicator_operation {D : Type} (e : Event D) :
    e.onSubCommunicator = e.operation.onSubCommunicator := by
  cases e <;> rfl

/-- A partitioner phase that has a result issued the four operations of the sub-communicator,
in the order of the source. -/
theorem partitionerPhaseTraced_operations {D : Type} (self : DynamicParMetis) (debug : Bool)
    (core : ParMetisWrapper D) (fp : DoubleValues D) (numProcesses : Nat) (mpi : Collectives)
    (targetProcess : List (PhantomBlock D × Nat)) (phantomForest : PhantomBlockForest D)
    (part part' : List Int) :
    (partitionerPhaseTraced self debug core fp numProcesses mpi targetProcess phantomForest
      part).2 = some part' →
    (partitionerPhaseTraced self debug core fp numProcesses mpi targetProcess phantomForest
      part).1.map Event.operation =
      [Operation.exscan, Operation.bufferExchange, Operation.allGather,
        Operation.partitioner] := by
  unfold partitionerPhaseTraced
  simp only
  cases localMapping debug phantomForest
      (getBlockSequenceRange phantomForest mpi.subRank mpi.scan) with
  | none => intro h; exact Option.noConfusion h
  | some lm =>
    simp only
    cases mergeBuffers debug lm mpi.received with
    | none => intro h; exact Option.noConfusion h
    | some mapping =>
      simp only
      cases buildGraph self.edgeSource_ mapping targetProcess with
      | none => intro h; exact Option.noConfusion h
      | some g =>
        simp only
        split
        · intro h; exact Option.noConfusion h
        · split
          · intro h; exact Option.noConfusion h
          · intro _; rfl

/-- The trace of a call that returns: the two operations on the original communicator, the
trace of the partitioner phase, which has a result, and the all-to-all. -/
theorem callTraced_operations {D : Type} (self : DynamicParMetis) (debug : Bool)
    (core : ParMetisWrapper D) (fp : DoubleValues D) (rank numProcesses : Nat)
    (mpi : Collectives) (targetProcess : List (PhantomBlock D × Nat))
    (processesToRecvFrom : List Nat) (phantomForest : PhantomBlockForest D) (iteration : Nat)
    (res : List (PhantomBlock D × Nat) × List Nat × Bool) :
    (self.callTraced debug core fp rank numProcesses mpi targetProcess processesToRecvFrom
      phantomForest iteration).2 = some res →
    (∃ part, (phaseOfCall self debug core fp rank numProcesses mpi targetProcess
      phantomForest).2 = some part) ∧
    (self.callTraced debug core fp rank numProcesses mpi targetProcess processesToRecvFrom
      phantomForest iteration).1.map Event.operation =
      [Operation.allGatherv, Operation.commCreate] ++
        (phaseOfCall self debug core fp rank numProcesses mpi targetProcess
          phantomForest).1.map Event.operation ++ [Operation.alltoall] := by
  unfold DynamicParMetis.callTraced
  simp only
  have hphase : (if rank ∈ mpi.ranks then
      partitionerPhaseTraced self debug core fp numProcesses mpi targetProcess phantomForest
        (List.replicate phantomForest.getNumberOfBlocks (int64_c rank))
      else ([], some (List.replicate phantomForest.getNumberOfBlocks (int64_c rank)))) =
      phaseOfCall self debug core fp rank numProcesses mpi targetProcess phantomForest := rfl
  rw [hphase]
  cases (phaseOfCall self debug core fp rank numProcesses mpi targetProcess
      phantomForest).2 with
  | none => intro h; exact Option.noConfusion h
  | some part =>
    simp only
    cases isSendingBlockToProcess rank numProcesses part with
    | none => intro h; exact Option.noConfusion h
    | some sendbuf =>
      simp only
      cases assignTargets part targetProcess with
      | none => intro h; exact Option.noConfusion h
      | some tp =>
        intro _
        refine ⟨⟨part, rfl⟩, ?_⟩
        simp [Event.operation]

/-- C26: for a call of `operator()` that returns, on any rank, forest, configuration,
partitioner and collective results, the operations issued are, in this order, the all-gather
of the block-owning ranks and the communicator creation, then on a rank of the gathered list
the exclusive scan, the directory exchange, the all-gather of the range ends and the
partitioner call and on any other rank nothing, then the all-to-all; so the operations on the
original communicator are the same three on every rank, and the operations on the
sub-communicator are those four on the ranks of the gathered list, which are exactly the ranks
owning at least one block, and none on a rank without blocks. -/
theorem collective_trace {D : Type} (self : DynamicParMetis) (debug : Bool)
    (core : ParMetisWrapper D) (fp : DoubleValues D) (rank numProcesses : Nat)
    (mpi : Collectives) (targetProcess : List (PhantomBlock D × Nat))
    (processesToRecvFrom : List Nat) (phantomForest : PhantomBlockForest D) (iteration : Nat)
    (res : List (PhantomBlock D × Nat) × List Nat × Bool)
    (h : self.call debug core fp rank numProcesses mpi targetProcess processesToRecvFrom
      phantomForest iteration = some res) :
    (self.callTraced debug core fp rank numProcesses mpi targetProcess processesToRecvFrom
      phantomForest iteration).1.map Event.operation =
      [Operation.allGatherv, Operation.commCreate] ++
        (if rank ∈ mpi.ranks then
          [Operation.exscan, Operation.bufferExchange, Operation.allGather,
            Operation.partitioner]
        else []) ++ [Operation.alltoall] ∧
    ((self.callTraced debug core fp rank numProcesses mpi targetProcess processesToRecvFrom
      phantomForest iteration).1.filter (fun e => !e.onSubCommunicator)).map Event.operation =
      [Operation.allGatherv, Operation.commCreate, Operation.alltoall] ∧
    ((self.callTraced debug core fp rank numProcesses mpi targetProcess processesToRecvFrom
      phantomForest iteration).1.filter Event.onSubCommunicator).map Event.operation =
      (if rank ∈ mpi.ranks then
        [Operation.exscan, Operation.bufferExchange, Operation.allGather,
          Operation.partitioner]
      else []) ∧
    (∀ forests : List (PhantomBlockForest D), forests[rank]? = some phantomForest →
      mpi.ranks = gatheredRanks forests →
      (rank ∈ mpi.ranks ↔ 0 < phantomForest.getNumberOfBlocks)) := by
  have h2 : (self.callTraced debug core fp rank numProcesses mpi targetProcess
      processesToRecvFrom phantomForest iteration).2 = some res := by
    rw [callTraced_snd]; exact h
  obtain ⟨⟨part, hpart⟩, htrace⟩ := callTraced_operations self debug core fp rank numProcesses
    mpi targetProcess processesToRecvFrom phantomForest iteration res h2
  have hops : (phaseOfCall self debug core fp rank numProcesses mpi targetProcess
      phantomForest).1.map Event.operation =
      (if rank ∈ mpi.ranks then
        [Operation.exscan, Operation.bufferExchange, Operation.allGather,
          Operation.partitioner]
      else []) := by
    unfold phaseOfCall at hpart ⊢
    by_cases hr : rank ∈ mpi.ranks
    · rw [if_pos hr] at hpart ⊢
      rw [if_pos hr]
      exact partitionerPhaseTraced_operations self debug core fp numProcesses mpi
        targetProcess phantomForest _ part hpart
    · rw [if_neg hr, if_neg hr]
      rfl
  rw [hops] at htrace
  have hf1 : ∀ l : List (Event D),
      (l.filter (fun e => !e.onSubCommunicator)).map Event.operation =
        (l.map Event.operation).filter (fun o => !o.onSubCommunicator) := by
    intro l
    rw [List.filter_map]
    congr 2
    funext e
    simp [onSubCommunicator_operation]
  have hf2 : ∀ l : List (Event D),
      (l.filter Event.onSubCommunicator).map Event.operation =
        (l.map Event.operation).filter Operation.onSubCommunicator := by
    intro l
    rw [List.filter_map]
    congr 2
    funext e
    simp [onSubCommunicator_operation]
  refine ⟨htrace, ?_, ?_, ?_⟩
  · rw [hf1, htrace]
    split <;> rfl
  · rw [hf2, htrace]
    split <;> rfl
  · intro forests hf hranks
    rw [hranks]
    have hmem := (gathered_enumFrom forests 0).1 rank
    constructor
    · intro hr
      obtain ⟨_, g, hg, hpos⟩ := hmem.1
        (by simpa [gatheredRanks, allGatherv, List.enum] using hr)
      rw [Nat.sub_zero, hf] at hg
      rw [Option.some.inj hg]
      exact hpos
    · intro hpos
      have := hmem.2 ⟨Nat.zero_le _, phantomForest, by rw [Nat.sub_zero]; exact hf, hpos⟩
      simpa [gatheredRanks, allGatherv, List.enum] using this

/-- Witness of C26: the sample pass on rank 1 of 3, which owns two blocks, and the pass of a
rank without blocks. -/
theorem collective_trace_witness :
    (sampleConfig.callTraced true sampleWrapper sampleDoubles 1 3 blocklessCollectives [] []
        (sampleForest [] []) 0).1.map Event.operation =
      [Operation.allGatherv, Operation.commCreate, Operation.alltoall] ∧
    (sampleConfig.callTraced true sampleWrapper sampleDoubles 1 3 sampleCollectives
        sampleTargets [] sampleRankForest 7).1.map Event.operation =
      [Operation.allGatherv, Operation.commCreate] ++
        (if 1 ∈ sampleCollectives.ranks then
          [Operation.exscan, Operation.bufferExchange, Operation.allGather,
            Operation.partitioner]
        else []) ++ [Operation.alltoall] :=
  ⟨by decide,
    (collective_trace sampleConfig true sampleWrapper sampleDoubles 1 3 sampleCollectives
      sampleTargets [] sampleRankForest 7 _ (by decide :
        sampleConfig.call true sampleWrapper sampleDoubles 1 3 sampleCollectives sampleTargets
          [] sampleRankForest 7 =
        some ([(sampleBlock 1 [2, 7] [(2, 4)], 0), (sampleBlock 2 [1] [(1, 9), (7, 3)], 1)],
          [2], false))).1⟩

end blockforest

namespace boundary

/-! ## Refreshing the near-boundary flags -/

theorem isFlagSet_addFlag (value flag : Nat) : isFlagSet (addFlag value flag) flag = true := by
  simp only [isFlagSet, addFlag, decide_eq_true_eq]
  apply Nat.eq_of_testBit_eq
  intro i
  rw [Nat.testBit_land, Nat.testBit_lor]
  cases value.testBit i <;> cases flag.testBit i <;> rfl

theorem testBit_removeFlag (w value flag : Nat) (hf : flag < 2 ^ w) (i : Nat) :
    (removeFlag w value flag).testBit i =
      (value.testBit i && (decide (i < w) && !flag.testBit i)) := by
  unfold removeFlag
  have h : 2 ^ w - 1 - flag = 2 ^ w - (flag + 1) := by omega
  rw [Nat.testBit_land, h, Nat.testBit_two_pow_sub_succ hf]

theorem isFlagSet_removeFlag (w value flag : Nat) (hf : flag < 2 ^ w) (h0 : flag ≠ 0) :
    isFlagSet (removeFlag w value flag) flag = false := by
  simp only [isFlagSet, decide_eq_false_iff_not]
  intro h
  apply h0
  apply Nat.eq_of_testBit_eq
  intro i
  have hi := congrArg (fun n => n.testBit i) h
  simp only [Nat.testBit_land, testBit_removeFlag w value flag hf] at hi
  rw [Nat.zero_testBit]
  cases hb : flag.testBit i
  · rfl
  · rw [hb] at hi
    simp at hi

theorem land_addFlag (value flag mask : Nat) (h : flag &&& mask = 0) :
    addFlag value flag &&& mask = value &&& mask := by
  apply Nat.eq_of_testBit_eq
  intro i
  have hi := congrArg (fun n => n.testBit i) h
  simp only [Nat.testBit_land, Nat.zero_testBit] at hi
  simp only [addFlag, Nat.testBit_land, Nat.testBit_lor]
  cases hv : value.testBit i <;> cases hf : flag.testBit i <;> cases hm : mask.testBit i <;>
    simp_all

theorem land_removeFlag (w value flag mask : Nat) (hv : value < 2 ^ w) (hf : flag < 2 ^ w)
    (h : flag &&& mask = 0) :
    removeFlag w value flag &&& mask = value &&& mask := by
  apply Nat.eq_of_testBit_eq
  intro i
  have hi := congrArg (fun n => n.testBit i) h
  simp only [Nat.testBit_land, Nat.zero_testBit] at hi
  rw [Nat.testBit_land, Nat.testBit_land, testBit_removeFlag w value flag hf]
  by_cases hiw : i < w
  · cases hv' : value.testBit i <;> cases hf' : flag.testBit i <;>
      cases hm : mask.testBit i <;> simp_all
  · have hz : value.testBit i = false :=
      Nat.testBit_lt_two_pow (lt_of_lt_of_le hv (Nat.pow_le_pow_right (by omega) (by omega)))
    simp [hz]

theorem mem_coordinates (lo hi x : Int) : x ∈ coordinates lo hi ↔ lo ≤ x ∧ x ≤ hi := by
  unfold coordinates
  rw [List.mem_map]
  constructor
  · rintro ⟨k, hk, rfl⟩
    rw [List.mem_range] at hk
    omega
  · rintro ⟨h1, h2⟩
    refine ⟨(x - lo).toNat, ?_, ?_⟩
    · rw [List.mem_range]; omega
    · omega

theorem nodup_coordinates (lo hi : Int) : (coordinates lo hi).Nodup := by
  unfold coordinates
  apply List.Nodup.map _ (List.nodup_range _)
  intro a b h
  simp only at h
  omega

theorem mem_cells (ci : CellInterval) (cell : Cell) :
    cell ∈ ci.cells ↔ ci.contains cell = true := by
  simp only [CellInterval.cells, List.mem_flatMap, List.mem_map, mem_coordinates,
    CellInterval.contains, Bool.and_eq_true, decide_eq_true_eq]
  constructor
  · rintro ⟨z, hz, y, hy, x, hx, rfl⟩
    exact ⟨⟨⟨⟨⟨hx.1, hx.2⟩, hy.1⟩, hy.2⟩, hz.1⟩, hz.2⟩
  · rintro ⟨⟨⟨⟨⟨h1, h2⟩, h3⟩, h4⟩, h5⟩, h6⟩
    exact ⟨cell.z, ⟨h5, h6⟩, cell.y, ⟨h3, h4⟩, cell.x, ⟨h1, h2⟩, rfl⟩

theorem nodup_cells (ci : CellInterval) : ci.cells.Nodup := by
  unfold CellInterval.cells
  rw [List.nodup_flatMap]
  refine ⟨?_, ?_⟩
  · intro z _
    rw [List.nodup_flatMap]
    refine ⟨?_, ?_⟩
    · intro y _
      apply List.Nodup.map _ (nodup_coordinates _ _)
      intro a b h
      simp only [Cell.mk.injEq] at h
      exact h.1
    · apply (nodup_coordinates ci.yMin ci.yMax).imp
      intro a b hab
      intro c h1 h2
      obtain ⟨_, _, rfl⟩ := List.mem_map.1 h1
      obtain ⟨_, _, h⟩ := List.mem_map.1 h2
      simp only [Cell.mk.injEq] at h
      exact hab h.2.1.symm
  · apply (nodup_coordinates ci.zMin ci.zMax).imp
    intro a b hab
    intro c h1 h2
    obtain ⟨_, _, h1'⟩ := List.mem_flatMap.1 h1
    obtain ⟨_, _, h2'⟩ := List.mem_flatMap.1 h2
    obtain ⟨_, _, rfl⟩ := List.mem_map.1 h1'
    obtain ⟨_, _, h⟩ := List.mem_map.1 h2'
    simp only [Cell.mk.injEq] at h
    exact hab h.2.2.symm

theorem any_congr_mem {α : Type} (l : List α) (p q : α → Bool)
    (h : ∀ a ∈ l, p a = q a) : l.any p = l.any q := by
  induction l with
  | nil => rfl
  | cons a rest ih =>
    rw [List.any_cons, List.any_cons, h a (List.mem_cons_self _ _),
      ih (fun b hb => h b (List.mem_cons_of_mem _ hb))]

theorem neighbor_ne (cell : Cell) (d : Direction) (h : d ≠ Direction.C) :
    cell.neighbor d ≠ cell := by
  intro hc
  apply h
  obtain ⟨x, y, z⟩ := cell
  obtain ⟨cx, cy, cz⟩ := d
  simp only [Cell.neighbor, Cell.mk.injEq] at hc
  simp only [Direction.C, Direction.mk.injEq]
  omega

/-- The neighbours of a cell of the shrunk interval along directions with offsets between -1
and 1 are cells of the interval. -/
theorem neighbor_contained (ci : CellInterval) (cell : Cell) (d : Direction)
    (hc : ci.shrunk.contains cell = true)
    (hd : -1 ≤ d.cx ∧ d.cx ≤ 1 ∧ -1 ≤ d.cy ∧ d.cy ≤ 1 ∧ -1 ≤ d.cz ∧ d.cz ≤ 1) :
    ci.contains (cell.neighbor d) = true ∧ ci.contains cell = true := by
  simp only [CellInterval.contains, CellInterval.shrunk, Cell.neighbor, Bool.and_eq_true,
    decide_eq_true_eq] at hc ⊢
  omega

/-- The loop over the directions when every neighbour read is a cell of the flag field. -/
theorem flagNearBoundary_spec (bh : BoundaryHandling) (field : Cell → Nat) (cell : Cell)
    (dirs : List Direction)
    (hin : ∀ d ∈ dirs, bh.outerBB_.contains (cell.neighbor d) = true) :
    flagNearBoundary bh field cell dirs =
      some (if dirs.any (fun d => isPartOfMaskSet (field (cell.neighbor d)) bh.boundary_) then
        setCell field cell (addFlag (field cell) bh.nearBoundary_) else field) := by
  induction dirs with
  | nil => rfl
  | cons d rest ih =>
    simp only [flagNearBoundary, hin d (List.mem_cons_self _ _), if_true, List.any_cons]
    by_cases hb : isPartOfMaskSet (field (cell.neighbor d)) bh.boundary_ = true
    · simp [hb]
    · rw [if_neg hb, ih (fun d' hd' => hin d' (List.mem_cons_of_mem _ hd'))]
      simp [hb]

/-- The value a domain cell gets: the flag is removed, and added when a neighbour carries a bit
of `boundary_`; any other cell keeps its value. -/
theorem refreshCell_spec (w : Nat) (stencil : List Direction) (bh : BoundaryHandling)
    (field : Cell → Nat) (cell : Cell)
    (hcell : bh.outerBB_.contains cell = true)
    (hin : ∀ d ∈ beginNoCenter stencil, bh.outerBB_.contains (cell.neighbor d) = true) :
    refreshCell w stencil bh field cell =
      some (setCell field cell
        (if isPartOfMaskSet (field cell) bh.domain_ then
          (if (beginNoCenter stencil).any
              (fun d => isPartOfMaskSet (field (cell.neighbor d)) bh.boundary_) then
            addFlag (removeFlag w (field cell) bh.nearBoundary_) bh.nearBoundary_
          else removeFlag w (field cell) bh.nearBoundary_)
        else field cell)) := by
  unfold refreshCell
  rw [if_pos hcell]
  by_cases hdom : isPartOfMaskSet (field cell) bh.domain_ = true
  · rw [if_pos hdom, if_pos hdom, flagNearBoundary_spec _ _ _ _ hin]
    have hany : (beginNoCenter stencil).any (fun d => isPartOfMaskSet
        (setCell field cell (removeFlag w (field cell) bh.nearBoundary_) (cell.neighbor d))
        bh.boundary_) =
        (beginNoCenter stencil).any
          (fun d => isPartOfMaskSet (field (cell.neighbor d)) bh.boundary_) := by
      apply any_congr_mem
      intro d hd
      have hne : cell.neighbor d ≠ cell := by
        apply neighbor_ne
        have := (List.mem_filter.1 hd).2
        simpa using this
      simp only [setCell, if_neg hne]
    rw [hany]
    congr 1
    funext c
    by_cases hc : c = cell
    · subst hc
      split <;> simp [setCell]
    · split <;> simp [setCell, hc]
  · rw [if_neg hdom, if_neg hdom]
    congr 1
    funext c
    by_cases hc : c = cell
    · subst hc; simp [setCell]
    · simp [setCell, hc]

/-- The refreshed value differs from the old one in bits of the near-boundary flag only. -/
theorem refreshedValue_land (w : Nat) (stencil : List Direction) (bh : BoundaryHandling)
    (field : Cell → Nat) (cell : Cell) (mask : Nat) (hv : field cell < 2 ^ w)
    (hf : bh.nearBoundary_ < 2 ^ w) (h : bh.nearBoundary_ &&& mask = 0) :
    refreshedValue w stencil bh field cell &&& mask = field cell &&& mask := by
  unfold refreshedValue
  split
  · split
    · rw [land_addFlag _ _ _ h, land_removeFlag w _ _ _ hv hf h]
    · rw [land_removeFlag w _ _ _ hv hf h]
  · rfl

/-- The refreshed value reads the cell itself and the boundary bits of its neighbours. -/
theorem refreshedValue_congr (w : Nat) (stencil : List Direction) (bh : BoundaryHandling)
    (f g : Cell → Nat) (cell : Cell) (hcell : g cell = f cell)
    (hb : ∀ c, g c &&& bh.boundary_ = f c &&& bh.boundary_) :
    refreshedValue w stencil bh g cell = refreshedValue w stencil bh f cell := by
  unfold refreshedValue
  have hany : (beginNoCenter stencil).any
      (fun d => isPartOfMaskSet (g (cell.neighbor d)) bh.boundary_) =
      (beginNoCenter stencil).any
        (fun d => isPartOfMaskSet (f (cell.neighbor d)) bh.boundary_) := by
    apply any_congr_mem
    intro d _
    simp only [isPartOfMaskSet, hb]
  rw [hany, hcell]

/-- The loop over a list of distinct cells whose reads stay inside the flag field: every cell
of the list gets its refreshed value, computed from the content before the loop, and every
other cell keeps its value. -/
theorem refreshCells_spec (w : Nat) (stencil : List Direction) (bh : BoundaryHandling)
    (f : Cell → Nat) (hvalues : ∀ c, f c < 2 ^ w) (hflag : bh.nearBoundary_ < 2 ^ w)
    (hdisjoint : bh.nearBoundary_ &&& bh.boundary_ = 0) (cellList : List Cell) :
    cellList.Nodup →
    (∀ c ∈ cellList, bh.outerBB_.contains c = true ∧
      ∀ d ∈ beginNoCenter stencil, bh.outerBB_.contains (c.neighbor d) = true) →
    ∀ g : Cell → Nat, (∀ c, g c &&& bh.boundary_ = f c &&& bh.boundary_) →
      (∀ c ∈ cellList, g c = f c) →
      ∃ g' : Cell → Nat, refreshCells w stencil bh cellList g = some g' ∧
        (∀ c ∈ cellList, g' c = refreshedValue w stencil bh f c) ∧
        (∀ c, c ∉ cellList → g' c = g c) ∧
        (∀ c, g' c &&& bh.boundary_ = f c &&& bh.boundary_) := by
  induction cellList with
  | nil =>
    intro _ _ g hb _
    exact ⟨g, rfl, by simp, fun _ _ => rfl, hb⟩
  | cons c0 rest ih =>
    intro hnd hin g hb hg
    rw [List.nodup_cons] at hnd
    obtain ⟨hc0, hrest⟩ := hnd
    have hin0 := hin c0 (List.mem_cons_self _ _)
    have hstep := refreshCell_spec w stencil bh g c0 hin0.1 hin0.2
    have hval : refreshedValue w stencil bh g c0 = refreshedValue w stencil bh f c0 :=
      refreshedValue_congr w stencil bh f g c0 (hg c0 (List.mem_cons_self _ _)) hb
    have hstep' : refreshCell w stencil bh g c0 =
        some (setCell g c0 (refreshedValue w stencil bh f c0)) := by
      rw [hstep, ← hval]
      rfl
    have hb1 : ∀ c, setCell g c0 (refreshedValue w stencil bh f c0) c &&& bh.boundary_ =
        f c &&& bh.boundary_ := by
      intro c
      by_cases hc : c = c0
      · subst hc
        simp only [setCell, if_true]
        exact refreshedValue_land w stencil bh f c bh.boundary_ (hvalues c) hflag hdisjoint
      · simp only [setCell, if_neg hc]
        exact hb c
    have hg1 : ∀ c ∈ rest, setCell g c0 (refreshedValue w stencil bh f c0) c = f c := by
      intro c hc
      have hne : c ≠ c0 := fun h => hc0 (h ▸ hc)
      simp only [setCell, if_neg hne]
      exact hg c (List.mem_cons_of_mem _ hc)
    obtain ⟨g', hg', hin', hout', hb'⟩ := ih hrest
      (fun c hc => hin c (List.mem_cons_of_mem _ hc)) _ hb1 hg1
    refine ⟨g', ?_, ?_, ?_, hb'⟩
    · simp only [refreshCells, hstep', hg']
    · intro c hc
      rcases List.mem_cons.1 hc with rfl | hr
      · rw [hout' c hc0]
        simp [setCell]
      · exact hin' c hr
    · intro c hc
      rw [List.mem_cons, not_or] at hc
      rw [hout' c hc.2]
      simp only [setCell, if_neg hc.1]

/-- C30: for a boundary handling as its constructor leaves it (`innerBB_` is `outerBB_` shrunk
by one cell, the near-boundary flag is a non-zero flag of `flag_t` that shares no bit with
`boundary_`), a stencil with offsets between -1 and 1 and any content of the flag field and
any cell interval, `refresh( cells )` returns; afterwards the dirty marker is set, the masks and
intervals are as before, no cell changed in a bit outside the near-boundary flag, every cell of
`innerBB_` intersected with `cells` that carries a domain bit has the near-boundary flag set if
and only if one of its stencil neighbours (centre excluded) carries a boundary bit, and every
cell of that interval without a domain bit and every cell outside it keeps its value. -/
theorem refresh_near_boundary (w : Nat) (stencil : List Direction) (bh : BoundaryHandling)
    (cells : CellInterval)
    (hinner : bh.innerBB_ = bh.outerBB_.shrunk)
    (hstencil : ∀ d ∈ stencil,
      -1 ≤ d.cx ∧ d.cx ≤ 1 ∧ -1 ≤ d.cy ∧ d.cy ≤ 1 ∧ -1 ≤ d.cz ∧ d.cz ≤ 1)
    (hvalues : ∀ c, bh.flagField_ c < 2 ^ w)
    (hflag : bh.nearBoundary_ < 2 ^ w) (hflag0 : bh.nearBoundary_ ≠ 0)
    (hdisjoint : bh.nearBoundary_ &&& bh.boundary_ = 0) :
    ∃ bh' : BoundaryHandling, bh.refresh w stencil cells = some bh' ∧
      bh'.dirty_ = true ∧
      bh'.innerBB_ = bh.innerBB_ ∧ bh'.outerBB_ = bh.outerBB_ ∧
      bh'.nearBoundary_ = bh.nearBoundary_ ∧ bh'.boundary_ = bh.boundary_ ∧
      bh'.domain_ = bh.domain_ ∧
      (∀ (c : Cell) (mask : Nat), bh.nearBoundary_ &&& mask = 0 →
        bh'.flagField_ c &&& mask = bh.flagField_ c &&& mask) ∧
      ∀ c : Cell,
        ((bh.innerBB_.intersect cells).contains c = true →
          isPartOfMaskSet (bh.flagField_ c) bh.domain_ = true →
          (isFlagSet (bh'.flagField_ c) bh.nearBoundary_ = true ↔
            ∃ d ∈ beginNoCenter stencil,
              isPartOfMaskSet (bh'.flagField_ (c.neighbor d)) bh.boundary_ = true)) ∧
        ((bh.innerBB_.intersect cells).contains c = true →
          isPartOfMaskSet (bh.flagField_ c) bh.domain_ = false →
          bh'.flagField_ c = bh.flagField_ c) ∧
        ((bh.innerBB_.intersect cells).contains c = false →
          bh'.flagField_ c = bh.flagField_ c) := by
  have hlocal : ∀ c ∈ (bh.innerBB_.intersect cells).cells, bh.outerBB_.contains c = true ∧
      ∀ d ∈ beginNoCenter stencil, bh.outerBB_.contains (c.neighbor d) = true := by
    intro c hc
    rw [mem_cells] at hc
    have hsh : bh.outerBB_.shrunk.contains c = true := by
      rw [← hinner]
      simp only [CellInterval.contains, CellInterval.intersect, Bool.and_eq_true,
        decide_eq_true_eq] at hc ⊢
      omega
    refine ⟨(neighbor_contained bh.outerBB_ c Direction.C hsh (by simp [Direction.C])).2, ?_⟩
    intro d hd
    exact (neighbor_contained bh.outerBB_ c d hsh (hstencil d (List.mem_filter.1 hd).1)).1
  obtain ⟨g', hg', hin', hout', hb'⟩ := refreshCells_spec w stencil bh bh.flagField_ hvalues
    hflag hdisjoint (bh.innerBB_.intersect cells).cells (nodup_cells _) hlocal bh.flagField_
    (fun _ => rfl) (fun _ _ => rfl)
  have hmask : ∀ (c : Cell) (mask : Nat), bh.nearBoundary_ &&& mask = 0 →
      g' c &&& mask = bh.flagField_ c &&& mask := by
    intro c mask hm
    by_cases hc : c ∈ (bh.innerBB_.intersect cells).cells
    · rw [hin' c hc]
      exact refreshedValue_land w stencil bh bh.flagField_ c mask (hvalues c) hflag hm
    · rw [hout' c hc]
  refine ⟨{ bh with flagField_ := g', dirty_ := true }, ?_, rfl, rfl, rfl, rfl, rfl, rfl, hmask,
    ?_⟩
  · simp only [BoundaryHandling.refresh, hg']
  · intro c
    refine ⟨?_, ?_, ?_⟩
    · intro hc hdom
      have hval := hin' c ((mem_cells _ c).2 hc)
      simp only
      have hnb : ∀ d, isPartOfMaskSet (g' (c.neighbor d)) bh.boundary_ =
          isPartOfMaskSet (bh.flagField_ (c.neighbor d)) bh.boundary_ := by
        intro d
        simp only [isPartOfMaskSet, hb']
      simp only [hnb]
      rw [hval, ← List.any_eq_true]
      unfold refreshedValue
      rw [if_pos hdom]
      by_cases hany : (beginNoCenter stencil).any
          (fun d => isPartOfMaskSet (bh.flagField_ (c.neighbor d)) bh.boundary_) = true
      · rw [if_pos hany, isFlagSet_addFlag]
        simp [hany]
      · rw [if_neg hany, isFlagSet_removeFlag w _ _ hflag hflag0]
        simp [hany]
    · intro hc hdom
      have hval := hin' c ((mem_cells _ c).2 hc)
      simp only
      rw [hval]
      unfold refreshedValue
      rw [if_neg (by rw [hdom]; exact Bool.false_ne_true)]
    · intro hc
      have hnot : c ∉ (bh.innerBB_.intersect cells).cells := by
        rw [mem_cells, hc]
        exact Bool.false_ne_true
      exact hout' c hnot

/-- Witness of C30: the sample row of cells with 8-bit flags, refreshed on the cells
`x = 1 .. 3`: cell 1, next to the boundary cell 0, gets the flag; cell 3 loses its stale flag;
cell 0 keeps its value. -/
theorem refresh_near_boundary_witness :
    (sampleHandling.refresh 8 sampleStencil
        { xMin := 1, yMin := 0, zMin := 0, xMax := 3, yMax := 0, zMax := 0 }).map
      (fun bh => (bh.flagField_ { x := 0, y := 0, z := 0 }, bh.flagField_ { x := 1, y := 0, z := 0 },
        bh.flagField_ { x := 2, y := 0, z := 0 }, bh.flagField_ { x := 3, y := 0, z := 0 },
        bh.dirty_)) = some (2, 5, 4, 4, true) ∧
    ∃ bh' : BoundaryHandling,
      sampleHandling.refresh 8 sampleStencil
        { xMin := 1, yMin := 0, zMin := 0, xMax := 3, yMax := 0, zMax := 0 } = some bh' ∧
      bh'.dirty_ = true :=
  ⟨by decide,
    (refresh_near_boundary 8 sampleStencil sampleHandling
      { xMin := 1, yMin := 0, zMin := 0, xMax := 3, yMax := 0, zMax := 0 }
      (by decide) (by decide)
      (by intro c; simp only [sampleHandling]; split_ifs <;> decide)
      (by decide) (by decide) (by decide)).imp (fun _ h => ⟨h.1, h.2.1⟩)⟩

end boundary

end walberla
